import Mathlib

/-!
LJA: the parallel batch pipeline, the sharded collector and the minimizer index.

A shallow embedding of `src/tools/common/omp_utils.hpp` (`ParallelRecordCollector` and
its `Iterator`, `ParallelProcessor::processRecords` and `processObjects`, `runInFork`), of
`src/projects/dbg/minimizer_selection.cpp` (`constructMinimizers`), of
`src/tools/sequences/contigs.cpp` (`StringContig::compress`) and of the edge
concatenation `repeat_resolution::add`, with the properties of the specification stated
and proved over it.

Conventions of the embedding.

* A record source `[begin, end)` is a finite `List V`; `*begin; ++begin` takes the head.
* `std::vector` is a `List`; `emplace_back` appends at the end.
* Record sizes and counters are `Nat`.  The byte counters `clen` and `cur_length` are only
  ever increased from a value below `max_length = 2^30` by one record size, so for sizes a
  `std::string` can have (below `2^63`) the 64-bit additions of the source never wrap and
  the `Nat` additions here coincide with them; `total` counts records that were really
  pulled.  The one place where `size_t` arithmetic can wrap, `min_read_size`, is modelled
  modulo `2^64`.
* The OpenMP tasks a batch creates are recorded as data (`Bucket`); what a bucket task
  does when it runs is `Bucket.calls`.  A task reads `items[i]` only for `i < right`,
  positions that were written before the task was created and are never written again, so
  the batch array as it is at the end of the batch gives the values read.
* Unchecked indexing (`recs[omp_get_thread_num()]`, `items[i]`) is an `Option`: `none`
  stands for an index outside the vector.
* The `logger.trace()` lines are not modelled; the `logger.info()` lines of
  `constructMinimizers` are (`LogLine`).
* Definitions come first, lemmas and theorems after them.
-/

namespace LJA

/-! ## ParallelProcessor::processRecords -/

/-- `size_t buffer_size = 1024 * 1024;` -/
def buffer_size : Nat := 1024 * 1024

/-- `size_t max_length = 1024 * 1024 * 1024;` -/
def max_length : Nat := 1024 * 1024 * 1024

/-- A bucket task of `processRecords`: the `firstprivate(total, left, right)` values the
`omp task` captures when it is created. -/
structure Bucket where
  total : Nat
  left : Nat
  right : Nat
  deriving DecidableEq, Repr

/-- The variables of the coordinating thread inside the `omp single` block of one batch:
`items`, `clen`, `left`, `right`, `cur_length`, and the bucket tasks created so far (in
creation order). -/
structure Fill (V : Type) where
  items : List V
  clen : Nat
  left : Nat
  right : Nat
  cur_length : Nat
  tasks : List Bucket

/-- The state at the top of a batch: `clen = 0`, `items` empty,
`cur_pos = left = right = 0`, `cur_length = 0`, no task created. -/
def Fill.init (V : Type) : Fill V :=
  { items := [], clen := 0, left := 0, right := 0, cur_length := 0, tasks := [] }

/-- The loop guard `items.size() < buffer_size && clen < max_length` of the inner `while`
(the conjunct `begin != end` is the list pattern in `fillBatch`). -/
def Fill.room {V : Type} (st : Fill V) : Bool :=
  decide (st.items.length < buffer_size) && decide (st.clen < max_length)

/-- One iteration of the inner `while` of `processRecords` on the record `v = *begin`;
`atEnd` is `begin == end` evaluated after `++begin`. -/
def fillStep {V : Type} (size : V → Nat) (bucket_length total : Nat) (v : V) (atEnd : Bool)
    (st : Fill V) : Fill V :=
  let items := st.items ++ [v]
  let clen := st.clen + size v
  let cur_length := st.cur_length + size v
  let right := st.right + 1
  if decide (cur_length ≥ bucket_length) || atEnd || decide (items.length ≥ buffer_size)
      || decide (clen ≥ max_length) then
    { items := items, clen := clen, left := right, right := right, cur_length := 0,
      tasks := st.tasks ++ [{ total := total, left := st.left, right := right }] }
  else
    { items := items, clen := clen, left := st.left, right := right,
      cur_length := cur_length, tasks := st.tasks }

/-- The inner `while (begin != end && items.size() < buffer_size && clen < max_length)`:
returns the source that is left and the final state of the batch. -/
def fillBatch {V : Type} (size : V → Nat) (bucket_length total : Nat) :
    List V → Fill V → List V × Fill V
  | [], st => ([], st)
  | v :: rest, st =>
    if st.room then
      fillBatch size bucket_length total rest
        (fillStep size bucket_length total v rest.isEmpty st)
    else (v :: rest, st)

/-- What the coordinating thread does, in program order.  `doInParallel` and `bucket` are
task creations: the created tasks run concurrently, all before the `doAfter` of their
batch (the end of the `omp parallel` region is a barrier). -/
inductive Event where
  | doBefore
  | doInParallel
  | bucket (b : Bucket)
  | doAfter
  | doInTheEnd
  deriving DecidableEq, Repr

/-- One finished iteration of the outer `while`: the value of `total` during the batch,
the batch array `items`, its cumulative size `clen`, and the bucket tasks created. -/
structure Batch (V : Type) where
  total : Nat
  items : List V
  clen : Nat
  tasks : List Bucket

/-- A finished run of `processRecords`: its batches, the hook calls and task creations in
program order, and the final `total` and `total_len`. -/
structure Run (V : Type) where
  batches : List (Batch V)
  trace : List Event
  total : Nat
  total_len : Nat

/-- The outer `while (begin != end)` of `processRecords` followed by `doInTheEnd()`.
`fuel` bounds the number of batches; `none` means the bound was too small. -/
def processRecordsLoop {V : Type} (size : V → Nat) (bucket_length : Nat) :
    Nat → List V → Nat → Nat → Option (Run V)
  | _, [], total, total_len =>
    some { batches := [], trace := [Event.doInTheEnd], total := total, total_len := total_len }
  | 0, _ :: _, _, _ => none
  | fuel + 1, v :: rest, total, total_len =>
    let out := fillBatch size bucket_length total (v :: rest) (Fill.init V)
    let st := out.2
    match processRecordsLoop size bucket_length fuel out.1 (total + st.items.length)
        (total_len + st.clen) with
    | none => none
    | some run =>
      some { run with
        batches := { total := total, items := st.items, clen := st.clen, tasks := st.tasks }
          :: run.batches
        trace := [Event.doBefore, Event.doInParallel] ++ st.tasks.map Event.bucket
          ++ [Event.doAfter] ++ run.trace }

/-- `ParallelProcessor::processRecords(begin, end, bucket_length)` on the source `src`.
Every batch takes at least one record, so `src.length` batches always suffice. -/
def processRecords {V : Type} (size : V → Nat) (bucket_length : Nat) (src : List V) :
    Option (Run V) :=
  processRecordsLoop size bucket_length src.length src 0 0

/-- The body of a bucket task, `for (i = left; i < right; i++) self.task(total + i, items[i])`,
as the list of its calls of `task`.  `items` is the batch array; an index outside it reads
`none`. -/
def Bucket.calls {V : Type} (items : List V) (b : Bucket) : List (Nat × Option V) :=
  (List.range' b.left (b.right - b.left)).map fun i => (b.total + i, items[i]?)

/-- All calls of `task` made for one batch, bucket by bucket in creation order. -/
def Batch.calls {V : Type} (b : Batch V) : List (Nat × Option V) :=
  b.tasks.flatMap (Bucket.calls b.items)

/-- All calls of `task` of a run, batch by batch. -/
def Run.calls {V : Type} (r : Run V) : List (Nat × Option V) :=
  r.batches.flatMap Batch.calls

/-- The index ranges `[left, right)` of the buckets of a batch. -/
def Batch.ranges {V : Type} (b : Batch V) : List (Nat × Nat) :=
  b.tasks.map fun t => (t.left, t.right)

/-- The ranges `rs`, in order, tile `[a, n)`: the first starts at `a`, each next one starts
where the previous one ended, the last ends at `n`, and none is empty. -/
def Tiles : Nat → List (Nat × Nat) → Nat → Prop
  | a, [], n => a = n
  | a, r :: rs, n => r.1 = a ∧ r.1 < r.2 ∧ Tiles r.2 rs n

/-- The number of ranges of `rs` that contain the index `i`. -/
def cover (rs : List (Nat × Nat)) (i : Nat) : Nat :=
  (rs.filter fun r => decide (r.1 ≤ i) && decide (i < r.2)).length

/-- The batch the outer loop records from the final state of the inner loop. -/
def Fill.toBatch {V : Type} (total : Nat) (st : Fill V) : Batch V :=
  { total := total, items := st.items, clen := st.clen, tasks := st.tasks }

/-- The list `bs` is the sequence of batches the outer loop forms from the source `src`
starting with the counter `total`: each batch is what `fillBatch` builds from the source
left by the batch before it. -/
def Batched {V : Type} (size : V → Nat) (bucket_length : Nat) :
    List V → Nat → List (Batch V) → Prop
  | src, _, [] => src = []
  | src, total, b :: bs =>
    src ≠ [] ∧ b = (fillBatch size bucket_length total src (Fill.init V)).2.toBatch total ∧
    Batched size bucket_length (fillBatch size bucket_length total src (Fill.init V)).1
      (total + (fillBatch size bucket_length total src (Fill.init V)).2.items.length) bs

/-- The invariant of the inner loop of `processRecords`: `right` is the number of buffered
items, the buckets created so far carry the batch's `total` and tile `[0, left)`, and
`left` does not pass `right`. -/
def Fill.Inv {V : Type} (total : Nat) (st : Fill V) : Prop :=
  st.right = st.items.length ∧ st.left ≤ st.right ∧ (∀ t ∈ st.tasks, t.total = total) ∧
  Tiles 0 (st.tasks.map fun t => (t.left, t.right)) st.left

/-! ## ParallelRecordCollector -/

/-- `ParallelRecordCollector<T>`: the shards `std::vector<std::vector<T>> recs`, one per
worker thread. -/
structure ParallelRecordCollector (T : Type) where
  recs : List (List T)

/-- The constructor `ParallelRecordCollector(thread_num) : recs(thread_num)`: `thread_num`
empty shards. -/
def ParallelRecordCollector.new (T : Type) (thread_num : Nat) : ParallelRecordCollector T :=
  { recs := List.replicate thread_num [] }

/-- `add(rec)` executed by the thread whose `omp_get_thread_num()` is `thread`:
`recs[thread].emplace_back(rec)`.  The index is not checked in the source; `none` stands
for an index outside `recs`. -/
def ParallelRecordCollector.add {T : Type} (c : ParallelRecordCollector T) (thread : Nat)
    (rec : T) : Option (ParallelRecordCollector T) :=
  if thread < c.recs.length then
    some { recs := c.recs.modify (fun row => row ++ [rec]) thread }
  else none

/-- `addAll(begin, end)` executed by thread `thread`:
`recs[thread].insert(recs[thread].end(), begin, end)`, with `vals` the range
`[begin, end)`.  `none` stands for an index outside `recs`. -/
def ParallelRecordCollector.addAll {T : Type} (c : ParallelRecordCollector T) (thread : Nat)
    (vals : List T) : Option (ParallelRecordCollector T) :=
  if thread < c.recs.length then
    some { recs := c.recs.modify (fun row => row ++ vals) thread }
  else none

/-- `size()`: `res = 0; for (row : recs) res += row.size();`. -/
def ParallelRecordCollector.size {T : Type} (c : ParallelRecordCollector T) : Nat :=
  c.recs.foldl (fun res row => res + row.length) 0

/-- `empty()`: `size() == 0`. -/
def ParallelRecordCollector.empty {T : Type} (c : ParallelRecordCollector T) : Bool :=
  c.size == 0

/-- `collect()`: for every row in turn, every value of the row is appended to `res` and
the row is cleared.  Returns `res` and the collector as it is left. -/
def ParallelRecordCollector.collect {T : Type} (c : ParallelRecordCollector T) :
    List T × ParallelRecordCollector T :=
  let out := c.recs.foldl
    (fun (acc : List T × List (List T)) row =>
      (row.foldl (fun res val => res ++ [val]) acc.1, acc.2 ++ [[]]))
    ([], [])
  (out.1, { recs := out.2 })

/-- `clear()`: every row is cleared. -/
def ParallelRecordCollector.clear {T : Type} (c : ParallelRecordCollector T) :
    ParallelRecordCollector T :=
  { recs := c.recs.map fun _ => [] }

/-- Modelled from the spec: `__gnu_parallel::sort(res.begin(), res.end())` (and
`std::sort`) is library code outside the repository, the "total sort" of the
specification.  On a linear order every correct sort returns the same list; insertion
sort stands for it. -/
def sort {T : Type} [LinearOrder T] (res : List T) : List T :=
  res.insertionSort (· ≤ ·)

/-- Modelled from the spec: `std::unique` is library code outside the repository, the
"adjacent-duplicate removal" of the specification.  This is its scan after the first
element: `last` is the element the result iterator points at; an element equal to it is
dropped, any other is kept and becomes the new `last`. -/
def uniqueAux {T : Type} [DecidableEq T] (last : T) : List T → List T
  | [] => []
  | b :: l => if last = b then uniqueAux last l else b :: uniqueAux b l

/-- `res.erase(std::unique(res.begin(), res.end()), res.end())`: of every run of equal
adjacent elements only the first is kept. -/
def unique {T : Type} [DecidableEq T] : List T → List T
  | [] => []
  | a :: l => a :: uniqueAux a l

/-- `collectUnique()`: `collect()`, then sort, then erase adjacent duplicates.  Returns
the result and the collector as it is left. -/
def ParallelRecordCollector.collectUnique {T : Type} [LinearOrder T]
    (c : ParallelRecordCollector T) : List T × ParallelRecordCollector T :=
  let out := c.collect
  (unique (sort out.1), out.2)

/-! ## constructMinimizers -/

/-- `size_t min_read_size = hasher.getK() + w - 1;` in the 64-bit unsigned arithmetic of
`size_t`: `k + w - 1` modulo `2^64`, which is `2^64 - 1` when `k + w = 0`. -/
def min_read_size (k w : Nat) : Nat :=
  (k + w + (2 ^ 64 - 1)) % 2 ^ 64

/-- The two things `constructMinimizers` asks of a record, both outside the given source:
`seqSize contig` is `contig.makeSequence().size()` and `minimizerHashs w contig` is
`MinimizerCalculator(seq, hasher, w).minimizerHashs()` for the fixed `hasher`. -/
structure Sketcher (V H : Type) where
  seqSize : V → Nat
  minimizerHashs : Nat → V → List H

/-- What the task lambda hands to `hashs.addAll`: the minimizers of the record, sorted and
with adjacent duplicates erased when there are more than 10 of them. -/
def localMinimizers {V H : Type} [LinearOrder H] (sk : Sketcher V H) (w : Nat) (contig : V) :
    List H :=
  let minimizers := sk.minimizerHashs w contig
  if minimizers.length > 10 then unique (sort minimizers) else minimizers

/-- The task lambda of `constructMinimizers`, run by the thread `thread` on
`(pos, contig)`, as a transformation of the collector `hashs`. -/
def task {V H : Type} [LinearOrder H] (sk : Sketcher V H) (k w : Nat)
    (hashs : ParallelRecordCollector H) (thread : Nat) (_pos : Nat) (contig : V) :
    Option (ParallelRecordCollector H) :=
  if sk.seqSize contig ≥ min_read_size k w then
    hashs.addAll thread (localMinimizers sk w contig)
  else some hashs

/-- One executed call of the task function: the thread that ran it and its arguments. -/
structure TaskRun (V : Type) where
  thread : Nat
  pos : Nat
  contig : V

/-- The effect on the collector of the task calls `exec`, listed in the order in which
they happened.  (Calls on different threads touch different shards, so every order that
respects the order of each thread gives the same collector.) -/
def runTasks {V H : Type} [LinearOrder H] (sk : Sketcher V H) (k w : Nat) :
    List (TaskRun V) → ParallelRecordCollector H → Option (ParallelRecordCollector H)
  | [], hashs => some hashs
  | e :: es, hashs =>
    (task sk k w hashs e.thread e.pos e.contig).bind (runTasks sk k w es)

/-- The `logger.info()` lines of `constructMinimizers`. -/
inductive LogLine where
  | readingReads
  | extractingMinimizers
  | finishedReadProcessing
  | hashsCollected (n : Nat)
  | finishedSorting (distinct : Nat)
  | warningNoReadsPassed (min_read_size : Nat)
  deriving DecidableEq, Repr

/-- `exec` is a possible execution, on `threads` worker threads, of the task calls that
`processRecords` (with its default `bucket_length = 1024 * 1024`) makes on `reads`: the
calls are those of the run, in some order, each on a thread number below `threads`. -/
def IsExecution {V : Type} (size : V → Nat) (threads : Nat) (reads : List V)
    (exec : List (TaskRun V)) : Prop :=
  (∃ run, processRecords size (1024 * 1024) reads = some run ∧
    (exec.map fun e => (e.pos, some e.contig)).Perm run.calls) ∧
  ∀ e ∈ exec, e.thread < threads

/-- `constructMinimizers(logger, reads_file, threads, hasher, w)` for an execution `exec`
of the task calls: the returned `hash_list` and the lines logged.  `none` stands for a
shard index outside the collector. -/
def constructMinimizers {V H : Type} [LinearOrder H] (sk : Sketcher V H) (k w threads : Nat)
    (exec : List (TaskRun V)) : Option (List H × List LogLine) :=
  match runTasks sk k w exec (ParallelRecordCollector.new H threads) with
  | none => none
  | some hashs =>
    let hash_list := hashs.collectUnique.1
    some (hash_list,
      [LogLine.readingReads, LogLine.extractingMinimizers, LogLine.finishedReadProcessing,
        LogLine.hashsCollected hashs.size, LogLine.finishedSorting hash_list.length]
      ++ (if hash_list.length = 0 then [LogLine.warningNoReadsPassed (min_read_size k w)]
          else []))

/-- What a record adds to the collector: its local minimizers when it passes the length
filter, nothing otherwise. -/
def contribution {V H : Type} [LinearOrder H] (sk : Sketcher V H) (k w : Nat) (contig : V) :
    List H :=
  if sk.seqSize contig ≥ min_read_size k w then localMinimizers sk w contig else []

/-- The Global Index in the words of the specification: the sorted, duplicate-free set of
all hashes the sketcher emits for the records whose length is at least `bound`, the
`k + w - 1` of the specification.  No local deduplication takes part in it. -/
def globalIndexSpec {V H : Type} [LinearOrder H] (sk : Sketcher V H) (bound w : Nat)
    (reads : List V) : List H :=
  (((reads.filter fun r => decide (sk.seqSize r ≥ bound)).flatMap
    (sk.minimizerHashs w)).toFinset).sort (· ≤ ·)

/-- What `constructMinimizers` returns and logs when `all` is the content of the
collector after the parallel phase, in any order. -/
def resultOf {H : Type} [LinearOrder H] (k w : Nat) (all : List H) : List H × List LogLine :=
  (unique (sort all),
    [LogLine.readingReads, LogLine.extractingMinimizers, LogLine.finishedReadProcessing,
      LogLine.hashsCollected all.length, LogLine.finishedSorting (unique (sort all)).length]
    ++ (if (unique (sort all)).length = 0 then
          [LogLine.warningNoReadsPassed (min_read_size k w)]
        else []))

/-! ## runInFork -/

/-- How a process stops existing: `exit(code)` (or the return from `main`), or the
delivery of a fatal signal. -/
inductive Termination where
  | exited (code : Nat)
  | signaled (sig : Nat) (coreDumped : Bool)
  deriving DecidableEq, Repr

/-- What a piece of code does to the process that runs it: it returns to its caller, or
the process terminates inside it. -/
inductive Outcome where
  | returns
  | terminates (t : Termination)
  deriving DecidableEq, Repr

/-- Modelled from the spec: the wait status that `waitpid` stores for a terminated child
comes from the operating system, not from the repository.  The specification speaks of
the child's "exit status" and of termination "by signal"; this is the Linux encoding of
the two: the low 8 bits of the exit code in bits 8..15, or the signal number in bits
0..6 with bit 7 set when a core was dumped. -/
def waitStatus : Termination → Nat
  | Termination.exited code => (code % 256) <<< 8
  | Termination.signaled sig coreDumped => sig % 128 + (if coreDumped then 128 else 0)

/-- Modelled from the spec: the macro `WEXITSTATUS` of the platform header `<wait.h>` is
not in the repository.  It is the "exit status" of the specification; glibc defines it as
`((status) & 0xff00) >> 8`. -/
def WEXITSTATUS (status : Nat) : Nat :=
  (status &&& 0xff00) >>> 8

/-- The C conversion of a small non-negative `int` to `signed char` (two's complement,
8 bits). -/
def toSignedChar (n : Nat) : Int :=
  if n % 256 < 128 then (n % 256 : Nat) else ((n % 256 : Nat) : Int) - 256

/-- Modelled from the spec: the macro `WIFSIGNALED` of the platform header `<wait.h>` is
not in the repository.  It is "terminated by signal" of the specification; glibc defines
it as `((signed char) (((status) & 0x7f) + 1) >> 1) > 0`. -/
def WIFSIGNALED (status : Nat) : Bool :=
  decide (toSignedChar ((status &&& 0x7f) + 1) >>> (1 : Nat) > 0)

/-- `runInFork(f)` in one of the processes that leave `fork()`: `p` is the value `fork`
returned there, `f` is what the unit of work does to the process that runs it, and
`status` is what `waitpid` stored (read in the parent only).  Returns the lines written
to `std::cout` and what happens to the process. -/
def runInFork (p : Int) (f : Outcome) (status : Nat) : List String × Outcome :=
  if p < 0 then
    (["Fork failed"], Outcome.terminates (Termination.exited 1))
  else if p = 0 then
    match f with
    | Outcome.returns => ([], Outcome.terminates (Termination.exited 0))
    | Outcome.terminates t => ([], Outcome.terminates t)
  else
    if WEXITSTATUS status ≠ 0 || WIFSIGNALED status then
      (["Child process crashed"], Outcome.terminates (Termination.exited 1))
    else ([], Outcome.returns)

/-- The termination of the child process of `runInFork(f)`: what the branch `p == 0` of
`runInFork` (`f(); exit(0);`) does to the process that runs it.  `none` stands for a branch
that gives control back to the caller of `runInFork`: the child would then go on with the
caller's code and `runInFork` would not have terminated it. -/
def childTermination (f : Outcome) : Option Termination :=
  match (runInFork 0 f 0).2 with
  | Outcome.returns => none
  | Outcome.terminates t => some t

/-- The parent of `runInFork(f)` after `waitpid(p, &status, 0)`, where `status` is the wait
status of the termination of the child of the same call: what happens to the calling
process.  `none` when `runInFork` does not terminate the child. -/
def parentAfterChild (p : Int) (f : Outcome) : Option Outcome :=
  (childTermination f).map fun t => (runInFork p f (waitStatus t)).2

/-! ## Concrete data for the worked examples -/

/-- A sketcher on records that are their own length (`Nat`): the record `n` yields the
hashes `n` and `n + w`. -/
def exampleSketcher : Sketcher Nat Nat :=
  { seqSize := fun n => n, minimizerHashs := fun w n => [n, n + w] }

/-- A sketcher that repeats itself: the record `n` has length `n` and yields the `n`
hashes `i * 7 % 5 + w` for `i < n`, out of order and with repetitions (for `n = 13` and
`w = 2`: `2, 4, 6, 3, 5, 2, 4, 6, 3, 5, 2, 4, 6`). -/
def repeatSketcher : Sketcher Nat Nat :=
  { seqSize := fun n => n, minimizerHashs := fun w n => (List.range n).map fun i => i * 7 % 5 + w }

/-- The reads `13, 1, 4` on two threads, out of source order. -/
def execRepeats : List (TaskRun Nat) :=
  [{ thread := 1, pos := 2, contig := 4 }, { thread := 0, pos := 0, contig := 13 },
    { thread := 1, pos := 1, contig := 1 }]

/-- The reads `5, 1, 7` all run by thread 0, in source order. -/
def execOneThread : List (TaskRun Nat) :=
  [{ thread := 0, pos := 0, contig := 5 }, { thread := 0, pos := 1, contig := 1 },
    { thread := 0, pos := 2, contig := 7 }]

/-- The reads `5, 1, 7` spread over the threads 7, 3 and 0 of eight, out of source order. -/
def execEightThreads : List (TaskRun Nat) :=
  [{ thread := 7, pos := 2, contig := 7 }, { thread := 3, pos := 0, contig := 5 },
    { thread := 0, pos := 1, contig := 1 }]

/-- Records of the sequence lengths `30, 5, 40`, run by threads 0, 1, 0. -/
def execLengths : List (TaskRun Nat) :=
  [{ thread := 0, pos := 0, contig := 30 }, { thread := 1, pos := 1, contig := 5 },
    { thread := 0, pos := 2, contig := 40 }]

/-- What the coordinating thread does for one batch, in program order: `doBefore()`, the
creation of the `doInParallel` task, the creation of the bucket tasks, and, after the
barrier that ends the parallel region, `doAfter()`. -/
def Batch.events {V : Type} (b : Batch V) : List Event :=
  [Event.doBefore, Event.doInParallel] ++ b.tasks.map Event.bucket ++ [Event.doAfter]

/-- The summed size of the items at the batch positions `[l, r)`. -/
def sumRange {V : Type} (size : V → Nat) (items : List V) (l r : Nat) : Nat :=
  (((items.drop l).take (r - l)).map size).sum

/-- The invariant of the inner loop of `processRecords` on the counters: at most
`buffer_size` items are buffered, `clen` is their summed size and was below `max_length`
before the last item was added, `cur_length` is the summed size of the items of the open
bucket and is below `bucket_length` while the bucket is non-empty, and every closed
bucket is a non-empty range of buffered items whose items without the last sum to less
than `bucket_length` when there are at least two of them. -/
def Fill.Sums {V : Type} (size : V → Nat) (bucket_length : Nat) (st : Fill V) : Prop :=
  st.right = st.items.length ∧ st.left ≤ st.right ∧
  st.items.length ≤ buffer_size ∧
  st.clen = (st.items.map size).sum ∧
  st.cur_length = ((st.items.drop st.left).map size).sum ∧
  (st.left < st.items.length → st.cur_length < bucket_length) ∧
  (st.items ≠ [] → (st.items.dropLast.map size).sum < max_length) ∧
  ∀ t ∈ st.tasks, t.left < t.right ∧ t.right ≤ st.items.length ∧
    (t.left + 1 < t.right → sumRange size st.items t.left (t.right - 1) < bucket_length)

/-- The part of the invariant that looks ahead: a closed bucket whose items sum to less
than `bucket_length` is the one closed last, and the loop stops after it (the source
`rest` is exhausted or a cap is reached). -/
def Fill.Full {V : Type} (size : V → Nat) (bucket_length : Nat) (rest : List V)
    (st : Fill V) : Prop :=
  ∀ t ∈ st.tasks, bucket_length ≤ sumRange size st.items t.left t.right ∨
    (t.right = st.items.length ∧ (rest = [] ∨ st.room = false))

/-! ## ParallelRecordCollector::Iterator -/

/-- `ParallelRecordCollector<T>::Iterator`: the position `(row, col)`; the collector
`data` it refers to is passed to its operations. -/
structure Iterator where
  row : Nat
  col : Nat
  deriving DecidableEq, Repr

/-- The loop `while (row < data.recs.size() && col == data.recs[row].size())
{ row += 1; col = 0; }` of the constructor and of `operator++`; `rows` is the part of
`recs` from index `row` on, so it is empty exactly when `row < data.recs.size()` fails
and otherwise its head is `data.recs[row]`. -/
def skipRows {T : Type} : List (List T) → Nat → Nat → Iterator
  | [], row, col => { row := row, col := col }
  | r :: rows, row, col =>
    if col = r.length then skipRows rows (row + 1) 0 else { row := row, col := col }

/-- The constructor `Iterator(data, row, col)`. -/
def Iterator.new {T : Type} (data : ParallelRecordCollector T) (row col : Nat) : Iterator :=
  skipRows (data.recs.drop row) row col

/-- `operator++`: `col += 1`, then the loop. -/
def Iterator.next {T : Type} (data : ParallelRecordCollector T) (it : Iterator) : Iterator :=
  skipRows (data.recs.drop it.row) it.row (it.col + 1)

/-- `operator*`: `data.recs[row][col]`; `none` stands for an index outside `recs` or
outside the row. -/
def Iterator.deref {T : Type} (data : ParallelRecordCollector T) (it : Iterator) : Option T :=
  (data.recs[it.row]?).bind fun r => r[it.col]?

/-- `begin()`: `Iterator(*this, 0, 0)`. -/
def ParallelRecordCollector.begin {T : Type} (data : ParallelRecordCollector T) : Iterator :=
  Iterator.new data 0 0

/-- `end()`: `Iterator(*this, recs.size(), 0)`. -/
def ParallelRecordCollector.end_ {T : Type} (data : ParallelRecordCollector T) : Iterator :=
  Iterator.new data data.recs.length 0

/-- The traversal `for (it = begin(); it != end(); ++it) visit(*it)` (the range-`for` of
`operator<<`), started at `it`: the values `*it` in the order visited.  `operator!=` is
`row != other.row || col != other.col`.  `fuel` bounds the number of steps; `none` means
the bound was too small. -/
def traverse {T : Type} (data : ParallelRecordCollector T) : Nat → Iterator →
    Option (List (Option T))
  | fuel, it =>
    if it.row ≠ data.end_.row ∨ it.col ≠ data.end_.col then
      match fuel with
      | 0 => none
      | fuel + 1 =>
        (traverse data fuel (Iterator.next data it)).map fun vs => Iterator.deref data it :: vs
    else some []

/-- The elements at and after the position `col` of the first of the rows `rows`. -/
def remaining {T : Type} : List (List T) → Nat → List T
  | [], _ => []
  | r :: rows, col => r.drop col ++ rows.flatten

/-- A position that the loop of the iterator leaves: past the last row with `col = 0`,
or inside the first of the rows `rows`. -/
def NormalRows {T : Type} : List (List T) → Nat → Prop
  | [], col => col = 0
  | r :: _, col => col < r.length

/-- An iterator of `data` as its constructor and `operator++` leave it: `end()`, or a
position of an element. -/
def Iterator.Normal {T : Type} (data : ParallelRecordCollector T) (it : Iterator) : Prop :=
  it.row ≤ data.recs.length ∧ NormalRows (data.recs.drop it.row) it.col

/-! ## repeat_resolution::add -/

/-- Modelled from the spec: the class `RREdgeProperty` is declared in a header that is
not among the given sources.  It is taken as the three values that `add` passes to its
constructor in `return {index, std::move(new_seq), unique}` and reads back through
`get_index()`, `get_seq()` (a `std::list<char>`) and `is_unique()`. -/
structure RREdgeProperty where
  index : Nat
  seq : List Char
  unique : Bool
  deriving DecidableEq, Repr

/-- Modelled from the spec: `RREdgeProperty::size()` is declared in the same missing
header; it is taken as the length of the sequence, `get_seq().size()`. -/
def RREdgeProperty.size (e : RREdgeProperty) : Nat :=
  e.seq.length

/-- The ways in which a call of `add` can go wrong. -/
inductive AddFault where
  | verifyFailed
  | steppedPastEnd
  | dereferencedEnd
  deriving DecidableEq, Repr

/-- The loop `for (i = 0; i < overlap_len; ++i) lhs_it++` on a reverse iterator of a list
of `len` elements: the iterator is its distance `pos` from `rbegin()`, `rend()` is at
distance `len`, and incrementing `rend()` is a fault. -/
def advanceRev (len : Nat) : Nat → Nat → Except AddFault Nat
  | 0, pos => Except.ok pos
  | n + 1, pos =>
    if pos < len then advanceRev len n (pos + 1) else Except.error AddFault.steppedPastEnd

/-- `*lhs_it` for a reverse iterator at distance `pos` from `rbegin()`: the element at
index `size - 1 - pos`; dereferencing `rend()` is a fault. -/
def derefRev (seq : List Char) (pos : Nat) : Except AddFault Char :=
  if pos < seq.length then
    match seq[seq.length - 1 - pos]? with
    | some c => Except.ok c
    | none => Except.error AddFault.dereferencedEnd
  else Except.error AddFault.dereferencedEnd

/-- The loop `for (i = 0; i < overlap_len + 1; ++i) { new_seq.emplace_back(*rhs_it);
++rhs_it; }` with `n` iterations left, `rhs_it` at index `pos` of `seq` and `end()` at
index `seq.size()`: dereferencing `end()` is a fault. -/
def copyPrefix (seq : List Char) : Nat → Nat → List Char → Except AddFault (List Char)
  | 0, _, new_seq => Except.ok new_seq
  | n + 1, pos, new_seq =>
    match seq[pos]? with
    | some c => copyPrefix seq n (pos + 1) (new_seq ++ [c])
    | none => Except.error AddFault.dereferencedEnd

/-- `repeat_resolution::add(lhs, rhs, overlap_len, index)`.  A failing `VERIFY` and a
misused iterator are faults.  (`overlap_len + 1` cannot wrap: after the two `VERIFY`s
`overlap_len` is below a `size()`, itself at most `2^64 - 1`.) -/
def add (lhs rhs : RREdgeProperty) (overlap_len index : Nat) :
    Except AddFault RREdgeProperty :=
  if ¬ (lhs.size > overlap_len) then Except.error AddFault.verifyFailed
  else if ¬ (rhs.size > overlap_len) then Except.error AddFault.verifyFailed
  else
    let unique := lhs.unique || rhs.unique
    match advanceRev lhs.seq.length overlap_len 0 with
    | Except.error f => Except.error f
    | Except.ok lhs_it =>
      match derefRev lhs.seq lhs_it with
      | Except.error f => Except.error f
      | Except.ok lhs_char =>
        match copyPrefix rhs.seq (overlap_len + 1) 0 [lhs_char] with
        | Except.error f => Except.error f
        | Except.ok new_seq =>
          Except.ok { index := index, seq := new_seq, unique := unique }

/-! ## ParallelProcessor::processObjects -/

/-- What the coordinating thread of `processObjects` does, in program order.
`doInOneThread item` is a call made by the coordinating thread itself; `doInParallel` and
`bucket` are task creations. -/
inductive ObjEvent (V : Type) where
  | doBefore
  | doInParallel
  | doInOneThread (item : V)
  | bucket (b : Bucket)
  | doAfter
  | doInTheEnd

/-- The variables of the coordinating thread inside the `omp single` block of one batch
of `processObjects`: `items` (the objects the stored pointers refer to), `left`, `right`,
the bucket tasks created so far, and the calls and task creations made so far inside the
block. -/
structure ObjFill (V : Type) where
  items : List V
  left : Nat
  right : Nat
  tasks : List Bucket
  trace : List (ObjEvent V)

/-- The state at the top of a batch of `processObjects`. -/
def ObjFill.init (V : Type) : ObjFill V :=
  { items := [], left := 0, right := 0, tasks := [], trace := [] }

/-- The innermost loop `while (begin != end && items.size() < buffer_size &&
right - left < bucket_size) { items.push_back(&(*begin)); self.doInOneThread(*items.back());
++begin; right += 1; }`. -/
def pullBucket {V : Type} (bucket_size : Nat) : List V → ObjFill V → List V × ObjFill V
  | [], st => ([], st)
  | v :: rest, st =>
    if decide (st.items.length < buffer_size) && decide (st.right - st.left < bucket_size) then
      pullBucket bucket_size rest
        { st with items := st.items ++ [v], trace := st.trace ++ [ObjEvent.doInOneThread v],
                  right := st.right + 1 }
    else (v :: rest, st)

/-- One iteration of the bucket-cutting loop of `processObjects`: `left` and `right` are
set to `items.size()`, the innermost loop runs, and the bucket task is created with the
values `total`, `left`, `right`. -/
def cutStep {V : Type} (bucket_size total : Nat) (src : List V) (st : ObjFill V) :
    List V × ObjFill V :=
  let out := pullBucket bucket_size src
    { st with left := st.items.length, right := st.items.length }
  let b : Bucket := { total := total, left := out.2.left, right := out.2.right }
  (out.1, { out.2 with tasks := out.2.tasks ++ [b], trace := out.2.trace ++ [ObjEvent.bucket b] })

/-- The bucket-cutting loop `while (begin != end && items.size() < buffer_size)` of
`processObjects`.  `fuel` bounds the number of iterations; `none` means the bound was too
small. -/
def cutBuckets {V : Type} (bucket_size total : Nat) : Nat → List V → ObjFill V →
    Option (List V × ObjFill V)
  | fuel, src, st =>
    if !src.isEmpty && decide (st.items.length < buffer_size) then
      match fuel with
      | 0 => none
      | fuel + 1 =>
        cutBuckets bucket_size total fuel (cutStep bucket_size total src st).1
          (cutStep bucket_size total src st).2
    else some (src, st)

/-- A finished run of `processObjects`: its batches (with `clen` unused and 0), the calls
and task creations of the coordinating thread in program order, and the final `total`. -/
structure ObjRun (V : Type) where
  batches : List (Batch V)
  trace : List (ObjEvent V)
  total : Nat

/-- The outer `while (begin != end)` of `processObjects` followed by `doInTheEnd()`.
`inner` is the fuel given to the bucket-cutting loop of every batch, the first `Nat`
bounds the number of batches; `none` means a bound was too small. -/
def processObjectsLoop {V : Type} (bucket_size inner : Nat) :
    Nat → List V → Nat → Option (ObjRun V)
  | _, [], total => some { batches := [], trace := [ObjEvent.doInTheEnd], total := total }
  | 0, _ :: _, _ => none
  | fuel + 1, v :: rest, total =>
    (cutBuckets bucket_size total inner (v :: rest) (ObjFill.init V)).bind fun out =>
      (processObjectsLoop bucket_size inner fuel out.1 (total + out.2.items.length)).map
        fun run =>
          { run with
            batches := { total := total, items := out.2.items, clen := 0,
                         tasks := out.2.tasks } :: run.batches
            trace := [ObjEvent.doBefore, ObjEvent.doInParallel] ++ out.2.trace
              ++ [ObjEvent.doAfter] ++ run.trace }

/-- `processObjects` with the bound `fuel` on the iterations of each of its loops. -/
def processObjectsFuel {V : Type} (fuel bucket_size : Nat) (src : List V) :
    Option (ObjRun V) :=
  processObjectsLoop bucket_size fuel fuel src 0

/-- `ParallelProcessor::processObjects(begin, end, bucket_size)` on the source `src`,
with as many iterations allowed to each loop as the source has items. -/
def processObjects {V : Type} (bucket_size : Nat) (src : List V) : Option (ObjRun V) :=
  processObjectsFuel src.length bucket_size src

/-- All calls of `task` of a run of `processObjects`, batch by batch. -/
def ObjRun.calls {V : Type} (r : ObjRun V) : List (Nat × Option V) :=
  r.batches.flatMap Batch.calls

/-- The items `doInOneThread` was called on, in the order of the calls. -/
def hookItems {V : Type} : List (ObjEvent V) → List V
  | [] => []
  | ObjEvent.doInOneThread v :: es => v :: hookItems es
  | _ :: es => hookItems es

/-- The items of the bucket `t` of a batch with the array `items`. -/
def bucketItems {V : Type} (items : List V) (t : Bucket) : List V :=
  (items.drop t.left).take (t.right - t.left)

/-- What the coordinating thread of `processObjects` does for one bucket: it calls
`doInOneThread` on each item of the bucket, in order, and then creates the bucket task. -/
def bucketEvents {V : Type} (items : List V) (t : Bucket) : List (ObjEvent V) :=
  (bucketItems items t).map ObjEvent.doInOneThread ++ [ObjEvent.bucket t]

/-- What the coordinating thread of `processObjects` does for one batch. -/
def Batch.objEvents {V : Type} (b : Batch V) : List (ObjEvent V) :=
  [ObjEvent.doBefore, ObjEvent.doInParallel] ++ b.tasks.flatMap (bucketEvents b.items)
    ++ [ObjEvent.doAfter]

/-- The invariant of the bucket-cutting loop of `processObjects`: the buckets created so
far carry the batch's `total` and tile `[0, items.size())`, and the calls made so far are
those of the buckets, one bucket after the other. -/
def ObjFill.Inv {V : Type} (total : Nat) (st : ObjFill V) : Prop :=
  (∀ t ∈ st.tasks, t.total = total ∧ t.right ≤ st.items.length) ∧
  Tiles 0 (st.tasks.map fun t => (t.left, t.right)) st.items.length ∧
  st.trace = st.tasks.flatMap (bucketEvents st.items)

/-- The batch the outer loop of `processObjects` records. -/
def ObjFill.toBatch {V : Type} (total : Nat) (st : ObjFill V) : Batch V :=
  { total := total, items := st.items, clen := 0, tasks := st.tasks }

/-! ## StringContig::compress -/

/-- The static members `homopolymer_compressing`, `min_dimer_to_compress`,
`max_dimer_size` and `dimer_step` of `StringContig`. -/
structure CompressParams where
  homopolymer_compressing : Bool
  min_dimer_to_compress : Nat
  max_dimer_size : Nat
  dimer_step : Nat
  deriving DecidableEq, Repr

/-- The ways in which a call of `compress` can go wrong: a failing `VERIFY`, an index
outside `seq`, or a `size_t` counter that is decreased below zero. -/
inductive CompressFault where
  | verifyFailed
  | outOfRange
  | counterWrapped
  deriving DecidableEq, Repr

/-- The variables of the `for` loop of `compress`: the string `seq`, which is rewritten in
place, the write position `cur` and the length `at_len` of the current dimer run. -/
structure CompressState (α : Type) where
  seq : List α
  cur : Nat
  at_len : Nat
  deriving DecidableEq, Repr

/-- The test `i < seq.size() && seq[i] == seq[cur - 2]`. -/
def continuesRun {α : Type} [DecidableEq α] (i : Nat) (st : CompressState α) :
    Except CompressFault Bool :=
  if i < st.seq.length then
    if st.cur < 2 then Except.error CompressFault.counterWrapped
    else
      match st.seq[i]?, st.seq[st.cur - 2]? with
      | some a, some b => Except.ok (decide (a = b))
      | _, _ => Except.error CompressFault.outOfRange
  else Except.ok false

/-- The assignment `seq[cur] = seq[i]; cur++` at the write position `cur`. -/
def copyChar {α : Type} (i cur : Nat) (seq : List α) : Except CompressFault (List α × Nat) :=
  match seq[i]? with
  | some a =>
    if cur < seq.length then Except.ok (seq.set cur a, cur + 1)
    else Except.error CompressFault.outOfRange
  | none => Except.error CompressFault.outOfRange

/-- The block `if (at_len > min_dimer_to_compress) { ... }` that ends a dimer run: the new
values of `cur` and `at_len`. -/
def endRun (p : CompressParams) (cur at_len : Nat) : Except CompressFault (Nat × Nat) :=
  if at_len > p.min_dimer_to_compress then
    let d := if at_len > p.max_dimer_size then (at_len - p.max_dimer_size) / 2 * 2 else 0
    if cur < d then Except.error CompressFault.counterWrapped
    else
      let cur := cur - d
      let at_len := at_len - d
      let corr_at_len := at_len / p.dimer_step * p.dimer_step
      if corr_at_len ≠ at_len then Except.error CompressFault.verifyFailed
      else
        let d' := (at_len - corr_at_len) / 2 * 2
        if cur < d' then Except.error CompressFault.counterWrapped
        else Except.ok (cur - d', at_len - d')
  else Except.ok (cur, at_len)

/-- The body of the `for` loop of `compress` for the index `i`. -/
def compressStep {α : Type} [DecidableEq α] (p : CompressParams) (i : Nat)
    (st : CompressState α) : Except CompressFault (CompressState α) :=
  match continuesRun i st with
  | Except.error f => Except.error f
  | Except.ok true =>
    match copyChar i st.cur st.seq with
    | Except.error f => Except.error f
    | Except.ok (seq, cur) => Except.ok { seq := seq, cur := cur, at_len := st.at_len + 1 }
  | Except.ok false =>
    match endRun p st.cur st.at_len with
    | Except.error f => Except.error f
    | Except.ok (cur, _) =>
      if i < st.seq.length then
        match copyChar i cur st.seq with
        | Except.error f => Except.error f
        | Except.ok (seq, cur) => Except.ok { seq := seq, cur := cur, at_len := 2 }
      else Except.ok { seq := st.seq, cur := cur, at_len := 2 }

/-- The loop `for (i = 2; i <= seq.size(); i++)` with `n` iterations left, the next one
for the index `i`. -/
def compressLoop {α : Type} [DecidableEq α] (p : CompressParams) :
    Nat → Nat → CompressState α → Except CompressFault (CompressState α)
  | 0, _, st => Except.ok st
  | n + 1, i, st =>
    match compressStep p i st with
    | Except.error f => Except.error f
    | Except.ok st' => compressLoop p n (i + 1) st'

/-- `StringContig::compress()` on the string `seq`: the string it leaves.  The loop
`for (i = 2; i <= seq.size(); i++)` makes `seq.size() + 1 - 2` iterations. -/
def compress {α : Type} [DecidableEq α] (p : CompressParams) (seq : List α) :
    Except CompressFault (List α) :=
  if !p.homopolymer_compressing then Except.ok seq
  else
    let seq := unique seq
    if ¬ (p.min_dimer_to_compress ≤ p.max_dimer_size) then
      Except.error CompressFault.verifyFailed
    else if ¬ (p.min_dimer_to_compress ≥ 4) then Except.error CompressFault.verifyFailed
    else if ¬ (p.dimer_step = 1) then Except.error CompressFault.verifyFailed
    else if p.min_dimer_to_compress ≥ seq.length then Except.ok seq
    else
      match compressLoop p (seq.length + 1 - 2) 2 { seq := seq, cur := 2, at_len := 2 } with
      | Except.error f => Except.error f
      | Except.ok st =>
        if st.cur ≤ st.seq.length then Except.ok (st.seq.take st.cur)
        else Except.error CompressFault.outOfRange

/-- The number of characters that the end of a dimer run of length `at_len` loses:
`(at_len - max_dimer_size) / 2 * 2` when `at_len > max_dimer_size`, nothing otherwise. -/
def cut (max_dimer_size at_len : Nat) : Nat :=
  if at_len > max_dimer_size then (at_len - max_dimer_size) / 2 * 2 else 0

/-- The loop of `compress` as a scan: `rout` is the output written so far, last character
first, `at_len` the length of its current dimer run, and the list is the input not yet
read.  Returns the final output, last character first. -/
def dimerScan {α : Type} [DecidableEq α] (max_dimer_size : Nat) :
    List α → Nat → List α → List α
  | rout, at_len, [] => rout.drop (cut max_dimer_size at_len)
  | rout, at_len, c :: rest =>
    if rout[1]? = some c then dimerScan max_dimer_size (c :: rout) (at_len + 1) rest
    else dimerScan max_dimer_size (c :: rout.drop (cut max_dimer_size at_len)) 2 rest

/-- The list `l` has period 2 on the positions `[a, b)`: every character there equals the
one two positions before it, as far as that one is in `[a, b)` too. -/
def PeriodicOn {α : Type} (l : List α) (a b : Nat) : Prop :=
  ∀ t, a ≤ t → t + 2 < b → l[t]? = l[t + 2]?

/-- The maximal period-2 runs of a string without equal neighbours, in order, found by
one scan: `rrun` is the current run, last character first.  A run ends where the next
character differs from the one two positions before it; the next run then starts with
the last character of the run that ended. -/
def runsScan {α : Type} [DecidableEq α] : List α → List α → List (List α)
  | rrun, [] => [rrun.reverse]
  | rrun, c :: rest =>
    if rrun[1]? = some c then runsScan (c :: rrun) rest
    else rrun.reverse :: runsScan (c :: rrun.take 1) rest

/-- The maximal period-2 runs of `u`; neighbouring runs share one character. -/
def dimerRuns {α : Type} [DecidableEq α] : List α → List (List α)
  | a :: b :: rest => runsScan [b, a] rest
  | [a] => [[a]]
  | [] => []

/-- The string made of runs that share one character with their neighbours. -/
def glue {α : Type} : List (List α) → List α
  | [] => []
  | [r] => r
  | r :: r' :: rs => r.dropLast ++ glue (r' :: rs)

/-- A run with `cut` characters removed from its end. -/
def shorten {α : Type} (max_dimer_size : Nat) (r : List α) : List α :=
  r.take (r.length - cut max_dimer_size r.length)

/-- The invariant of `dimerScan`: the first `at_len` characters of `rout` (the last
`at_len` characters written) form a period-2 run that cannot be extended on its far
side, and no period-2 stretch that lies beyond the run, its far end included, is longer
than `max_dimer_size + 1`. -/
def ScanInv {α : Type} (max_dimer_size : Nat) (rout : List α) (at_len : Nat) : Prop :=
  2 ≤ at_len ∧ at_len ≤ rout.length ∧
  PeriodicOn rout 0 at_len ∧
  (at_len < rout.length → rout[at_len - 2]? ≠ rout[at_len]?) ∧
  ∀ a b, at_len - 1 ≤ a → b ≤ rout.length → PeriodicOn rout a b → b - a ≤ max_dimer_size + 1

/-- No period-2 stretch of `l` is longer than `n`. -/
def RunsAtMost {α : Type} (n : Nat) (l : List α) : Prop :=
  ∀ a b, b ≤ l.length → PeriodicOn l a b → b - a ≤ n

/-- Two neighbouring dimer runs: the second starts with the last character of the first,
and its second character differs from the last but one of the first, so that the first
run cannot be extended. -/
def Linked {α : Type} (r r' : List α) : Prop :=
  r'.head? = r.getLast? ∧ r'[1]? ≠ r[r.length - 2]?

/-! ## Lemmas on the bucket cutting of one batch -/

theorem tiles_le : ∀ (rs : List (Nat × Nat)) (a n : Nat), Tiles a rs n → a ≤ n
  | [], a, n, h => by simp [Tiles] at h; omega
  | r :: rs, a, n, h => by
    obtain ⟨h1, h2, h3⟩ := h
    have := tiles_le rs _ _ h3
    omega

theorem tiles_snoc : ∀ (rs : List (Nat × Nat)) (a b c : Nat), Tiles a rs b → b < c →
    Tiles a (rs ++ [(b, c)]) c
  | [], a, b, c, h, hbc => by
    simp only [Tiles] at h
    subst h
    simp [Tiles, hbc]
  | r :: rs, a, b, c, h, hbc => by
    obtain ⟨h1, h2, h3⟩ := h
    exact ⟨h1, h2, tiles_snoc rs _ _ _ h3 hbc⟩

theorem cover_cons (r : Nat × Nat) (rs : List (Nat × Nat)) (i : Nat) :
    cover (r :: rs) i = (if r.1 ≤ i ∧ i < r.2 then 1 else 0) + cover rs i := by
  unfold cover
  by_cases h : r.1 ≤ i ∧ i < r.2
  · rw [List.filter_cons_of_pos (by simpa using h), if_pos h, List.length_cons]
    omega
  · rw [List.filter_cons_of_neg (by simpa using h), if_neg h]
    omega

theorem cover_of_lt : ∀ (rs : List (Nat × Nat)) (a n i : Nat), Tiles a rs n → i < a →
    cover rs i = 0
  | [], _, _, _, _, _ => rfl
  | r :: rs, a, n, i, h, hi => by
    obtain ⟨h1, h2, h3⟩ := h
    have ih := cover_of_lt rs r.2 n i h3 (by omega)
    rw [cover_cons, ih, if_neg (by omega)]

theorem cover_of_mem : ∀ (rs : List (Nat × Nat)) (a n i : Nat), Tiles a rs n → a ≤ i →
    i < n → cover rs i = 1
  | [], a, n, i, h, h1, h2 => by simp only [Tiles] at h; omega
  | r :: rs, a, n, i, h, hai, hin => by
    obtain ⟨h1, h2, h3⟩ := h
    rw [cover_cons]
    by_cases hi : i < r.2
    · rw [cover_of_lt rs r.2 n i h3 hi, if_pos ⟨by omega, hi⟩]
    · rw [cover_of_mem rs r.2 n i h3 (by omega) hin, if_neg (by omega)]

theorem fillStep_eq {V : Type} (size : V → Nat) (bl total : Nat) (v : V) (e : Bool)
    (st : Fill V) : fillStep size bl total v e st =
      if decide (st.cur_length + size v ≥ bl) || e
          || decide ((st.items ++ [v]).length ≥ buffer_size)
          || decide (st.clen + size v ≥ max_length) then
        { items := st.items ++ [v], clen := st.clen + size v, left := st.right + 1,
          right := st.right + 1, cur_length := 0,
          tasks := st.tasks ++ [{ total := total, left := st.left, right := st.right + 1 }] }
      else
        { items := st.items ++ [v], clen := st.clen + size v, left := st.left,
          right := st.right + 1, cur_length := st.cur_length + size v, tasks := st.tasks } :=
  rfl

theorem fillStep_items {V : Type} (size : V → Nat) (bl total : Nat) (v : V) (e : Bool)
    (st : Fill V) : (fillStep size bl total v e st).items = st.items ++ [v] := by
  rw [fillStep_eq]
  split <;> rfl

theorem fillStep_inv {V : Type} (size : V → Nat) (bl total : Nat) (v : V) (e : Bool)
    (st : Fill V) (h : st.Inv total) : (fillStep size bl total v e st).Inv total := by
  obtain ⟨h1, h2, h3, h4⟩ := h
  rw [fillStep_eq]
  split
  · refine ⟨by simp [h1], le_refl _, ?_, ?_⟩
    · intro t ht
      rcases List.mem_append.1 ht with ht | ht
      · exact h3 t ht
      · simp only [List.mem_singleton] at ht
        subst ht
        rfl
    · simp only [List.map_append, List.map_cons, List.map_nil]
      exact tiles_snoc _ _ _ _ h4 (by omega)
  · exact ⟨by simp [h1], by simp only; omega, h3, h4⟩

theorem fillStep_closed {V : Type} (size : V → Nat) (bl total : Nat) (v : V) (e : Bool)
    (st : Fill V) :
    (fillStep size bl total v e st).left = (fillStep size bl total v e st).right ∨
      (e = false ∧ (fillStep size bl total v e st).room = true) := by
  rw [fillStep_eq]
  split
  · exact Or.inl rfl
  · rename_i hc
    right
    simp only [Bool.or_eq_true, decide_eq_true_eq, not_or, Bool.not_eq_true] at hc
    refine ⟨hc.1.1.2, ?_⟩
    simp only [Fill.room, Bool.and_eq_true, decide_eq_true_eq]
    omega

theorem fillBatch_items {V : Type} (size : V → Nat) (bl total : Nat) :
    ∀ (rest : List V) (st : Fill V),
      (fillBatch size bl total rest st).2.items ++ (fillBatch size bl total rest st).1
        = st.items ++ rest
  | [], st => by simp [fillBatch]
  | v :: rest, st => by
    unfold fillBatch
    split
    · rw [fillBatch_items size bl total rest, fillStep_items]
      simp
    · rfl

theorem fillBatch_length_le {V : Type} (size : V → Nat) (bl total : Nat) :
    ∀ (rest : List V) (st : Fill V),
      st.items.length ≤ (fillBatch size bl total rest st).2.items.length
  | [], st => by simp [fillBatch]
  | v :: rest, st => by
    unfold fillBatch
    split
    · have := fillBatch_length_le size bl total rest (fillStep size bl total v rest.isEmpty st)
      rw [fillStep_items] at this
      simp only [List.length_append, List.length_singleton] at this
      omega
    · exact le_refl _

theorem fillBatch_inv {V : Type} (size : V → Nat) (bl total : Nat) :
    ∀ (rest : List V) (st : Fill V), st.Inv total →
      (st.left = st.right ∨ (rest ≠ [] ∧ st.room = true)) →
      (fillBatch size bl total rest st).2.Inv total ∧
      (fillBatch size bl total rest st).2.left = (fillBatch size bl total rest st).2.right
  | [], st, h, hc => by
    refine ⟨h, ?_⟩
    rcases hc with hc | hc
    · exact hc
    · exact absurd rfl hc.1
  | v :: rest, st, h, hc => by
    unfold fillBatch
    split
    · refine fillBatch_inv size bl total rest _ (fillStep_inv size bl total v _ st h) ?_
      rcases fillStep_closed size bl total v rest.isEmpty st with h1 | h1
      · exact Or.inl h1
      · refine Or.inr ⟨?_, h1.2⟩
        intro hr
        rw [hr] at h1
        simp at h1
    · rename_i hroom
      refine ⟨h, ?_⟩
      rcases hc with hc | hc
      · exact hc
      · exact absurd hc.2 hroom

theorem init_inv (V : Type) (total : Nat) : (Fill.init V).Inv total := by
  refine ⟨rfl, le_refl _, ?_, rfl⟩
  intro t ht
  simp [Fill.init] at ht

theorem init_room (V : Type) : (Fill.init V).room = true := by
  simp [Fill.room, Fill.init, buffer_size, max_length]

/-- A batch started on a non-empty source takes at least one record. -/
theorem fillBatch_init_ne_nil {V : Type} (size : V → Nat) (bl total : Nat) (v : V)
    (rest : List V) : (fillBatch size bl total (v :: rest) (Fill.init V)).2.items ≠ [] := by
  unfold fillBatch
  rw [if_pos (init_room V)]
  have := fillBatch_length_le size bl total rest
    (fillStep size bl total v rest.isEmpty (Fill.init V))
  rw [fillStep_items] at this
  intro h
  rw [h] at this
  simp at this

/-- The final state of a batch: the invariant holds and the last bucket is closed. -/
theorem fillBatch_init_inv {V : Type} (size : V → Nat) (bl total : Nat) (src : List V) :
    (fillBatch size bl total src (Fill.init V)).2.Inv total ∧
      (fillBatch size bl total src (Fill.init V)).2.left
        = (fillBatch size bl total src (Fill.init V)).2.right :=
  fillBatch_inv size bl total src _ (init_inv V total) (Or.inl rfl)

/-! ## Lemmas on the calls of the task function -/

theorem calls_of_tiles {V : Type} (items : List V) (total : Nat) :
    ∀ (tasks : List Bucket) (a n : Nat), (∀ t ∈ tasks, t.total = total) →
      Tiles a (tasks.map fun t => (t.left, t.right)) n →
      tasks.flatMap (Bucket.calls items)
        = (List.range' a (n - a)).map fun i => (total + i, items[i]?)
  | [], a, n, _, h => by
    simp only [List.map_nil, Tiles] at h
    subst h
    simp
  | t :: ts, a, n, ht, h => by
    simp only [List.map_cons, Tiles] at h
    obtain ⟨h1, h2, h3⟩ := h
    have hle := tiles_le _ _ _ h3
    have ih := calls_of_tiles items total ts t.right n
      (fun u hu => ht u (List.mem_cons_of_mem _ hu)) h3
    have hsplit : List.range' a (n - a)
        = List.range' t.left (t.right - t.left) ++ List.range' t.right (n - t.right) := by
      have := List.range'_append t.left (t.right - t.left) (n - t.right) 1
      rw [Nat.one_mul, Nat.add_sub_cancel' (Nat.le_of_lt h2)] at this
      rw [this, h1]
      congr 1
      omega
    rw [List.flatMap_cons, ih, hsplit, List.map_append, Bucket.calls,
      ht t (List.mem_cons_self _ _)]

theorem range_calls_eq_enumFrom {V : Type} (items : List V) (total : Nat) :
    ((List.range' 0 items.length).map fun i => (total + i, items[i]?))
      = (items.enumFrom total).map fun p => (p.1, some p.2) := by
  apply List.ext_getElem
  · simp
  · intro i h1 h2
    simp only [List.length_map, List.length_range'] at h1
    simp [h1]

/-- The calls of one batch are its items, in order, numbered from `total`. -/
theorem fillBatch_calls {V : Type} (size : V → Nat) (bl total : Nat) (src : List V) :
    ((fillBatch size bl total src (Fill.init V)).2.toBatch total).calls
      = ((fillBatch size bl total src (Fill.init V)).2.items.enumFrom total).map
          fun p => (p.1, some p.2) := by
  obtain ⟨⟨h1, _, h3, h4⟩, h5⟩ := fillBatch_init_inv size bl total src
  rw [← range_calls_eq_enumFrom, ← h1, ← h5]
  exact calls_of_tiles _ total _ 0 _ h3 h4

/-- The buckets of one batch tile `[0, items.size())`. -/
theorem fillBatch_tiles {V : Type} (size : V → Nat) (bl total : Nat) (src : List V) :
    Tiles 0 ((fillBatch size bl total src (Fill.init V)).2.toBatch total).ranges
      ((fillBatch size bl total src (Fill.init V)).2.toBatch total).items.length := by
  obtain ⟨⟨h1, _, _, h4⟩, h5⟩ := fillBatch_init_inv size bl total src
  show Tiles 0 _ (fillBatch size bl total src (Fill.init V)).2.items.length
  rw [← h1, ← h5]
  exact h4

/-! ## The outer loop -/

/-- With at least as much fuel as records the outer loop finishes, and its batches are
the ones `Batched` describes. -/
theorem processRecordsLoop_batched {V : Type} (size : V → Nat) (bl : Nat) :
    ∀ (fuel : Nat) (src : List V) (total total_len : Nat), src.length ≤ fuel →
      ∃ run, processRecordsLoop size bl fuel src total total_len = some run ∧
        Batched size bl src total run.batches
  | fuel, [], total, total_len, _ => by
    refine ⟨{ batches := [], trace := [Event.doInTheEnd], total := total,
              total_len := total_len }, ?_, ?_⟩
    · cases fuel <;> rfl
    · simp [Batched]
  | 0, v :: rest, _, _, h => by simp at h
  | fuel + 1, v :: rest, total, total_len, h => by
    have hitems := fillBatch_items size bl total (v :: rest) (Fill.init V)
    have hne := fillBatch_init_ne_nil size bl total v rest
    have hlen : (fillBatch size bl total (v :: rest) (Fill.init V)).1.length ≤ fuel := by
      have h0 : (Fill.init V).items = [] := rfl
      rw [h0] at hitems
      have h1 := congrArg List.length hitems
      have h2 := List.length_pos.2 hne
      simp only [List.length_append, List.length_nil, List.length_cons] at h1 h
      omega
    obtain ⟨run, hrun, hb⟩ := processRecordsLoop_batched size bl fuel _
      (total + (fillBatch size bl total (v :: rest) (Fill.init V)).2.items.length)
      (total_len + (fillBatch size bl total (v :: rest) (Fill.init V)).2.clen) hlen
    refine ⟨{ run with
        batches := (fillBatch size bl total (v :: rest) (Fill.init V)).2.toBatch total
          :: run.batches
        trace := [Event.doBefore, Event.doInParallel]
          ++ (fillBatch size bl total (v :: rest) (Fill.init V)).2.tasks.map Event.bucket
          ++ [Event.doAfter] ++ run.trace }, ?_, ?_⟩
    · unfold processRecordsLoop
      simp only [hrun]
      rfl
    · exact ⟨List.cons_ne_nil _ _, rfl, hb⟩

theorem processRecords_batched {V : Type} (size : V → Nat) (bl : Nat) (src : List V) :
    ∃ run, processRecords size bl src = some run ∧ Batched size bl src 0 run.batches :=
  processRecordsLoop_batched size bl src.length src 0 0 (le_refl _)

theorem batched_calls {V : Type} (size : V → Nat) (bl : Nat) :
    ∀ (bs : List (Batch V)) (src : List V) (total : Nat), Batched size bl src total bs →
      bs.flatMap Batch.calls = (src.enumFrom total).map fun p => (p.1, some p.2)
  | [], src, total, h => by
    simp only [Batched] at h
    subst h
    rfl
  | b :: bs, src, total, h => by
    obtain ⟨_, hb, hrest⟩ := h
    have ih := batched_calls size bl bs _ _ hrest
    have hitems := fillBatch_items size bl total src (Fill.init V)
    simp only [Fill.init, List.nil_append] at hitems
    rw [List.flatMap_cons, ih, hb, fillBatch_calls, ← List.map_append, ← List.enumFrom_append]
    simp only [Fill.init]
    rw [hitems]

theorem batched_tiles {V : Type} (size : V → Nat) (bl : Nat) :
    ∀ (bs : List (Batch V)) (src : List V) (total : Nat), Batched size bl src total bs →
      ∀ b ∈ bs, Tiles 0 b.ranges b.items.length
  | [], _, _, _ => by simp
  | b :: bs, src, total, h => by
    obtain ⟨_, hb, hrest⟩ := h
    intro c hc
    rcases List.mem_cons.1 hc with hc | hc
    · rw [hc, hb]
      exact fillBatch_tiles size bl total src
    · exact batched_tiles size bl bs _ _ hrest c hc

theorem cover_of_ge : ∀ (rs : List (Nat × Nat)) (a n i : Nat), Tiles a rs n → n ≤ i →
    cover rs i = 0
  | [], _, _, _, _, _ => rfl
  | r :: rs, a, n, i, h, hi => by
    obtain ⟨h1, h2, h3⟩ := h
    have hle := tiles_le _ _ _ h3
    rw [cover_cons, cover_of_ge rs r.2 n i h3 hi, if_neg (by omega)]

theorem batched_items {V : Type} (size : V → Nat) (bl : Nat) :
    ∀ (bs : List (Batch V)) (src : List V) (total : Nat), Batched size bl src total bs →
      (bs.map fun b => b.items).flatten = src ∧ ∀ b ∈ bs, b.items ≠ []
  | [], src, total, h => by
    simp only [Batched] at h
    subst h
    simp
  | b :: bs, src, total, h => by
    obtain ⟨hne, hb, hrest⟩ := h
    obtain ⟨ih1, ih2⟩ := batched_items size bl bs _ _ hrest
    have hitems := fillBatch_items size bl total src (Fill.init V)
    have h0 : (Fill.init V).items = [] := rfl
    rw [h0, List.nil_append] at hitems
    constructor
    · rw [List.map_cons, List.flatten_cons, ih1, hb]
      exact hitems
    · intro c hc
      rcases List.mem_cons.1 hc with hc | hc
      · rw [hc, hb]
        cases src with
        | nil => exact absurd rfl hne
        | cons v rest => exact fillBatch_init_ne_nil size bl total v rest
      · exact ih2 c hc

theorem batched_total {V : Type} (size : V → Nat) (bl : Nat) :
    ∀ (bs : List (Batch V)) (src : List V) (total : Nat), Batched size bl src total bs →
      bs.map (fun b => b.total) = (List.range bs.length).map fun k =>
        total + ((bs.take k).map fun b => b.items.length).sum
  | [], _, _, _ => rfl
  | b :: bs, src, total, h => by
    obtain ⟨_, hb, hrest⟩ := h
    have ih := batched_total size bl bs _ _ hrest
    have hbt : b.total = total := by rw [hb]; rfl
    have hbi : (fillBatch size bl total src (Fill.init V)).2.items = b.items := by rw [hb]; rfl
    rw [hbi] at ih
    rw [List.length_cons, List.range_succ_eq_map, List.map_cons, List.map_cons, ih, hbt,
      List.map_map]
    simp only [List.take_zero, List.map_nil, List.sum_nil, Nat.add_zero, List.cons.injEq,
      true_and]
    apply List.map_congr_left
    intro k _
    simp only [Function.comp_apply, Nat.succ_eq_add_one, List.take_succ_cons, List.map_cons,
      List.sum_cons]
    omega

/-! ## Properties of `processRecords` -/

/-- C1: for every finite source and every `bucket_length`, `processRecords` finishes and
calls the task function once per record: the calls are `(0, r_0), ..., (n-1, r_(n-1))`,
so the identifiers are exactly `0, ..., n-1`, each once, identifier `j` comes with the
`j`-th record (never with an index outside the batch array), and the `total` of a batch
is the number of records of all earlier batches. -/
theorem processRecords_task_calls {V : Type} (size : V → Nat) (bucket_length : Nat)
    (src : List V) :
    ∃ run, processRecords size bucket_length src = some run ∧
      run.calls = src.enum.map (fun p => (p.1, some p.2)) ∧
      run.calls = (List.range src.length).map (fun j => (j, src[j]?)) ∧
      run.calls.length = src.length ∧
      run.calls.map Prod.fst = List.range src.length ∧
      run.batches.map (fun b => b.total) = (List.range run.batches.length).map fun k =>
        ((run.batches.take k).map fun b => b.items.length).sum := by
  obtain ⟨run, hrun, hb⟩ := processRecords_batched size bucket_length src
  have hcalls : run.calls = src.enum.map (fun p => (p.1, some p.2)) := by
    rw [List.enum_eq_enumFrom]
    exact batched_calls size bucket_length _ _ _ hb
  have htot := batched_total size bucket_length _ _ _ hb
  refine ⟨run, hrun, hcalls, ?_, ?_, ?_, ?_⟩
  · rw [hcalls, List.enum_eq_enumFrom, ← range_calls_eq_enumFrom, List.range_eq_range']
    simp
  · rw [hcalls]
    simp
  · rw [hcalls, List.map_map]
    have : (Prod.fst ∘ fun p : Nat × V => (p.1, some p.2)) = Prod.fst := rfl
    rw [this, List.enum_eq_enumFrom, List.enumFrom_map_fst, List.range_eq_range']
  · rw [htot]
    simp

/-- C3: in every batch of `processRecords` the bucket ranges `[left, right)` tile
`[0, items.size())`: the first starts at 0, each next one starts where the previous one
ended, the last ends at `items.size()`, none is empty; hence every batch index lies in
exactly one bucket and no other index lies in any.  The batches are non-empty and
together hold the source. -/
theorem processRecords_buckets_partition {V : Type} (size : V → Nat) (bucket_length : Nat)
    (src : List V) :
    ∃ run, processRecords size bucket_length src = some run ∧
      (run.batches.map fun b => b.items).flatten = src ∧
      ∀ b ∈ run.batches, b.items ≠ [] ∧ Tiles 0 b.ranges b.items.length ∧
        (∀ i, i < b.items.length → cover b.ranges i = 1) ∧
        (∀ i, b.items.length ≤ i → cover b.ranges i = 0) := by
  obtain ⟨run, hrun, hb⟩ := processRecords_batched size bucket_length src
  obtain ⟨h1, h2⟩ := batched_items size bucket_length _ _ _ hb
  refine ⟨run, hrun, h1, ?_⟩
  intro b hbm
  have ht := batched_tiles size bucket_length _ _ _ hb b hbm
  exact ⟨h2 b hbm, ht, fun i hi => cover_of_mem _ _ _ i ht (Nat.zero_le _) hi,
    fun i hi => cover_of_ge _ _ _ i ht hi⟩

/-! ## Lemmas on the collector -/

theorem foldl_emplace_back {T : Type} : ∀ (row res : List T),
    row.foldl (fun res val => res ++ [val]) res = res ++ row
  | [], res => by simp
  | v :: row, res => by
    rw [List.foldl_cons, foldl_emplace_back row]
    simp

theorem collect_foldl {T : Type} : ∀ (rows : List (List T)) (acc : List T × List (List T)),
    rows.foldl (fun (acc : List T × List (List T)) row =>
        (row.foldl (fun res val => res ++ [val]) acc.1, acc.2 ++ [[]])) acc
      = (acc.1 ++ rows.flatten, acc.2 ++ List.replicate rows.length [])
  | [], acc => by simp
  | row :: rows, acc => by
    rw [List.foldl_cons, collect_foldl rows, foldl_emplace_back]
    simp [List.replicate_succ]

theorem collect_fst {T : Type} (c : ParallelRecordCollector T) :
    c.collect.1 = c.recs.flatten := by
  unfold ParallelRecordCollector.collect
  simp only [collect_foldl, List.nil_append]

theorem collect_snd {T : Type} (c : ParallelRecordCollector T) :
    c.collect.2.recs = List.replicate c.recs.length [] := by
  unfold ParallelRecordCollector.collect
  simp only [collect_foldl, List.nil_append]

theorem size_foldl {T : Type} : ∀ (rows : List (List T)) (res : Nat),
    rows.foldl (fun res row => res + row.length) res
      = res + (rows.map List.length).sum
  | [], res => by simp
  | row :: rows, res => by
    rw [List.foldl_cons, size_foldl rows]
    simp only [List.map_cons, List.sum_cons]
    omega

theorem size_eq_sum {T : Type} (c : ParallelRecordCollector T) :
    c.size = (c.recs.map List.length).sum := by
  unfold ParallelRecordCollector.size
  rw [size_foldl, Nat.zero_add]

theorem flatten_replicate_nil {T : Type} : ∀ n : Nat,
    (List.replicate n ([] : List T)).flatten = []
  | 0 => rfl
  | n + 1 => by rw [List.replicate_succ, List.flatten_cons, flatten_replicate_nil n]; rfl

theorem sum_length_replicate_nil {T : Type} : ∀ n : Nat,
    ((List.replicate n ([] : List T)).map List.length).sum = 0
  | 0 => rfl
  | n + 1 => by
    rw [List.replicate_succ, List.map_cons, List.sum_cons, sum_length_replicate_nil n]
    rfl

/-! ## Lemmas on sort and unique -/

theorem sort_perm {T : Type} [LinearOrder T] (l : List T) : (sort l).Perm l :=
  List.perm_insertionSort _ l

theorem sort_sorted {T : Type} [LinearOrder T] (l : List T) : (sort l).Sorted (· ≤ ·) :=
  List.sorted_insertionSort _ l

theorem sort_eq_of_perm {T : Type} [LinearOrder T] {l₁ l₂ : List T} (h : l₁.Perm l₂) :
    sort l₁ = sort l₂ :=
  List.eq_of_perm_of_sorted ((sort_perm l₁).trans (h.trans (sort_perm l₂).symm))
    (sort_sorted l₁) (sort_sorted l₂)

theorem uniqueAux_chain {T : Type} [LinearOrder T] : ∀ (l : List T) (a : T),
    List.Chain (· ≤ ·) a l → List.Chain (· < ·) a (uniqueAux a l)
  | [], _, _ => List.Chain.nil
  | b :: l, a, h => by
    rw [List.chain_cons] at h
    unfold uniqueAux
    split
    · rename_i hab
      subst hab
      exact uniqueAux_chain l a h.2
    · rename_i hab
      exact List.Chain.cons (lt_of_le_of_ne h.1 hab) (uniqueAux_chain l b h.2)

theorem mem_uniqueAux {T : Type} [DecidableEq T] : ∀ (l : List T) (a x : T),
    x ∈ a :: uniqueAux a l ↔ x ∈ a :: l
  | [], _, _ => Iff.rfl
  | b :: l, a, x => by
    unfold uniqueAux
    split
    · rename_i hab
      subst hab
      rw [mem_uniqueAux l a x]
      simp
    · have ih := mem_uniqueAux l b x
      simp only [List.mem_cons] at ih ⊢
      rw [ih]

theorem uniqueAux_of_chain {T : Type} [LinearOrder T] : ∀ (l : List T) (a : T),
    List.Chain (· < ·) a l → uniqueAux a l = l
  | [], _, _ => rfl
  | b :: l, a, h => by
    rw [List.chain_cons] at h
    unfold uniqueAux
    rw [if_neg (ne_of_lt h.1), uniqueAux_of_chain l b h.2]

theorem mem_unique {T : Type} [DecidableEq T] (l : List T) (x : T) : x ∈ unique l ↔ x ∈ l := by
  cases l with
  | nil => exact Iff.rfl
  | cons a l => exact mem_uniqueAux l a x

/-- Erasing adjacent duplicates of an ascending list leaves a strictly ascending list. -/
theorem unique_sorted {T : Type} [LinearOrder T] (l : List T) (h : l.Sorted (· ≤ ·)) :
    (unique l).Sorted (· < ·) := by
  cases l with
  | nil => exact List.sorted_nil
  | cons a l =>
    have hc : List.Chain (· ≤ ·) a l := List.chain_iff_pairwise.2 h
    exact List.chain_iff_pairwise.1 (uniqueAux_chain l a hc)

/-- A strictly ascending list is left as it is by sort and by unique. -/
theorem unique_sort_of_sorted {T : Type} [LinearOrder T] (l : List T)
    (h : l.Sorted (· < ·)) : unique (sort l) = l := by
  have hs : sort l = l := List.Sorted.insertionSort_eq h.le_of_lt
  rw [hs]
  cases l with
  | nil => rfl
  | cons a l =>
    show a :: uniqueAux a l = a :: l
    rw [uniqueAux_of_chain l a (List.chain_iff_pairwise.2 h)]

/-- The result of sort-then-unique is the ascending list of the distinct values. -/
theorem unique_sort_eq_finset_sort {T : Type} [LinearOrder T] (l : List T) :
    unique (sort l) = l.toFinset.sort (· ≤ ·) := by
  have h1 : (unique (sort l)).Sorted (· < ·) := unique_sorted _ (sort_sorted l)
  have h2 : (unique (sort l)).toFinset = l.toFinset := by
    ext x
    simp only [List.mem_toFinset, mem_unique]
    exact (sort_perm l).mem_iff
  rw [← h2]
  exact ((List.toFinset_sort (· ≤ ·) h1.nodup).2 h1.le_of_lt).symm

/-- Sort-then-unique depends only on the set of values. -/
theorem unique_sort_congr {T : Type} [LinearOrder T] (l₁ l₂ : List T)
    (h : ∀ x, x ∈ l₁ ↔ x ∈ l₂) : unique (sort l₁) = unique (sort l₂) := by
  rw [unique_sort_eq_finset_sort, unique_sort_eq_finset_sort]
  congr 1
  ext x
  simp only [List.mem_toFinset]
  exact h x

theorem collectUnique_fst {T : Type} [LinearOrder T] (c : ParallelRecordCollector T) :
    c.collectUnique.1 = unique (sort c.recs.flatten) := by
  unfold ParallelRecordCollector.collectUnique
  simp only [collect_fst]

theorem collectUnique_snd {T : Type} [LinearOrder T] (c : ParallelRecordCollector T) :
    c.collectUnique.2 = c.collect.2 := rfl

/-! ## Properties of the collector -/

/-- C2: for every content of the shards, `collectUnique` returns a strictly ascending
sequence whose elements are exactly the values held in the shards, that is, the ascending
list of the distinct values of the union of the shards; the shards `[7,3,7,9]`, `[3]`,
`[]`, `[9,1]` give `[1,3,7,9]`. -/
theorem collectUnique_sorted_dedup {T : Type} [LinearOrder T]
    (c : ParallelRecordCollector T) :
    c.collectUnique.1.Sorted (· < ·) ∧
      (∀ x, x ∈ c.collectUnique.1 ↔ ∃ shard ∈ c.recs, x ∈ shard) ∧
      c.collectUnique.1 = c.recs.flatten.toFinset.sort (· ≤ ·) ∧
      (ParallelRecordCollector.collectUnique
        ({ recs := [[7, 3, 7, 9], [3], [], [9, 1]] } : ParallelRecordCollector Nat)).1
          = [1, 3, 7, 9] := by
  refine ⟨?_, ?_, ?_, by decide⟩
  · rw [collectUnique_fst]
    exact unique_sorted _ (sort_sorted _)
  · intro x
    rw [collectUnique_fst, mem_unique, (sort_perm _).mem_iff, List.mem_flatten]
  · rw [collectUnique_fst, unique_sort_eq_finset_sort]

/-- C4: `collect` returns the concatenation of shard 0, shard 1, ..., each in insertion
order, and leaves every shard empty (the number of shards is unchanged): afterwards
`size()` is 0, and a second `collect` or a `collectUnique` returns the empty sequence. -/
theorem collect_concat_and_clears {T : Type} [LinearOrder T] (c : ParallelRecordCollector T) :
    c.collect.1 = c.recs.flatten ∧
      c.collect.2.recs = List.replicate c.recs.length [] ∧
      c.collect.2.size = 0 ∧
      c.collect.2.collect.1 = [] ∧
      c.collect.2.collectUnique.1 = [] := by
  refine ⟨collect_fst c, collect_snd c, ?_, ?_, ?_⟩
  · rw [size_eq_sum, collect_snd, sum_length_replicate_nil]
  · rw [collect_fst, collect_snd, flatten_replicate_nil]
  · rw [collectUnique_fst, collect_snd, flatten_replicate_nil]
    rfl

/-! ## Lemmas on constructMinimizers -/

theorem processRecords_calls {V : Type} (size : V → Nat) (bl : Nat) (src : List V) :
    ∃ run, processRecords size bl src = some run ∧
      run.calls = (src.enumFrom 0).map fun p => (p.1, some p.2) := by
  obtain ⟨run, hrun, hb⟩ := processRecords_batched size bl src
  exact ⟨run, hrun, batched_calls size bl _ _ _ hb⟩

theorem size_eq_length_flatten {T : Type} (c : ParallelRecordCollector T) :
    c.size = c.recs.flatten.length := by
  rw [size_eq_sum, List.length_flatten]

theorem flatten_modify_append {T : Type} (vals : List T) :
    ∀ (recs : List (List T)) (t : Nat), t < recs.length →
      (recs.modify (fun row => row ++ vals) t).flatten.Perm (recs.flatten ++ vals)
  | [], t, h => by simp at h
  | r :: rs, 0, _ => by
    simp only [List.modify_zero_cons, List.flatten_cons, List.append_assoc]
    exact List.perm_append_comm.append_left r
  | r :: rs, t + 1, h => by
    simp only [List.length_cons, Nat.add_lt_add_iff_right] at h
    simp only [List.modify_succ_cons, List.flatten_cons, List.append_assoc]
    exact (flatten_modify_append vals rs t h).append_left r

theorem addAll_spec {T : Type} (c : ParallelRecordCollector T) (thread : Nat) (vals : List T)
    (h : thread < c.recs.length) :
    ∃ c', c.addAll thread vals = some c' ∧
      c'.recs = c.recs.modify (fun row => row ++ vals) thread ∧
      c'.recs.length = c.recs.length ∧ c'.recs.flatten.Perm (c.recs.flatten ++ vals) := by
  refine ⟨{ recs := c.recs.modify (fun row => row ++ vals) thread }, ?_, rfl, ?_, ?_⟩
  · unfold ParallelRecordCollector.addAll
    rw [if_pos h]
  · exact List.length_modify _ _ _
  · exact flatten_modify_append vals c.recs thread h

theorem task_spec {V H : Type} [LinearOrder H] (sk : Sketcher V H) (k w : Nat)
    (hashs : ParallelRecordCollector H) (thread pos : Nat) (contig : V)
    (h : thread < hashs.recs.length) :
    ∃ hashs', task sk k w hashs thread pos contig = some hashs' ∧
      hashs'.recs.length = hashs.recs.length ∧
      hashs'.recs.flatten.Perm (hashs.recs.flatten ++ contribution sk k w contig) := by
  unfold task contribution
  split
  · obtain ⟨c', h1, _, h3, h4⟩ := addAll_spec hashs thread (localMinimizers sk w contig) h
    exact ⟨c', h1, h3, h4⟩
  · exact ⟨hashs, rfl, rfl, by simp⟩

theorem runTasks_cons {V H : Type} [LinearOrder H] (sk : Sketcher V H) (k w : Nat)
    (e : TaskRun V) (es : List (TaskRun V)) (hashs hashs' : ParallelRecordCollector H)
    (h : task sk k w hashs e.thread e.pos e.contig = some hashs') :
    runTasks sk k w (e :: es) hashs = runTasks sk k w es hashs' := by
  rw [runTasks, h]
  rfl

theorem runTasks_spec {V H : Type} [LinearOrder H] (sk : Sketcher V H) (k w : Nat)
    (exec : List (TaskRun V)) :
    ∀ (hashs : ParallelRecordCollector H),
      (∀ e ∈ exec, e.thread < hashs.recs.length) →
      ∃ hashs', runTasks sk k w exec hashs = some hashs' ∧
        hashs'.recs.length = hashs.recs.length ∧
        hashs'.recs.flatten.Perm
          (hashs.recs.flatten ++ exec.flatMap fun e => contribution sk k w e.contig) := by
  induction exec with
  | nil =>
    intro hashs _
    exact ⟨hashs, rfl, rfl, by simp⟩
  | cons e es ih =>
    intro hashs h
    obtain ⟨c1, h1, h2, h3⟩ := task_spec sk k w hashs e.thread e.pos e.contig
      (h e (List.mem_cons_self _ _))
    obtain ⟨c2, h4, h5, h6⟩ := ih c1
      (fun u hu => by rw [h2]; exact h u (List.mem_cons_of_mem _ hu))
    refine ⟨c2, ?_, by rw [h5, h2], ?_⟩
    · rw [runTasks_cons sk k w e es hashs c1 h1]
      exact h4
    · refine h6.trans ?_
      rw [List.flatMap_cons, ← List.append_assoc]
      exact h3.append_right _

theorem flatMap_enumFrom {V H : Type} (f : V → List H) : ∀ (reads : List V) (n : Nat),
    (((reads.enumFrom n).map fun p => (p.1, some p.2)).flatMap
        fun (p : Nat × Option V) => (p.2.map f).getD [])
      = reads.flatMap f
  | [], _ => rfl
  | r :: rs, n => by
    rw [List.enumFrom_cons, List.map_cons, List.flatMap_cons, List.flatMap_cons,
      flatMap_enumFrom f rs (n + 1)]
    rfl

/-- The records an execution works on are, up to order, the records of the source. -/
theorem execution_contributions {V H : Type} (size : V → Nat) (threads : Nat)
    (reads : List V) (exec : List (TaskRun V)) (h : IsExecution size threads reads exec)
    (f : V → List H) : (exec.flatMap fun e => f e.contig).Perm (reads.flatMap f) := by
  obtain ⟨⟨run, hrun, hperm⟩, _⟩ := h
  obtain ⟨run', hrun', hcalls⟩ := processRecords_calls size (1024 * 1024) reads
  rw [hrun] at hrun'
  cases hrun'
  rw [hcalls] at hperm
  have := hperm.flatMap_right fun (p : Nat × Option V) => (p.2.map f).getD []
  rw [flatMap_enumFrom, List.flatMap_map] at this
  exact this

theorem new_recs (T : Type) (threads : Nat) :
    (ParallelRecordCollector.new T threads).recs.length = threads ∧
      (ParallelRecordCollector.new T threads).recs.flatten = [] := by
  unfold ParallelRecordCollector.new
  exact ⟨List.length_replicate _ _, flatten_replicate_nil _⟩

theorem resultOf_congr {H : Type} [LinearOrder H] (k w : Nat) {l₁ l₂ : List H}
    (h : l₁.Perm l₂) : resultOf k w l₁ = resultOf k w l₂ := by
  unfold resultOf
  rw [sort_eq_of_perm h, h.length_eq]

/-- For every execution of the task calls, `constructMinimizers` returns, and what it
returns and logs is determined by the contributions of the records of the source. -/
theorem constructMinimizers_eq {V H : Type} [LinearOrder H] (sk : Sketcher V H)
    (k w threads : Nat) (size : V → Nat) (reads : List V) (exec : List (TaskRun V))
    (h : IsExecution size threads reads exec) :
    constructMinimizers sk k w threads exec
      = some (resultOf k w (reads.flatMap (contribution sk k w))) := by
  obtain ⟨hlen, hnil⟩ := new_recs H threads
  obtain ⟨hashs, h1, _, h3⟩ := runTasks_spec sk k w exec (ParallelRecordCollector.new H threads)
    (fun e he => by rw [hlen]; exact h.2 e he)
  rw [hnil, List.nil_append] at h3
  have h4 := h3.trans (execution_contributions size threads reads exec h (contribution sk k w))
  unfold constructMinimizers
  simp only [h1]
  rw [← resultOf_congr k w h4]
  unfold resultOf
  rw [collectUnique_fst, size_eq_length_flatten]

theorem isExecution_of_perm {V : Type} (size : V → Nat) (threads : Nat) (reads : List V)
    (exec : List (TaskRun V))
    (hperm : (exec.map fun e => (e.pos, some e.contig)).Perm
      ((reads.enumFrom 0).map fun p => (p.1, some p.2)))
    (hthr : ∀ e ∈ exec, e.thread < threads) : IsExecution size threads reads exec := by
  obtain ⟨run, hrun, hcalls⟩ := processRecords_calls size (1024 * 1024) reads
  exact ⟨⟨run, hrun, by rw [hcalls]; exact hperm⟩, hthr⟩

theorem min_read_size_eq (k w : Nat) (h1 : 1 ≤ k + w) (h2 : k + w ≤ 2 ^ 64) :
    min_read_size k w = k + w - 1 := by
  unfold min_read_size
  omega

theorem mem_localMinimizers {V H : Type} [LinearOrder H] (sk : Sketcher V H) (w : Nat)
    (contig : V) (x : H) : x ∈ localMinimizers sk w contig ↔ x ∈ sk.minimizerHashs w contig := by
  unfold localMinimizers
  dsimp only
  split
  · rw [mem_unique, (sort_perm _).mem_iff]
  · exact Iff.rfl

/-! ## Properties of constructMinimizers -/

/-- C5: the result of `constructMinimizers` does not depend on the worker count or on
which worker processes which record: two executions of the task calls of the same reads,
on `T₁` and on `T₂` threads, with any assignment of calls to threads and in any order,
both return, leave collectors with the same `collectUnique`, and return the same Global
Index (and log the same lines). -/
theorem constructMinimizers_schedule_independent {V H : Type} [LinearOrder H]
    (sk : Sketcher V H) (k w : Nat) (size : V → Nat) (reads : List V) (T₁ T₂ : Nat)
    (exec₁ exec₂ : List (TaskRun V)) (h₁ : IsExecution size T₁ reads exec₁)
    (h₂ : IsExecution size T₂ reads exec₂) :
    (∃ hashs₁ hashs₂,
      runTasks sk k w exec₁ (ParallelRecordCollector.new H T₁) = some hashs₁ ∧
      runTasks sk k w exec₂ (ParallelRecordCollector.new H T₂) = some hashs₂ ∧
      hashs₁.collectUnique.1 = hashs₂.collectUnique.1) ∧
    (∃ r, constructMinimizers sk k w T₁ exec₁ = some r) ∧
    constructMinimizers sk k w T₁ exec₁ = constructMinimizers sk k w T₂ exec₂ := by
  refine ⟨?_, ⟨_, constructMinimizers_eq sk k w T₁ size reads exec₁ h₁⟩, ?_⟩
  · obtain ⟨c₁, a₁, _, p₁⟩ := runTasks_spec sk k w exec₁ (ParallelRecordCollector.new H T₁)
      (fun e he => by rw [(new_recs H T₁).1]; exact h₁.2 e he)
    obtain ⟨c₂, a₂, _, p₂⟩ := runTasks_spec sk k w exec₂ (ParallelRecordCollector.new H T₂)
      (fun e he => by rw [(new_recs H T₂).1]; exact h₂.2 e he)
    rw [(new_recs H T₁).2, List.nil_append] at p₁
    rw [(new_recs H T₂).2, List.nil_append] at p₂
    refine ⟨c₁, c₂, a₁, a₂, ?_⟩
    rw [collectUnique_fst, collectUnique_fst]
    apply sort_eq_of_perm _ |> congrArg unique
    exact (p₁.trans (execution_contributions size T₁ reads exec₁ h₁ _)).trans
      (p₂.trans (execution_contributions size T₂ reads exec₂ h₂ _)).symm
  · rw [constructMinimizers_eq sk k w T₁ size reads exec₁ h₁,
      constructMinimizers_eq sk k w T₂ size reads exec₂ h₂]

/-- Witness of C5: the reads `5, 1, 7` on one thread and on eight threads. -/
theorem constructMinimizers_schedule_independent_witness :
    IsExecution (fun n : Nat => n) 1 [5, 1, 7] execOneThread ∧
    IsExecution (fun n : Nat => n) 8 [5, 1, 7] execEightThreads ∧
    constructMinimizers exampleSketcher 2 2 1 execOneThread
      = constructMinimizers exampleSketcher 2 2 8 execEightThreads :=
  ⟨isExecution_of_perm _ _ _ _ (by decide) (by decide),
    isExecution_of_perm _ _ _ _ (by decide) (by decide),
    (constructMinimizers_schedule_independent exampleSketcher 2 2 (fun n : Nat => n)
      [5, 1, 7] 1 8 execOneThread execEightThreads
      (isExecution_of_perm _ _ _ _ (by decide) (by decide))
      (isExecution_of_perm _ _ _ _ (by decide) (by decide))).2.2⟩

/-- C6: the task appends nothing to any shard when the sequence length of the record is
less than `k + w - 1`, and when the length is at least `k + w - 1` it appends to the shard
of its thread the hashes the sketcher returns for window `w` on that record (sorted and
without duplicates if more than 10), so the collector grows whenever the sketcher emits a
hash.  Here `k + w - 1` is the `size_t` value `min_read_size k w` the code computes, which
is the integer `k + w - 1` for all `k`, `w` with `1 ≤ k + w ≤ 2^64`.  With `k = 15`,
`w = 10` the bound is 24 and of records of lengths `30, 5, 40` only the first and the
third reach the collector. -/
theorem task_length_filter {V H : Type} [LinearOrder H] (sk : Sketcher V H) (k w : Nat)
    (hashs : ParallelRecordCollector H) (thread pos : Nat) (contig : V)
    (ht : thread < hashs.recs.length) :
    (sk.seqSize contig < min_read_size k w →
      task sk k w hashs thread pos contig = some hashs) ∧
    (min_read_size k w ≤ sk.seqSize contig →
      ∃ hashs', task sk k w hashs thread pos contig = some hashs' ∧
        hashs'.recs
          = hashs.recs.modify (fun row => row ++ localMinimizers sk w contig) thread ∧
        hashs'.size = hashs.size + (localMinimizers sk w contig).length ∧
        (∀ x, x ∈ localMinimizers sk w contig ↔ x ∈ sk.minimizerHashs w contig) ∧
        (sk.minimizerHashs w contig ≠ [] → hashs.size < hashs'.size)) ∧
    (1 ≤ k + w → k + w ≤ 2 ^ 64 → min_read_size k w = k + w - 1) ∧
    min_read_size 15 10 = 24 ∧
    (runTasks exampleSketcher 15 10 execLengths (ParallelRecordCollector.new Nat 2)).map
      (fun c => c.recs) = some [[30, 40, 40, 50], []] := by
  refine ⟨?_, ?_, min_read_size_eq k w, by decide, by decide⟩
  · intro hlt
    unfold task
    rw [if_neg (by omega)]
  · intro hge
    obtain ⟨c', h1, h2, _, h4⟩ := addAll_spec hashs thread (localMinimizers sk w contig) ht
    have hsize : c'.size = hashs.size + (localMinimizers sk w contig).length := by
      rw [size_eq_length_flatten, size_eq_length_flatten, h4.length_eq, List.length_append]
    refine ⟨c', ?_, h2, hsize, mem_localMinimizers sk w contig, ?_⟩
    · unfold task
      rw [if_pos hge]
      exact h1
    · intro hne
      obtain ⟨x, hx⟩ := List.exists_mem_of_ne_nil _ hne
      have hx' := (mem_localMinimizers sk w contig x).2 hx
      have := List.length_pos_of_mem hx'
      omega

/-- Witness of C6: `k = 15`, `w = 10`, a record of length 5 (one less than needed would be
23) run by thread 1 of 2. -/
theorem task_length_filter_witness :
    1 < (ParallelRecordCollector.new Nat 2).recs.length ∧
    task exampleSketcher 15 10 (ParallelRecordCollector.new Nat 2) 1 1 5
      = some (ParallelRecordCollector.new Nat 2) ∧
    task exampleSketcher 15 10 (ParallelRecordCollector.new Nat 2) 1 1 23
      = some (ParallelRecordCollector.new Nat 2) :=
  ⟨by decide,
    (task_length_filter exampleSketcher 15 10 (ParallelRecordCollector.new Nat 2) 1 1 5
      (by decide)).1 (by decide),
    (task_length_filter exampleSketcher 15 10 (ParallelRecordCollector.new Nat 2) 1 1 23
      (by decide)).1 (by decide)⟩

/-- C7: sorting and deduplicating a record's hashes locally when there are more than 10
of them (and not when there are 10 or fewer) does not change the result: for every `k`,
`w`, every source and every execution, `constructMinimizers` returns, and the Global Index
it returns is the sorted, duplicate-free set of all hashes the sketcher emits for the
records of length at least `k + w - 1`, which is also what the final sort and
deduplication gives on the hashes as the sketcher emits them, with no local
deduplication.  The bound `k + w - 1` is the `size_t` value `min_read_size k w` that the
code computes, the integer `k + w - 1` for all `k`, `w` with `1 ≤ k + w ≤ 2^64`. -/
theorem local_dedup_preserves_index {V H : Type} [LinearOrder H] (sk : Sketcher V H)
    (k w threads : Nat) (size : V → Nat) (reads : List V) (exec : List (TaskRun V))
    (h : IsExecution size threads reads exec) :
    (∃ r, constructMinimizers sk k w threads exec = some r ∧
      r.1 = globalIndexSpec sk (min_read_size k w) w reads ∧
      r.1 = unique (sort ((reads.filter fun c =>
        decide (sk.seqSize c ≥ min_read_size k w)).flatMap (sk.minimizerHashs w))) ∧
      (1 ≤ k + w → k + w ≤ 2 ^ 64 → r.1 = globalIndexSpec sk (k + w - 1) w reads)) ∧
    (∀ contig, 10 < (sk.minimizerHashs w contig).length →
      localMinimizers sk w contig = unique (sort (sk.minimizerHashs w contig))) ∧
    (∀ contig, (sk.minimizerHashs w contig).length ≤ 10 →
      localMinimizers sk w contig = sk.minimizerHashs w contig) := by
  have hspec : unique (sort (reads.flatMap (contribution sk k w)))
      = globalIndexSpec sk (min_read_size k w) w reads := by
    rw [unique_sort_eq_finset_sort]
    unfold globalIndexSpec
    refine congrArg (Finset.sort (· ≤ ·)) (Finset.ext fun x => ?_)
    simp only [List.mem_toFinset, List.mem_flatMap, List.mem_filter, decide_eq_true_eq]
    constructor
    · rintro ⟨r, hr, hx⟩
      unfold contribution at hx
      split at hx
      · rename_i hge
        exact ⟨r, ⟨hr, hge⟩, (mem_localMinimizers sk w r x).1 hx⟩
      · simp at hx
    · rintro ⟨r, ⟨hr, hge⟩, hx⟩
      refine ⟨r, hr, ?_⟩
      unfold contribution
      rw [if_pos hge]
      exact (mem_localMinimizers sk w r x).2 hx
  refine ⟨⟨_, constructMinimizers_eq sk k w threads size reads exec h, hspec, ?_, ?_⟩, ?_, ?_⟩
  · rw [unique_sort_eq_finset_sort]
    exact hspec
  · intro hk hk'
    rw [← min_read_size_eq k w hk hk']
    exact hspec
  · intro contig hlen
    unfold localMinimizers
    exact if_pos hlen
  · intro contig hlen
    unfold localMinimizers
    exact if_neg (by omega)

/-- Witness of C7: the reads `13, 1, 4` on two threads with `k = w = 2`.  The record
`13` has 13 hashes, which the task sorts and deduplicates to `2, 3, 4, 5, 6` before it
appends them; the record `4` has 4 hashes, appended as they are; the record `1` is too
short. -/
theorem local_dedup_preserves_index_witness :
    IsExecution (fun n : Nat => n) 2 [13, 1, 4] execRepeats ∧
    repeatSketcher.minimizerHashs 2 13 = [2, 4, 6, 3, 5, 2, 4, 6, 3, 5, 2, 4, 6] ∧
    localMinimizers repeatSketcher 2 13 = [2, 3, 4, 5, 6] ∧
    localMinimizers repeatSketcher 2 4 = [2, 4, 6, 3] ∧
    (runTasks repeatSketcher 2 2 execRepeats (ParallelRecordCollector.new Nat 2)).map
      (fun c => c.recs) = some [[2, 3, 4, 5, 6], [2, 4, 6, 3]] ∧
    ∃ r, constructMinimizers repeatSketcher 2 2 2 execRepeats = some r ∧
      r.1 = globalIndexSpec repeatSketcher (min_read_size 2 2) 2 [13, 1, 4] ∧
      r.1 = [2, 3, 4, 5, 6] :=
  ⟨isExecution_of_perm _ _ _ _ (by decide) (by decide), by decide, by decide, by decide,
    by decide,
    (local_dedup_preserves_index repeatSketcher 2 2 2 (fun n : Nat => n) [13, 1, 4]
      execRepeats (isExecution_of_perm _ _ _ _ (by decide) (by decide))).1.imp
      fun _ hr => ⟨hr.1, hr.2.1, hr.2.2.1.trans (by decide)⟩⟩

/-- C8: `collectUnique` is idempotent on its own output: if `r` is what `collectUnique`
returns for a collector `c`, then the collector with `r` in a single shard, and every
collector `c'` whose shards hold exactly the values of `r`, returns `r` again; and for
every strictly ascending `s`, sorting `s` and erasing adjacent duplicates gives `s`. -/
theorem collectUnique_idempotent {T : Type} [LinearOrder T] (c c' : ParallelRecordCollector T)
    (s : List T) (hc' : ∀ x, (∃ shard ∈ c'.recs, x ∈ shard) ↔ x ∈ c.collectUnique.1)
    (hs : s.Sorted (· < ·)) :
    (ParallelRecordCollector.collectUnique { recs := [c.collectUnique.1] }).1
        = c.collectUnique.1 ∧
      c'.collectUnique.1 = c.collectUnique.1 ∧
      unique (sort s) = s := by
  have hr : c.collectUnique.1.Sorted (· < ·) := by
    rw [collectUnique_fst]
    exact unique_sorted _ (sort_sorted _)
  refine ⟨?_, ?_, unique_sort_of_sorted s hs⟩
  · rw [collectUnique_fst (T := T)]
    simp only [List.flatten_cons, List.flatten_nil, List.append_nil]
    exact unique_sort_of_sorted _ hr
  · rw [collectUnique_fst c', ← unique_sort_of_sorted _ hr]
    apply unique_sort_congr
    intro x
    rw [List.mem_flatten]
    exact hc' x

/-- Witness of C8: the shards of the worked example, and its result split over two
shards. -/
theorem collectUnique_idempotent_witness :
    ((∀ x, (∃ shard ∈ [[7, 9], [], [3, 1, 3]], x ∈ shard) ↔
        x ∈ (ParallelRecordCollector.collectUnique
          ({ recs := [[7, 3, 7, 9], [3], [], [9, 1]] } : ParallelRecordCollector Nat)).1) ∧
      [1, 3, 7, 9].Sorted (· < ·)) ∧
    (ParallelRecordCollector.collectUnique
        ({ recs := [[7, 9], [], [3, 1, 3]] } : ParallelRecordCollector Nat)).1
      = (ParallelRecordCollector.collectUnique
          ({ recs := [[7, 3, 7, 9], [3], [], [9, 1]] } : ParallelRecordCollector Nat)).1 ∧
    unique (sort [1, 3, 7, 9]) = [1, 3, 7, 9] :=
  have hval : (ParallelRecordCollector.collectUnique
      ({ recs := [[7, 3, 7, 9], [3], [], [9, 1]] } : ParallelRecordCollector Nat)).1
        = [1, 3, 7, 9] := by decide
  have hmem : ∀ x, (∃ shard ∈ [[7, 9], [], [3, 1, 3]], x ∈ shard) ↔
      x ∈ (ParallelRecordCollector.collectUnique
        ({ recs := [[7, 3, 7, 9], [3], [], [9, 1]] } : ParallelRecordCollector Nat)).1 := by
    intro x
    rw [hval]
    simp only [List.mem_cons, List.mem_singleton, List.not_mem_nil, or_false, exists_eq_or_imp,
      exists_eq_left, false_or]
    tauto
  ⟨⟨hmem, by decide⟩,
    (collectUnique_idempotent
      ({ recs := [[7, 3, 7, 9], [3], [], [9, 1]] } : ParallelRecordCollector Nat)
      { recs := [[7, 9], [], [3, 1, 3]] } [1, 3, 7, 9] hmem (by decide)).2⟩

/-- C9: for every execution `constructMinimizers` returns normally; the warning, which
names the length filter `min_read_size` (equal to `k + w - 1` when `1 ≤ k + w ≤ 2^64`), is
logged if and only if the returned Global Index is empty, no other warning is logged, and
on an empty record source the Global Index is empty and the warning is logged. -/
theorem constructMinimizers_warning {V H : Type} [LinearOrder H] (sk : Sketcher V H)
    (k w threads : Nat) (size : V → Nat) (reads : List V) (exec : List (TaskRun V))
    (h : IsExecution size threads reads exec) :
    ∃ r, constructMinimizers sk k w threads exec = some r ∧
      (LogLine.warningNoReadsPassed (min_read_size k w) ∈ r.2 ↔ r.1 = []) ∧
      (∀ m, LogLine.warningNoReadsPassed m ∈ r.2 → m = min_read_size k w) ∧
      (reads = [] → r.1 = [] ∧ LogLine.warningNoReadsPassed (min_read_size k w) ∈ r.2) ∧
      (1 ≤ k + w → k + w ≤ 2 ^ 64 → min_read_size k w = k + w - 1) := by
  refine ⟨_, constructMinimizers_eq sk k w threads size reads exec h, ?_, ?_, ?_,
    min_read_size_eq k w⟩
  · unfold resultOf
    by_cases hnil : unique (sort (reads.flatMap (contribution sk k w))) = []
    · simp [hnil]
    · simp [hnil]
  · intro m hm
    unfold resultOf at hm
    by_cases hnil : unique (sort (reads.flatMap (contribution sk k w))) = []
    · simpa [hnil] using hm
    · simp [hnil] at hm
  · intro hreads
    subst hreads
    constructor
    · rfl
    · simp [resultOf, sort, unique]

/-- Witness of C9: the empty record source on four threads. -/
theorem constructMinimizers_warning_witness :
    IsExecution (fun n : Nat => n) 4 [] [] ∧
    ∃ r, constructMinimizers exampleSketcher 15 10 4 [] = some r ∧
      (LogLine.warningNoReadsPassed (min_read_size 15 10) ∈ r.2 ↔ r.1 = []) :=
  ⟨isExecution_of_perm _ _ _ _ (by decide) (by decide),
    (constructMinimizers_warning exampleSketcher 15 10 4 (fun n : Nat => n) [] []
      (isExecution_of_perm _ _ _ _ (by decide) (by decide))).imp
      fun _ hr => ⟨hr.1, hr.2.1⟩⟩

/-! ## runInFork -/

theorem WEXITSTATUS_eq (status : Nat) : WEXITSTATUS status = status / 256 % 256 := by
  have h : (0xff00 : Nat) = (2 ^ 8 - 1) <<< 8 := by decide
  have h2 : status / 256 % 256 = (status >>> 8) % 2 ^ 8 := by
    rw [Nat.shiftRight_eq_div_pow]
    norm_num
  unfold WEXITSTATUS
  rw [h2, h]
  apply Nat.eq_of_testBit_eq
  intro j
  simp only [Nat.testBit_shiftRight, Nat.testBit_and, Nat.testBit_shiftLeft,
    Nat.testBit_two_pow_sub_one, Nat.testBit_mod_two_pow]
  by_cases hj : j < 8
  · simp [hj]
  · simp [hj]

theorem WIFSIGNALED_iff (status : Nat) :
    WIFSIGNALED status = true ↔ 1 ≤ status % 128 ∧ status % 128 ≤ 126 := by
  have h : (0x7f : Nat) = 2 ^ 7 - 1 := by decide
  unfold WIFSIGNALED toSignedChar
  rw [h, Nat.and_pow_two_sub_one_eq_mod, Int.shiftRight_eq_div_pow]
  simp only [decide_eq_true_eq]
  norm_num
  split <;> omega

theorem runInFork_parent (p : Int) (hp : 0 < p) (f : Outcome) (status : Nat) :
    (runInFork p f status).2 =
      if status / 256 % 256 ≠ 0 ∨ (1 ≤ status % 128 ∧ status % 128 ≤ 126) then
        Outcome.terminates (Termination.exited 1)
      else Outcome.returns := by
  unfold runInFork
  rw [if_neg (by omega), if_neg (by omega)]
  by_cases hs : WIFSIGNALED status = true
  · have hs' := (WIFSIGNALED_iff status).1 hs
    rw [if_pos (by simp [hs]), if_pos (Or.inr hs')]
  · have hs' : ¬ (1 ≤ status % 128 ∧ status % 128 ≤ 126) := fun h =>
      hs ((WIFSIGNALED_iff status).2 h)
    rw [Bool.not_eq_true] at hs
    by_cases he : status / 256 % 256 = 0
    · rw [if_neg (by simp [hs, WEXITSTATUS_eq, he]), if_neg (by tauto)]
    · rw [if_pos (by simp [hs, WEXITSTATUS_eq, he]), if_pos (Or.inl he)]

theorem waitStatus_exited (code : Nat) :
    waitStatus (Termination.exited code) = code % 256 * 256 := by
  show (code % 256) <<< 8 = code % 256 * 256
  rw [Nat.shiftLeft_eq]

/-- C10: in the parent (`fork` returned `p > 0`), after `waitpid`, `runInFork` terminates
the calling process with exit status 1 if and only if the wait status shows a non-zero
exit status or termination by a signal, and returns normally otherwise.  The child of
`runInFork(f)` always terminates inside `runInFork`: with exit status 0 when the unit of
work simply returns (the `exit(0)` after `f()`), and as the unit of work terminates it
otherwise.  So a unit of work that returns, or that exits with status 0, lets the caller
continue; one that exits with a non-zero status (for instance 1) or is killed by a signal
makes the caller exit with status 1. -/
theorem runInFork_exit_status (p : Int) (hp : 0 < p) (f : Outcome) (status : Nat) :
    ((runInFork p f status).2 = Outcome.terminates (Termination.exited 1) ↔
      (WEXITSTATUS status ≠ 0 ∨ WIFSIGNALED status = true)) ∧
    ((runInFork p f status).2 = Outcome.returns ↔
      (WEXITSTATUS status = 0 ∧ WIFSIGNALED status = false)) ∧
    (∀ code, WEXITSTATUS (waitStatus (Termination.exited code)) = code % 256 ∧
      WIFSIGNALED (waitStatus (Termination.exited code)) = false) ∧
    (∀ sig core, 1 ≤ sig → sig ≤ 126 →
      WEXITSTATUS (waitStatus (Termination.signaled sig core)) = 0 ∧
      WIFSIGNALED (waitStatus (Termination.signaled sig core)) = true) ∧
    (runInFork 0 Outcome.returns status).2 = Outcome.terminates (Termination.exited 0) ∧
    childTermination Outcome.returns = some (Termination.exited 0) ∧
    (∀ t, childTermination (Outcome.terminates t) = some t) ∧
    parentAfterChild p Outcome.returns = some Outcome.returns ∧
    (∀ code, parentAfterChild p (Outcome.terminates (Termination.exited code))
      = some (if code % 256 = 0 then Outcome.returns
          else Outcome.terminates (Termination.exited 1))) ∧
    (∀ sig core, 1 ≤ sig → sig ≤ 126 →
      parentAfterChild p (Outcome.terminates (Termination.signaled sig core))
        = some (Outcome.terminates (Termination.exited 1))) := by
  have hparent := runInFork_parent p hp
  have hsig : ∀ sig (core : Bool), 1 ≤ sig → sig ≤ 126 →
      (sig % 128 + (if core = true then 128 else 0)) / 256 % 256 = 0 ∧
      1 ≤ (sig % 128 + (if core = true then 128 else 0)) % 128 ∧
      (sig % 128 + (if core = true then 128 else 0)) % 128 ≤ 126 := by
    intro sig core h1 h2
    cases core <;> simp <;> omega
  have hmap : ∀ (g : Outcome) (t : Termination), childTermination g = some t →
      parentAfterChild p g = some (runInFork p g (waitStatus t)).2 := by
    intro g t hg
    unfold parentAfterChild
    rw [hg]
    rfl
  refine ⟨?_, ?_, ?_, ?_, rfl, rfl, fun _ => rfl, ?_, ?_, ?_⟩
  · rw [hparent f status, WEXITSTATUS_eq, WIFSIGNALED_iff]
    split
    · rename_i hc
      exact ⟨fun _ => hc, fun _ => rfl⟩
    · rename_i hc
      exact ⟨fun h => Outcome.noConfusion h, fun h => absurd h hc⟩
  · rw [hparent f status, WEXITSTATUS_eq]
    have hb : WIFSIGNALED status = false ↔ ¬ (1 ≤ status % 128 ∧ status % 128 ≤ 126) := by
      rw [← WIFSIGNALED_iff, Bool.not_eq_true]
    rw [hb]
    split
    · rename_i hc
      simp only [reduceCtorEq, false_iff]
      tauto
    · rename_i hc
      simp only [true_iff]
      tauto
  · intro code
    constructor
    · rw [WEXITSTATUS_eq, waitStatus_exited]
      omega
    · have : ¬ (WIFSIGNALED (waitStatus (Termination.exited code)) = true) := by
        rw [WIFSIGNALED_iff, waitStatus_exited]
        omega
      simpa using this
  · intro sig core h1 h2
    obtain ⟨a, b, c⟩ := hsig sig core h1 h2
    exact ⟨by rw [WEXITSTATUS_eq]; exact a, (WIFSIGNALED_iff _).2 ⟨b, c⟩⟩
  · rw [hmap Outcome.returns (Termination.exited 0) rfl, hparent]
    decide
  · intro code
    rw [hmap (Outcome.terminates (Termination.exited code)) (Termination.exited code) rfl,
      hparent, waitStatus_exited]
    by_cases hc : code % 256 = 0
    · rw [if_pos hc, if_neg (by omega)]
    · rw [if_neg hc, if_pos (by omega)]
  · intro sig core h1 h2
    rw [hmap (Outcome.terminates (Termination.signaled sig core))
      (Termination.signaled sig core) rfl, hparent]
    obtain ⟨_, b, c⟩ := hsig sig core h1 h2
    exact congrArg some (if_pos (Or.inr ⟨b, c⟩))

/-- Witness of C10: a parent whose `fork` returned 4242, a unit of work that calls
`exit(1)`, and one that returns. -/
theorem runInFork_exit_status_witness :
    (0 : Int) < 4242 ∧
    parentAfterChild 4242 (Outcome.terminates (Termination.exited 1))
      = some (Outcome.terminates (Termination.exited 1)) ∧
    parentAfterChild 4242 Outcome.returns = some Outcome.returns :=
  ⟨by decide,
    ((runInFork_exit_status 4242 (by decide) (Outcome.terminates (Termination.exited 1))
      0).2.2.2.2.2.2.2.2.1 1).trans (by decide),
    (runInFork_exit_status 4242 (by decide) Outcome.returns 0).2.2.2.2.2.2.2.1⟩

/-! ## add, addAll and size -/

theorem add_spec {T : Type} (c : ParallelRecordCollector T) (thread : Nat) (rec : T)
    (h : thread < c.recs.length) :
    ∃ c', c.add thread rec = some c' ∧
      c'.recs = c.recs.modify (fun row => row ++ [rec]) thread ∧
      c'.recs.length = c.recs.length ∧ c'.recs.flatten.Perm (c.recs.flatten ++ [rec]) := by
  refine ⟨{ recs := c.recs.modify (fun row => row ++ [rec]) thread }, ?_, rfl, ?_, ?_⟩
  · unfold ParallelRecordCollector.add
    rw [if_pos h]
  · exact List.length_modify _ _ _
  · exact flatten_modify_append [rec] c.recs thread h

/-- C11: for a collector with `N` shards and a worker id `w < N`, `add(value)` run by
worker `w` turns shard `w` into `(old shard w) ++ [value]`, `addAll(begin, end)` run by
worker `w` turns shard `w` into `(old shard w) ++ values` (in iteration order), every
other shard is unchanged, the number of shards is unchanged, and `size()`, which is the
sum of the shard sizes, grows by exactly the number of values appended. -/
theorem add_addAll_frame {T : Type} (c : ParallelRecordCollector T) (w : Nat) (value : T)
    (values : List T) (hw : w < c.recs.length) :
    (∃ c', c.add w value = some c' ∧
      c'.recs.length = c.recs.length ∧
      c'.recs[w]? = (c.recs[w]?).map (fun shard => shard ++ [value]) ∧
      (∀ j, j ≠ w → c'.recs[j]? = c.recs[j]?) ∧
      c'.size = c.size + 1) ∧
    (∃ c', c.addAll w values = some c' ∧
      c'.recs.length = c.recs.length ∧
      c'.recs[w]? = (c.recs[w]?).map (fun shard => shard ++ values) ∧
      (∀ j, j ≠ w → c'.recs[j]? = c.recs[j]?) ∧
      c'.size = c.size + values.length) ∧
    c.size = (c.recs.map List.length).sum ∧
    (∃ shard, c.recs[w]? = some shard) := by
  refine ⟨?_, ?_, size_eq_sum c, ⟨c.recs[w], List.getElem?_eq_getElem hw⟩⟩
  · obtain ⟨c', h1, h2, h3, h4⟩ := add_spec c w value hw
    refine ⟨c', h1, h3, ?_, ?_, ?_⟩
    · rw [h2, List.getElem?_modify_eq]
      rfl
    · intro j hj
      rw [h2, List.getElem?_modify_ne _ _ (Ne.symm hj)]
    · rw [size_eq_length_flatten, size_eq_length_flatten, h4.length_eq, List.length_append]
      rfl
  · obtain ⟨c', h1, h2, h3, h4⟩ := addAll_spec c w values hw
    refine ⟨c', h1, h3, ?_, ?_, ?_⟩
    · rw [h2, List.getElem?_modify_eq]
      rfl
    · intro j hj
      rw [h2, List.getElem?_modify_ne _ _ (Ne.symm hj)]
    · rw [size_eq_length_flatten, size_eq_length_flatten, h4.length_eq, List.length_append]

/-- Witness of C11: worker 1 of three appends to the shards `[7], [3], []`. -/
theorem add_addAll_frame_witness :
    1 < (ParallelRecordCollector.mk [[7], [3], []]).recs.length ∧
    (∃ c', (ParallelRecordCollector.mk [[7], [3], []]).addAll 1 [9, 1] = some c' ∧
      c'.recs.length = 3 ∧
      c'.recs[1]? = some [3, 9, 1] ∧
      c'.size = 4) :=
  ⟨by decide,
    (add_addAll_frame (ParallelRecordCollector.mk [[7], [3], []]) 1 5 [9, 1]
      (by decide)).2.1.imp fun _ h => ⟨h.1, h.2.1, h.2.2.1, h.2.2.2.2⟩⟩

/-! ## The hook calls of `processRecords` -/

theorem processRecordsLoop_trace {V : Type} (size : V → Nat) (bl : Nat) :
    ∀ (fuel : Nat) (src : List V) (total total_len : Nat) (run : Run V),
      processRecordsLoop size bl fuel src total total_len = some run →
      run.trace = run.batches.flatMap Batch.events ++ [Event.doInTheEnd]
  | fuel, [], total, total_len, run, h => by
    have : processRecordsLoop size bl fuel [] total total_len
        = some { batches := [], trace := [Event.doInTheEnd], total := total,
                 total_len := total_len } := by cases fuel <;> rfl
    rw [this] at h
    cases h
    rfl
  | 0, v :: rest, _, _, run, h => by
    simp [processRecordsLoop] at h
  | fuel + 1, v :: rest, total, total_len, run, h => by
    unfold processRecordsLoop at h
    simp only at h
    split at h
    · cases h
    · rename_i run' hrun'
      have ih := processRecordsLoop_trace size bl fuel _ _ _ run' hrun'
      cases h
      simp only [List.flatMap_cons, Batch.events, ih, List.append_assoc]

theorem count_events {V : Type} (bs : List (Batch V)) :
    (bs.flatMap Batch.events ++ [Event.doInTheEnd]).count Event.doBefore = bs.length ∧
    (bs.flatMap Batch.events ++ [Event.doInTheEnd]).count Event.doInParallel = bs.length ∧
    (bs.flatMap Batch.events ++ [Event.doInTheEnd]).count Event.doAfter = bs.length ∧
    (bs.flatMap Batch.events ++ [Event.doInTheEnd]).count Event.doInTheEnd = 1 := by
  have hb : ∀ (ts : List Bucket) (e : Event), (∀ t, e ≠ Event.bucket t) →
      (ts.map Event.bucket).count e = 0 := by
    intro ts e he
    rw [List.count_eq_zero]
    intro hmem
    obtain ⟨t, _, ht⟩ := List.mem_map.1 hmem
    exact he t ht.symm
  induction bs with
  | nil => exact ⟨rfl, rfl, rfl, rfl⟩
  | cons b bs ih =>
    obtain ⟨i1, i2, i3, i4⟩ := ih
    simp only [List.flatMap_cons, Batch.events, List.append_assoc, List.count_append,
      List.cons_append, List.nil_append, List.count_cons, List.count_nil] at i1 i2 i3 i4 ⊢
    have h1 := hb b.tasks Event.doBefore (fun t h => Event.noConfusion h)
    have h2 := hb b.tasks Event.doInParallel (fun t h => Event.noConfusion h)
    have h3 := hb b.tasks Event.doAfter (fun t h => Event.noConfusion h)
    have h4 := hb b.tasks Event.doInTheEnd (fun t h => Event.noConfusion h)
    simp only [List.length_cons, h1, h2, h3, h4]
    simp only [beq_self_eq_true, if_true] at i1 i2 i3 i4 ⊢
    simp at i1 i2 i3 i4 ⊢
    omega

/-- C12: for every finite source `processRecords` finishes and its hook calls follow the
pattern: for each batch `doBefore`, then the creation of the `doInParallel` task and of
the batch's bucket tasks, then `doAfter`; after the last batch `doInTheEnd`.  So
`doBefore`, `doInParallel` and `doAfter` are each called once per batch and `doInTheEnd`
exactly once; for an empty source there is no batch, no call of `doBefore`,
`doInParallel`, `doAfter` or `task`, and still one call of `doInTheEnd`. -/
theorem processRecords_hooks {V : Type} (size : V → Nat) (bucket_length : Nat)
    (src : List V) :
    ∃ run, processRecords size bucket_length src = some run ∧
      run.trace = run.batches.flatMap Batch.events ++ [Event.doInTheEnd] ∧
      run.trace.count Event.doBefore = run.batches.length ∧
      run.trace.count Event.doInParallel = run.batches.length ∧
      run.trace.count Event.doAfter = run.batches.length ∧
      run.trace.count Event.doInTheEnd = 1 ∧
      (run.batches = [] ↔ src = []) ∧
      (processRecords size bucket_length ([] : List V)).map
          (fun r => (r.batches.length, r.trace, r.calls))
        = some (0, [Event.doInTheEnd], []) := by
  obtain ⟨run, hrun, hb⟩ := processRecords_batched size bucket_length src
  have htrace := processRecordsLoop_trace size bucket_length _ _ _ _ run hrun
  obtain ⟨c1, c2, c3, c4⟩ := count_events run.batches
  refine ⟨run, hrun, htrace, ?_, ?_, ?_, ?_, ?_, rfl⟩
  · rw [htrace]; exact c1
  · rw [htrace]; exact c2
  · rw [htrace]; exact c3
  · rw [htrace]; exact c4
  · constructor
    · intro hnil
      rw [hnil] at hb
      exact hb
    · intro hsrc
      subst hsrc
      cases hbs : run.batches with
      | nil => rfl
      | cons b bs =>
        rw [hbs] at hb
        exact absurd rfl hb.1

/-! ## Lemmas on the counters of a batch -/

theorem sumRange_append_of_le {V : Type} (size : V → Nat) (items : List V) (v : V)
    (l r : Nat) (hr : r ≤ items.length) :
    sumRange size (items ++ [v]) l r = sumRange size items l r := by
  unfold sumRange
  by_cases hl : l ≤ items.length
  · rw [List.drop_append_of_le_length hl, List.take_append_of_le_length]
    rw [List.length_drop]
    omega
  · have h0 : r - l = 0 := by omega
    rw [h0, List.take_zero, List.take_zero]

theorem sumRange_to_length {V : Type} (size : V → Nat) (items : List V) (l : Nat) :
    sumRange size items l items.length = ((items.drop l).map size).sum := by
  unfold sumRange
  rw [List.take_of_length_le]
  rw [List.length_drop]

theorem sumRange_snoc {V : Type} (size : V → Nat) (items : List V) (v : V) (l : Nat)
    (hl : l ≤ items.length) :
    sumRange size (items ++ [v]) l (items.length + 1)
      = ((items.drop l).map size).sum + size v := by
  have := sumRange_to_length size (items ++ [v]) l
  rw [List.length_append, List.length_singleton] at this
  rw [this, List.drop_append_of_le_length hl, List.map_append, List.sum_append]
  simp

theorem init_sums (V : Type) (size : V → Nat) (bl : Nat) : (Fill.init V).Sums size bl := by
  refine ⟨rfl, le_refl _, Nat.zero_le _, rfl, rfl, ?_, ?_, ?_⟩
  · intro h
    simp [Fill.init] at h
  · intro h
    exact absurd rfl h
  · intro t ht
    simp [Fill.init] at ht

theorem init_full (V : Type) (size : V → Nat) (bl : Nat) (rest : List V) :
    (Fill.init V).Full size bl rest := by
  intro t ht
  simp [Fill.init] at ht

theorem fillStep_sums {V : Type} (size : V → Nat) (bl total : Nat) (v : V) (e : Bool)
    (st : Fill V) (h : st.Sums size bl) (hroom : st.room = true) :
    (fillStep size bl total v e st).Sums size bl := by
  obtain ⟨h0, h0', h1, h2, h3, h4, _, h6⟩ := h
  simp only [Fill.room, Bool.and_eq_true, decide_eq_true_eq] at hroom
  have hold : ∀ t ∈ st.tasks, t.left < t.right ∧ t.right ≤ (st.items ++ [v]).length ∧
      (t.left + 1 < t.right →
        sumRange size (st.items ++ [v]) t.left (t.right - 1) < bl) := by
    intro t ht
    obtain ⟨a, b, c⟩ := h6 t ht
    refine ⟨a, ?_, ?_⟩
    · rw [List.length_append]
      omega
    · intro hlt
      rw [sumRange_append_of_le size st.items v _ _ (by omega)]
      exact c hlt
  have hdl : (st.items ++ [v]).dropLast = st.items := List.dropLast_concat
  rw [fillStep_eq]
  split
  · refine ⟨by simp [h0], le_refl _, ?_, ?_, ?_, ?_, ?_, ?_⟩
    · simp only [List.length_append, List.length_singleton]
      omega
    · simp only [List.map_append, List.sum_append, h2]
      simp
    · simp only [h0]
      rw [List.drop_of_length_le (by simp)]
      rfl
    · intro hlt
      simp only [h0, List.length_append, List.length_singleton] at hlt
      omega
    · intro _
      simp only [hdl]
      omega
    · intro t ht
      rcases List.mem_append.1 ht with ht | ht
      · exact hold t ht
      · simp only [List.mem_singleton] at ht
        subst ht
        refine ⟨by simp only; omega, by simp [h0], ?_⟩
        intro hlt
        simp only at hlt
        simp only [h0, Nat.add_sub_cancel]
        rw [sumRange_append_of_le size st.items v _ _ (le_refl _), sumRange_to_length, ← h3]
        exact h4 (by omega)
  · rename_i hc
    simp only [Bool.or_eq_true, decide_eq_true_eq, not_or, Bool.not_eq_true,
      decide_eq_false_iff_not] at hc
    refine ⟨by simp [h0], by simp only; omega, ?_, ?_, ?_, ?_, ?_, hold⟩
    · simp only [List.length_append, List.length_singleton]
      omega
    · simp only [List.map_append, List.sum_append, h2]
      simp
    · simp only
      rw [List.drop_append_of_le_length (by omega), List.map_append, List.sum_append, h3]
      simp
    · intro _
      simp only
      omega
    · intro _
      simp only [hdl]
      omega

theorem fillStep_full {V : Type} (size : V → Nat) (bl total : Nat) (v : V) (rest : List V)
    (st : Fill V) (h : st.Sums size bl) (hf : st.Full size bl (v :: rest))
    (hroom : st.room = true) :
    (fillStep size bl total v rest.isEmpty st).Full size bl rest := by
  obtain ⟨h0, h0', _, _, h3, _, _, h6⟩ := h
  have hold : ∀ t ∈ st.tasks, bl ≤ sumRange size (st.items ++ [v]) t.left t.right := by
    intro t ht
    rw [sumRange_append_of_le size st.items v _ _ (h6 t ht).2.1]
    rcases hf t ht with hge | ⟨_, hstop⟩
    · exact hge
    · rcases hstop with hnil | hr
      · exact absurd hnil (List.cons_ne_nil _ _)
      · rw [hroom] at hr
        exact absurd hr (by decide)
  rw [fillStep_eq]
  split
  · rename_i hc
    intro t ht
    rcases List.mem_append.1 ht with ht | ht
    · exact Or.inl (hold t ht)
    · simp only [List.mem_singleton] at ht
      subst ht
      simp only [h0]
      rw [sumRange_snoc size st.items v st.left (by omega), ← h3]
      simp only [Bool.or_eq_true, decide_eq_true_eq] at hc
      by_cases hge : bl ≤ st.cur_length + size v
      · exact Or.inl hge
      · refine Or.inr ⟨by simp, ?_⟩
        rcases hc with ((hc | hc) | hc) | hc
        · exact absurd hc hge
        · left
          exact List.isEmpty_iff.1 hc
        · right
          simp only [Fill.room, Bool.and_eq_false_iff, decide_eq_false_iff_not]
          left
          omega
        · right
          simp only [Fill.room, Bool.and_eq_false_iff, decide_eq_false_iff_not]
          right
          omega
  · intro t ht
    exact Or.inl (hold t ht)

theorem fillBatch_sums {V : Type} (size : V → Nat) (bl total : Nat) :
    ∀ (rest : List V) (st : Fill V), st.Sums size bl → st.Full size bl rest →
      (fillBatch size bl total rest st).2.Sums size bl ∧
      ∀ t ∈ (fillBatch size bl total rest st).2.tasks,
        bl ≤ sumRange size (fillBatch size bl total rest st).2.items t.left t.right ∨
          t.right = (fillBatch size bl total rest st).2.items.length
  | [], st, h, hf => by
    refine ⟨h, ?_⟩
    intro t ht
    rcases hf t ht with hge | ⟨hr, _⟩
    · exact Or.inl hge
    · exact Or.inr hr
  | v :: rest, st, h, hf => by
    unfold fillBatch
    split
    · rename_i hroom
      exact fillBatch_sums size bl total rest _ (fillStep_sums size bl total v _ st h hroom)
        (fillStep_full size bl total v rest st h hf hroom)
    · refine ⟨h, ?_⟩
      intro t ht
      rcases hf t ht with hge | ⟨hr, _⟩
      · exact Or.inl hge
      · exact Or.inr hr

/-- A property that holds of every batch `fillBatch` can build holds of all batches of a
run. -/
theorem batched_forall {V : Type} (size : V → Nat) (bl : Nat) (P : Batch V → Prop)
    (hP : ∀ (src : List V) (total : Nat),
      P ((fillBatch size bl total src (Fill.init V)).2.toBatch total)) :
    ∀ (bs : List (Batch V)) (src : List V) (total : Nat), Batched size bl src total bs →
      ∀ b ∈ bs, P b
  | [], _, _, _ => by simp
  | b :: bs, src, total, h => by
    obtain ⟨_, hb, hrest⟩ := h
    intro c hc
    rcases List.mem_cons.1 hc with hc | hc
    · rw [hc, hb]
      exact hP src total
    · exact batched_forall size bl P hP bs _ _ hrest c hc

theorem tiles_dropLast : ∀ (rs : List (Nat × Nat)) (a n : Nat), Tiles a rs n →
    ∀ r ∈ rs.dropLast, r.2 < n
  | [], _, _, _ => by simp
  | [r], _, _, _ => by simp
  | r :: r' :: rs, a, n, h => by
    obtain ⟨_, _, h3⟩ := h
    have h3' := h3
    obtain ⟨h4, h5, h6⟩ := h3'
    have hle := tiles_le _ _ _ h6
    intro x hx
    rw [List.dropLast_cons₂] at hx
    rcases List.mem_cons.1 hx with hx | hx
    · rw [hx]
      omega
    · exact tiles_dropLast (r' :: rs) _ n h3 x hx

/-- The counters of a finished batch. -/
theorem fillBatch_init_sums {V : Type} (size : V → Nat) (bl total : Nat) (src : List V) :
    (fillBatch size bl total src (Fill.init V)).2.Sums size bl ∧
      ∀ t ∈ (fillBatch size bl total src (Fill.init V)).2.tasks,
        bl ≤ sumRange size (fillBatch size bl total src (Fill.init V)).2.items t.left t.right ∨
          t.right = (fillBatch size bl total src (Fill.init V)).2.items.length :=
  fillBatch_sums size bl total src _ (init_sums V size bl) (init_full V size bl src)

/-! ## The caps of a batch and the cutting of buckets -/

/-- Counterexample to C14: the records of sizes `1073741823` and `5000` form one batch
whose `clen` is `1073746823`, above `max_length = 1073741824`. -/
theorem processRecords_clen_exceeds_cap :
    (processRecords (fun n : Nat => n) (1024 * 1024) [1073741823, 5000]).map
        (fun r => r.batches.map fun b => (b.items, b.clen))
      = some [([1073741823, 5000], 1073746823)] ∧
    ¬ (1073746823 ≤ max_length) := by
  decide

/-- C14 (amended): every batch of `processRecords` holds at most `buffer_size = 1048576`
items; its `clen` is the summed size of its items, and the summed size of its items
without the last one is below `max_length = 1073741824`: the cap is tested before a
record is pulled, so `clen` itself is below `max_length` plus the size of the last
record of the batch. -/
theorem processRecords_batch_caps {V : Type} (size : V → Nat) (bucket_length : Nat)
    (src : List V) :
    ∃ run, processRecords size bucket_length src = some run ∧
      ∀ b ∈ run.batches, b.items.length ≤ 1048576 ∧
        b.clen = (b.items.map size).sum ∧
        (b.items.dropLast.map size).sum < 1073741824 ∧
        b.clen < 1073741824 + ((b.items.getLast?.map size).getD 0) := by
  obtain ⟨run, hrun, hb⟩ := processRecords_batched size bucket_length src
  refine ⟨run, hrun, ?_⟩
  have hne := (batched_items size bucket_length _ _ _ hb).2
  intro b hbm
  have hP := batched_forall size bucket_length
    (fun b => b.items.length ≤ buffer_size ∧ b.clen = (b.items.map size).sum ∧
      (b.items ≠ [] → (b.items.dropLast.map size).sum < max_length))
    (fun src total => by
      obtain ⟨⟨_, _, h1, h2, _, _, h5, _⟩, _⟩ :=
        fillBatch_init_sums size bucket_length total src
      exact ⟨h1, h2, h5⟩)
    _ _ _ hb b hbm
  obtain ⟨p1, p2, p3⟩ := hP
  have p3' := p3 (hne b hbm)
  have hcap : max_length = 1073741824 := by decide
  have hbuf : buffer_size = 1048576 := by decide
  rw [hcap] at p3'
  rw [hbuf] at p1
  refine ⟨p1, p2, p3', ?_⟩
  rw [p2]
  obtain ⟨l, a, hla⟩ : ∃ l a, b.items = l ++ [a] := by
    rcases List.eq_nil_or_concat b.items with h | ⟨l, a, h⟩
    · exact absurd h (hne b hbm)
    · exact ⟨l, a, by rw [h, List.concat_eq_append]⟩
  rw [hla] at p3' ⊢
  rw [List.dropLast_concat] at p3'
  simp only [List.map_append, List.sum_append, List.getLast?_append, List.map_cons,
    List.map_nil, List.sum_cons, List.sum_nil]
  simp
  omega

/-- Counterexample to C15: with `bucket_length = 0` the single record of size 5 forms the
bucket `[0, 1)`; its items except the last are none, their summed size is 0, and 0 is not
strictly less than `bucket_length = 0`. -/
theorem processRecords_bucket_prefix_not_below :
    (processRecords (fun n : Nat => n) 0 [5]).map
        (fun r => r.batches.map fun b => b.tasks.map fun t =>
          (t.left, t.right, sumRange (fun n : Nat => n) b.items t.left (t.right - 1)))
      = some [[(0, 1, 0)]] ∧
    ¬ (0 < 0) := by
  decide

/-- C15 (amended): in every batch of `processRecords`, for every bucket that has at least
two items, and for every bucket when `bucket_length > 0`, the summed size of its items
except the last is strictly less than `bucket_length`; every bucket that is not the last
bucket of its batch has summed size at least `bucket_length`; and with
`bucket_length = 0` every record forms its own bucket. -/
theorem processRecords_bucket_cut {V : Type} (size : V → Nat) (bucket_length : Nat)
    (src : List V) :
    ∃ run, processRecords size bucket_length src = some run ∧
      ∀ b ∈ run.batches,
        (∀ t ∈ b.tasks, (t.left + 1 < t.right ∨ 0 < bucket_length) →
          sumRange size b.items t.left (t.right - 1) < bucket_length) ∧
        (∀ t ∈ b.tasks.dropLast, bucket_length ≤ sumRange size b.items t.left t.right) ∧
        (bucket_length = 0 → ∀ t ∈ b.tasks, t.right = t.left + 1) := by
  obtain ⟨run, hrun, hb⟩ := processRecords_batched size bucket_length src
  refine ⟨run, hrun, ?_⟩
  intro b hbm
  have htiles := batched_tiles size bucket_length _ _ _ hb b hbm
  have hP := batched_forall size bucket_length
    (fun b => (∀ t ∈ b.tasks, t.left < t.right ∧ (t.left + 1 < t.right →
        sumRange size b.items t.left (t.right - 1) < bucket_length)) ∧
      ∀ t ∈ b.tasks, bucket_length ≤ sumRange size b.items t.left t.right ∨
        t.right = b.items.length)
    (fun src total => by
      obtain ⟨⟨_, _, _, _, _, _, _, h6⟩, h7⟩ :=
        fillBatch_init_sums size bucket_length total src
      exact ⟨fun t ht => ⟨(h6 t ht).1, (h6 t ht).2.2⟩, h7⟩)
    _ _ _ hb b hbm
  obtain ⟨p1, p2⟩ := hP
  have hone : ∀ t ∈ b.tasks, ¬ t.left + 1 < t.right →
      sumRange size b.items t.left (t.right - 1) = 0 := by
    intro t ht hlt
    have h1 := (p1 t ht).1
    have h0 : t.right - 1 - t.left = 0 := by omega
    unfold sumRange
    rw [h0, List.take_zero]
    rfl
  refine ⟨?_, ?_, ?_⟩
  · intro t ht hor
    by_cases hlt : t.left + 1 < t.right
    · exact (p1 t ht).2 hlt
    · rw [hone t ht hlt]
      rcases hor with h | h
      · exact absurd h hlt
      · exact h
  · intro t ht
    have hmem : t ∈ b.tasks := List.dropLast_subset _ ht
    rcases p2 t hmem with h | h
    · exact h
    · exfalso
      have hr : (t.left, t.right) ∈ b.ranges.dropLast := by
        unfold Batch.ranges
        rw [← List.map_dropLast]
        exact List.mem_map.2 ⟨t, ht, rfl⟩
      have := tiles_dropLast _ _ _ htiles _ hr
      simp only at this
      omega
  · intro hz t ht
    obtain ⟨h1, h2⟩ := p1 t ht
    by_cases hlt : t.left + 1 < t.right
    · have := h2 hlt
      omega
    · omega

/-! ## Lemmas on the iterator -/

theorem remaining_zero {T : Type} (rows : List (List T)) : remaining rows 0 = rows.flatten := by
  cases rows with
  | nil => rfl
  | cons r rows => rfl

theorem skipRows_spec {T : Type} : ∀ (rows : List (List T)) (row col : Nat),
    (∀ r rs, rows = r :: rs → col ≤ r.length) → (rows = [] → col = 0) →
    row ≤ (skipRows rows row col).row ∧
    (skipRows rows row col).row ≤ row + rows.length ∧
    NormalRows (rows.drop ((skipRows rows row col).row - row)) (skipRows rows row col).col ∧
    remaining (rows.drop ((skipRows rows row col).row - row)) (skipRows rows row col).col
      = remaining rows col
  | [], row, col, _, h0 => by
    have hc := h0 rfl
    subst hc
    simp [skipRows, NormalRows]
  | r :: rows, row, col, hle, _ => by
    unfold skipRows
    split
    · rename_i hcol
      obtain ⟨a, b, c, d⟩ := skipRows_spec rows (row + 1) 0
        (fun r rs _ => Nat.zero_le _) (fun _ => rfl)
      have hsub : (skipRows rows (row + 1) 0).row - row
          = ((skipRows rows (row + 1) 0).row - (row + 1)) + 1 := by omega
      rw [hsub, List.drop_succ_cons]
      refine ⟨by omega, by simp only [List.length_cons]; omega, c, ?_⟩
      rw [d, remaining_zero]
      simp [remaining, hcol]
    · rename_i hcol
      have := hle r rows rfl
      have hn : NormalRows (r :: rows) col := by
        show col < r.length
        omega
      refine ⟨le_refl _, Nat.le_add_right _ _, ?_, ?_⟩
      · show NormalRows ((r :: rows).drop (row - row)) col
        rw [Nat.sub_self]
        exact hn
      · show remaining ((r :: rows).drop (row - row)) col = _
        rw [Nat.sub_self]
        rfl

theorem skipRows_normal {T : Type} (data : ParallelRecordCollector T) (row col : Nat)
    (hrow : row ≤ data.recs.length)
    (hle : ∀ r rs, data.recs.drop row = r :: rs → col ≤ r.length)
    (h0 : data.recs.drop row = [] → col = 0) :
    (skipRows (data.recs.drop row) row col).Normal data ∧
    remaining (data.recs.drop (skipRows (data.recs.drop row) row col).row)
        (skipRows (data.recs.drop row) row col).col
      = remaining (data.recs.drop row) col := by
  obtain ⟨a, b, c, d⟩ := skipRows_spec (data.recs.drop row) row col hle h0
  have hdrop : (data.recs.drop row).drop ((skipRows (data.recs.drop row) row col).row - row)
      = data.recs.drop (skipRows (data.recs.drop row) row col).row := by
    rw [List.drop_drop]
    congr 1
    omega
  rw [hdrop] at c d
  rw [List.length_drop] at b
  exact ⟨⟨by omega, c⟩, d⟩

theorem end_eq {T : Type} (data : ParallelRecordCollector T) :
    data.end_ = { row := data.recs.length, col := 0 } := by
  unfold ParallelRecordCollector.end_ Iterator.new
  rw [List.drop_length]
  rfl

theorem begin_normal {T : Type} (data : ParallelRecordCollector T) :
    data.begin.Normal data ∧
      remaining (data.recs.drop data.begin.row) data.begin.col = data.recs.flatten := by
  have := skipRows_normal data 0 0 (Nat.zero_le _) (fun _ _ _ => Nat.zero_le _) (fun _ => rfl)
  rw [List.drop_zero, remaining_zero] at this
  exact this

theorem normal_end_iff {T : Type} (data : ParallelRecordCollector T) (it : Iterator)
    (h : it.Normal data) :
    (it.row ≠ data.end_.row ∨ it.col ≠ data.end_.col) ↔
      remaining (data.recs.drop it.row) it.col ≠ [] := by
  obtain ⟨h1, h2⟩ := h
  rw [end_eq]
  cases hd : data.recs.drop it.row with
  | nil =>
    rw [hd] at h2
    have hlen := congrArg List.length hd
    rw [List.length_drop, List.length_nil] at hlen
    have hc : it.col = 0 := h2
    simp only [remaining, ne_eq, not_true_eq_false, iff_false, not_or, not_not]
    exact ⟨by omega, hc⟩
  | cons r rs =>
    rw [hd] at h2
    have hlen := congrArg List.length hd
    rw [List.length_drop, List.length_cons] at hlen
    have hc : it.col < r.length := h2
    have hne : remaining (r :: rs) it.col ≠ [] := by
      intro hnil
      have := congrArg List.length hnil
      simp only [remaining, List.length_append, List.length_drop, List.length_nil] at this
      omega
    exact ⟨fun _ => hne, fun _ => Or.inl (by show it.row ≠ data.recs.length; omega)⟩

theorem deref_next {T : Type} (data : ParallelRecordCollector T) (it : Iterator)
    (h : it.Normal data) (hne : remaining (data.recs.drop it.row) it.col ≠ []) :
    ∃ x tl, remaining (data.recs.drop it.row) it.col = x :: tl ∧
      Iterator.deref data it = some x ∧
      (Iterator.next data it).Normal data ∧
      remaining (data.recs.drop (Iterator.next data it).row) (Iterator.next data it).col
        = tl := by
  obtain ⟨h1, h2⟩ := h
  cases hd : data.recs.drop it.row with
  | nil =>
    rw [hd] at hne
    exact absurd rfl hne
  | cons r rs =>
    rw [hd] at h2
    have hc : it.col < r.length := h2
    have hlen := congrArg List.length hd
    rw [List.length_drop, List.length_cons] at hlen
    have hrow : data.recs[it.row]? = some r := by
      have := List.head?_drop data.recs it.row
      rw [hd] at this
      exact this.symm
    have hnext := skipRows_normal data it.row (it.col + 1) h1
      (fun r' rs' hr' => by
        rw [hd] at hr'
        cases hr'
        omega)
      (fun hnil => by
        rw [hd] at hnil
        cases hnil)
    refine ⟨r[it.col], r.drop (it.col + 1) ++ rs.flatten, ?_, ?_, hnext.1, ?_⟩
    · show r.drop it.col ++ rs.flatten = _
      rw [List.drop_eq_getElem_cons hc]
      rfl
    · unfold Iterator.deref
      rw [hrow]
      exact List.getElem?_eq_getElem hc
    · unfold Iterator.next
      rw [hnext.2, hd]
      rfl

theorem traverse_spec {T : Type} (data : ParallelRecordCollector T) :
    ∀ (fuel : Nat) (it : Iterator), it.Normal data →
      (remaining (data.recs.drop it.row) it.col).length ≤ fuel →
      traverse data fuel it = some ((remaining (data.recs.drop it.row) it.col).map some)
  | fuel, it, h, hlen => by
    by_cases hne : remaining (data.recs.drop it.row) it.col = []
    · have hend : ¬ (it.row ≠ data.end_.row ∨ it.col ≠ data.end_.col) := fun hc =>
        (normal_end_iff data it h).1 hc hne
      unfold traverse
      rw [if_neg hend, hne]
      rfl
    · have hend := (normal_end_iff data it h).2 hne
      obtain ⟨x, tl, hrem, hderef, hnorm, hrest⟩ := deref_next data it h hne
      cases fuel with
      | zero =>
        rw [hrem] at hlen
        simp at hlen
      | succ fuel =>
        rw [hrem, List.length_cons] at hlen
        have ih := traverse_spec data fuel (Iterator.next data it) hnorm
          (by rw [hrest]; omega)
        unfold traverse
        rw [if_pos hend]
        simp only [ih, hrest, hderef, hrem]
        rfl

/-- C19: traversing a collector with its iterator from `begin()` until it equals `end()`
finishes within `size()` steps and visits exactly `size()` elements: the elements of shard
0, shard 1, ... in insertion order, which is the sequence `collect()` returns; every
dereference is inside a shard (no visited value is `none`); and `begin() == end()` exactly
when all shards are empty. -/
theorem iterator_traversal {T : Type} (data : ParallelRecordCollector T) :
    traverse data data.size data.begin = some (data.recs.flatten.map some) ∧
      traverse data data.size data.begin = some (data.collect.1.map some) ∧
      (data.recs.flatten.map some).length = data.size ∧
      (data.begin = data.end_ ↔ ∀ shard ∈ data.recs, shard = []) ∧
      data.begin.Normal data ∧ data.end_ = { row := data.recs.length, col := 0 } := by
  obtain ⟨hn, hrem⟩ := begin_normal data
  have hsize := size_eq_length_flatten data
  have ht := traverse_spec data data.size data.begin hn (by rw [hrem, hsize])
  rw [hrem] at ht
  refine ⟨ht, by rw [collect_fst]; exact ht, by rw [List.length_map, hsize], ?_, hn,
    end_eq data⟩
  have hiff := normal_end_iff data data.begin hn
  rw [hrem] at hiff
  constructor
  · intro heq
    have hnot : ¬ (data.begin.row ≠ data.end_.row ∨ data.begin.col ≠ data.end_.col) := by
      rw [heq]
      simp
    have hflat : data.recs.flatten = [] := by
      by_contra hc
      exact hnot (hiff.2 hc)
    intro shard hs
    cases hsh : shard with
    | nil => rfl
    | cons x xs =>
      have : x ∈ data.recs.flatten := List.mem_flatten.2 ⟨shard, hs, by rw [hsh]; simp⟩
      rw [hflat] at this
      cases this
  · intro hall
    have hflat : data.recs.flatten = [] := by
      apply List.eq_nil_iff_forall_not_mem.2
      intro x hx
      obtain ⟨shard, hs, hxs⟩ := List.mem_flatten.1 hx
      rw [hall shard hs] at hxs
      cases hxs
    have hnot : ¬ (data.begin.row ≠ data.end_.row ∨ data.begin.col ≠ data.end_.col) :=
      fun hc => hiff.1 hc hflat
    simp only [not_or, not_not] at hnot
    cases hb : data.begin with
    | mk r c =>
      cases he : data.end_ with
      | mk r' c' =>
        rw [hb, he] at hnot
        simp only at hnot
        rw [hnot.1, hnot.2]

/-! ## repeat_resolution::add -/

theorem advanceRev_ok (len : Nat) : ∀ (n pos : Nat), pos + n ≤ len →
    advanceRev len n pos = Except.ok (pos + n)
  | 0, pos, _ => rfl
  | n + 1, pos, h => by
    unfold advanceRev
    rw [if_pos (by omega), advanceRev_ok len n (pos + 1) (by omega)]
    congr 1
    omega

theorem copyPrefix_ok (seq : List Char) : ∀ (n pos : Nat) (new_seq : List Char),
    pos + n ≤ seq.length →
    copyPrefix seq n pos new_seq = Except.ok (new_seq ++ (seq.drop pos).take n)
  | 0, pos, new_seq, _ => by simp [copyPrefix]
  | n + 1, pos, new_seq, h => by
    have hpos : pos < seq.length := by omega
    unfold copyPrefix
    rw [List.getElem?_eq_getElem hpos]
    simp only
    rw [copyPrefix_ok seq n (pos + 1) _ (by omega), List.drop_eq_getElem_cons hpos,
      List.take_succ_cons, List.append_assoc]
    rfl

/-- C20: for edge properties `lhs` and `rhs` whose sequences are both longer than
`overlap_len`, `add` commits no fault (the two `VERIFY`s pass and no iterator is moved or
read past the end) and returns an edge with the given index, the unique flag
`lhs.is_unique() or rhs.is_unique()`, and a sequence of length `overlap_len + 2`: the
character of `lhs` at position `lhs.size() - 1 - overlap_len` followed by the first
`overlap_len + 1` characters of `rhs`. -/
theorem rr_add_overlap (lhs rhs : RREdgeProperty) (overlap_len index : Nat)
    (hl : lhs.size > overlap_len) (hr : rhs.size > overlap_len) :
    ∃ e c, add lhs rhs overlap_len index = Except.ok e ∧
      e.index = index ∧
      e.unique = (lhs.unique || rhs.unique) ∧
      lhs.seq[lhs.size - 1 - overlap_len]? = some c ∧
      e.seq = c :: rhs.seq.take (overlap_len + 1) ∧
      e.seq.length = overlap_len + 2 := by
  have hl' : overlap_len < lhs.seq.length := hl
  have hr' : overlap_len < rhs.seq.length := hr
  have hidx : lhs.seq.length - 1 - overlap_len < lhs.seq.length := by omega
  refine ⟨{ index := index,
            seq := lhs.seq[lhs.seq.length - 1 - overlap_len] :: rhs.seq.take (overlap_len + 1),
            unique := lhs.unique || rhs.unique },
    lhs.seq[lhs.seq.length - 1 - overlap_len], ?_, rfl, rfl,
    List.getElem?_eq_getElem hidx, rfl, ?_⟩
  · unfold add
    rw [if_neg (not_not.2 hl), if_neg (not_not.2 hr)]
    simp only
    rw [advanceRev_ok lhs.seq.length overlap_len 0 (by omega)]
    simp only [Nat.zero_add]
    unfold derefRev
    rw [if_pos hl', List.getElem?_eq_getElem hidx]
    simp only
    rw [copyPrefix_ok rhs.seq (overlap_len + 1) 0 _ (by omega)]
    rfl
  · simp only [List.length_cons, List.length_take]
    omega

/-- Witness of C20: `lhs = ACGT`, `rhs = GTTA`, `overlap_len = 2`, `index = 7`. -/
theorem rr_add_overlap_witness :
    ((RREdgeProperty.mk 1 ['A', 'C', 'G', 'T'] false).size > 2 ∧
      (RREdgeProperty.mk 2 ['G', 'T', 'T', 'A'] true).size > 2) ∧
    ∃ e c, add (RREdgeProperty.mk 1 ['A', 'C', 'G', 'T'] false)
        (RREdgeProperty.mk 2 ['G', 'T', 'T', 'A'] true) 2 7 = Except.ok e ∧
      e.index = 7 ∧ e.unique = true ∧ c = 'C' ∧ e.seq = ['C', 'G', 'T', 'T'] :=
  ⟨⟨by decide, by decide⟩,
    (rr_add_overlap (RREdgeProperty.mk 1 ['A', 'C', 'G', 'T'] false)
      (RREdgeProperty.mk 2 ['G', 'T', 'T', 'A'] true) 2 7 (by decide) (by decide)).imp
      fun _ h => h.imp fun _ h' =>
        ⟨h'.1, h'.2.1, h'.2.2.1, (Option.some.inj h'.2.2.2.1).symm, h'.2.2.2.2.1.trans
          (by rw [← Option.some.inj h'.2.2.2.1]; rfl)⟩⟩

/-! ## Lemmas on `processObjects` -/

theorem pullBucket_spec {V : Type} (bs : Nat) : ∀ (src : List V) (st : ObjFill V),
    ∃ taken, (pullBucket bs src st).2.items = st.items ++ taken ∧
      src = taken ++ (pullBucket bs src st).1 ∧
      (pullBucket bs src st).2.right = st.right + taken.length ∧
      (pullBucket bs src st).2.left = st.left ∧
      (pullBucket bs src st).2.tasks = st.tasks ∧
      (pullBucket bs src st).2.trace = st.trace ++ taken.map ObjEvent.doInOneThread ∧
      (src ≠ [] → st.items.length < buffer_size → st.right - st.left < bs → taken ≠ [])
  | [], st => ⟨[], by simp [pullBucket]⟩
  | v :: rest, st => by
    unfold pullBucket
    split
    · obtain ⟨taken, h1, h2, h3, h4, h5, h6, _⟩ := pullBucket_spec bs rest
        { st with items := st.items ++ [v], trace := st.trace ++ [ObjEvent.doInOneThread v],
                  right := st.right + 1 }
      refine ⟨v :: taken, ?_, ?_, ?_, h4, h5, ?_, fun _ _ _ => List.cons_ne_nil _ _⟩
      · rw [h1]
        simp
      · rw [List.cons_append, ← h2]
      · have h3' : (pullBucket bs rest
            { st with items := st.items ++ [v],
                      trace := st.trace ++ [ObjEvent.doInOneThread v],
                      right := st.right + 1 }).2.right = st.right + 1 + taken.length := h3
        rw [h3', List.length_cons]
        omega
      · rw [h6]
        simp
    · rename_i hc
      refine ⟨[], by simp, rfl, rfl, rfl, rfl, by simp, ?_⟩
      intro _ ha hb
      exfalso
      apply hc
      simp only [Bool.and_eq_true, decide_eq_true_eq]
      exact ⟨ha, hb⟩

theorem cutStep_spec {V : Type} (bs total : Nat) (src : List V) (st : ObjFill V) :
    ∃ taken, (cutStep bs total src st).2.items = st.items ++ taken ∧
      src = taken ++ (cutStep bs total src st).1 ∧
      (cutStep bs total src st).2.tasks = st.tasks ++
        [{ total := total, left := st.items.length,
           right := st.items.length + taken.length }] ∧
      (cutStep bs total src st).2.trace = st.trace ++ taken.map ObjEvent.doInOneThread ++
        [ObjEvent.bucket { total := total, left := st.items.length,
                           right := st.items.length + taken.length }] ∧
      (src ≠ [] → st.items.length < buffer_size → 0 < bs → taken ≠ []) := by
  obtain ⟨taken, h1, h2, h3, h4, h5, h6, h7⟩ := pullBucket_spec bs src
    { st with left := st.items.length, right := st.items.length }
  refine ⟨taken, h1, h2, ?_, ?_, ?_⟩
  · show (pullBucket bs src _).2.tasks ++ [_] = _
    rw [h5, h4, h3]
  · show (pullBucket bs src _).2.trace ++ [_] = _
    rw [h6, h4, h3]
  · intro a b c
    exact h7 a b (by simp only [Nat.sub_self]; exact c)

theorem bucketItems_append_of_le {V : Type} (items taken : List V) (t : Bucket)
    (h : t.right ≤ items.length) :
    bucketItems (items ++ taken) t = bucketItems items t := by
  unfold bucketItems
  by_cases hl : t.left ≤ items.length
  · rw [List.drop_append_of_le_length hl, List.take_append_of_le_length]
    rw [List.length_drop]
    omega
  · have h0 : t.right - t.left = 0 := by omega
    rw [h0, List.take_zero, List.take_zero]

theorem bucketItems_new {V : Type} (items taken : List V) (total : Nat) :
    bucketItems (items ++ taken)
      { total := total, left := items.length, right := items.length + taken.length }
      = taken := by
  unfold bucketItems
  simp

theorem tiles_append : ∀ (rs : List (Nat × Nat)) (a b c : Nat), Tiles a rs b → b < c →
    Tiles a (rs ++ [(b, c)]) c :=
  tiles_snoc

theorem cutStep_inv {V : Type} (bs total : Nat) (src : List V) (st : ObjFill V)
    (h : st.Inv total) (hne : src ≠ []) (hroom : st.items.length < buffer_size)
    (hbs : 0 < bs) :
    (cutStep bs total src st).2.Inv total ∧
      (cutStep bs total src st).2.items ++ (cutStep bs total src st).1 = st.items ++ src ∧
      st.items.length < (cutStep bs total src st).2.items.length ∧
      (cutStep bs total src st).1.length < src.length := by
  obtain ⟨h1, h2, h3⟩ := h
  obtain ⟨taken, e1, e2, e3, e4, e5⟩ := cutStep_spec bs total src st
  have htaken := e5 hne hroom hbs
  have hlen : 0 < taken.length := List.length_pos.2 htaken
  refine ⟨⟨?_, ?_, ?_⟩, ?_, ?_, ?_⟩
  · intro t ht
    rw [e3] at ht
    rw [e1, List.length_append]
    rcases List.mem_append.1 ht with ht | ht
    · exact ⟨(h1 t ht).1, by have := (h1 t ht).2; omega⟩
    · simp only [List.mem_singleton] at ht
      subst ht
      exact ⟨rfl, le_refl _⟩
  · rw [e3, e1, List.map_append, List.length_append]
    exact tiles_snoc _ 0 st.items.length (st.items.length + taken.length) h2 (by omega)
  · rw [e4, e3, e1, List.flatMap_append, h3]
    have hold : st.tasks.flatMap (bucketEvents (st.items ++ taken))
        = st.tasks.flatMap (bucketEvents st.items) := by
      apply List.flatMap_congr
      intro t ht
      unfold bucketEvents
      rw [bucketItems_append_of_le _ _ _ (h1 t ht).2]
    rw [hold]
    simp only [List.flatMap_cons, List.flatMap_nil, List.append_nil, bucketEvents,
      bucketItems_new, List.append_assoc]
  · rw [e1, List.append_assoc, ← e2]
  · rw [e1, List.length_append]
    omega
  · have := congrArg List.length e2
    rw [List.length_append] at this
    omega

theorem cutBuckets_spec {V : Type} (bs total : Nat) (hbs : 0 < bs) :
    ∀ (fuel : Nat) (src : List V) (st : ObjFill V), src.length ≤ fuel → st.Inv total →
      ∃ out, cutBuckets bs total fuel src st = some out ∧ out.2.Inv total ∧
        out.2.items ++ out.1 = st.items ++ src ∧
        st.items.length ≤ out.2.items.length ∧
        (src ≠ [] → st.items.length < buffer_size → st.items.length < out.2.items.length)
  | fuel, src, st, hfuel, hinv => by
    by_cases hc : (!src.isEmpty && decide (st.items.length < buffer_size)) = true
    · have hc' := hc
      simp only [Bool.and_eq_true, Bool.not_eq_true', decide_eq_true_eq] at hc'
      have hne : src ≠ [] := by
        intro h
        rw [h] at hc'
        simp at hc'
      cases fuel with
      | zero =>
        cases src with
        | nil => exact absurd rfl hne
        | cons v rest => simp at hfuel
      | succ fuel =>
        obtain ⟨i1, i2, i3, i4⟩ := cutStep_inv bs total src st hinv hne hc'.2 hbs
        obtain ⟨out, o1, o2, o3, o4, _⟩ := cutBuckets_spec bs total hbs fuel
          (cutStep bs total src st).1 (cutStep bs total src st).2 (by omega) i1
        refine ⟨out, ?_, o2, by rw [o3, i2], by omega, fun _ _ => by omega⟩
        unfold cutBuckets
        rw [if_pos hc]
        exact o1
    · refine ⟨(src, st), ?_, hinv, rfl, le_refl _, ?_⟩
      · unfold cutBuckets
        rw [if_neg hc]
      · intro hne hroom
        exfalso
        apply hc
        simp only [Bool.and_eq_true, Bool.not_eq_true', decide_eq_true_eq]
        refine ⟨?_, hroom⟩
        cases src with
        | nil => exact absurd rfl hne
        | cons v rest => rfl

theorem hookItems_append {V : Type} : ∀ (l₁ l₂ : List (ObjEvent V)),
    hookItems (l₁ ++ l₂) = hookItems l₁ ++ hookItems l₂
  | [], _ => rfl
  | e :: l₁, l₂ => by
    cases e <;> simp [hookItems, hookItems_append l₁ l₂]

theorem hookItems_map {V : Type} : ∀ (l : List V),
    hookItems (l.map ObjEvent.doInOneThread) = l
  | [] => rfl
  | v :: l => by
    rw [List.map_cons, hookItems, hookItems_map l]

theorem hookItems_bucketEvents {V : Type} (items : List V) (t : Bucket) :
    hookItems (bucketEvents items t) = bucketItems items t := by
  unfold bucketEvents
  rw [hookItems_append, hookItems_map]
  simp [hookItems]

theorem hookItems_tiles {V : Type} (items : List V) :
    ∀ (tasks : List Bucket) (a n : Nat),
      Tiles a (tasks.map fun t => (t.left, t.right)) n →
      hookItems (tasks.flatMap (bucketEvents items)) = (items.drop a).take (n - a)
  | [], a, n, h => by
    simp only [List.map_nil, Tiles] at h
    subst h
    simp [hookItems]
  | t :: ts, a, n, h => by
    simp only [List.map_cons, Tiles] at h
    obtain ⟨h1, h2, h3⟩ := h
    have hle := tiles_le _ _ _ h3
    rw [List.flatMap_cons, hookItems_append, hookItems_bucketEvents,
      hookItems_tiles items ts t.right n h3]
    unfold bucketItems
    have hsplit : n - a = (t.right - t.left) + (n - t.right) := by omega
    rw [hsplit, List.take_add, List.drop_drop, h1]
    congr 3
    omega

theorem objFill_init_inv (V : Type) (total : Nat) : (ObjFill.init V).Inv total := by
  refine ⟨?_, rfl, rfl⟩
  intro t ht
  simp [ObjFill.init] at ht

/-- With a positive `bucket_size` and enough fuel the outer loop of `processObjects`
finishes; its task calls number the items of the source from `total`, its trace is made
of the events of its batches, and every batch is non-empty and tiled by its buckets. -/
theorem processObjectsLoop_spec {V : Type} (bs inner : Nat) (hbs : 0 < bs) :
    ∀ (fuel : Nat) (src : List V) (total : Nat), src.length ≤ fuel → src.length ≤ inner →
      ∃ run, processObjectsLoop bs inner fuel src total = some run ∧
        run.batches.flatMap Batch.calls = ((src.enumFrom total).map fun p => (p.1, some p.2)) ∧
        run.trace = run.batches.flatMap Batch.objEvents ++ [ObjEvent.doInTheEnd] ∧
        (run.batches.map fun b => b.items).flatten = src ∧
        ∀ b ∈ run.batches, b.items ≠ [] ∧ Tiles 0 b.ranges b.items.length
  | fuel, [], total, _, _ => by
    refine ⟨{ batches := [], trace := [ObjEvent.doInTheEnd], total := total }, ?_, rfl, rfl,
      rfl, ?_⟩
    · cases fuel <;> rfl
    · simp
  | 0, v :: rest, _, h, _ => by simp at h
  | fuel + 1, v :: rest, total, h, hin => by
    obtain ⟨out, o1, ⟨i1, i2, i3⟩, o3, _, o5⟩ := cutBuckets_spec bs total hbs inner (v :: rest)
      (ObjFill.init V) hin (objFill_init_inv V total)
    have hinit : (ObjFill.init V).items = [] := rfl
    rw [hinit, List.nil_append] at o3
    have hbuf : 0 < buffer_size := by decide
    have hprog := o5 (List.cons_ne_nil _ _) (by rw [hinit]; exact hbuf)
    rw [hinit, List.length_nil] at hprog
    have hlen := congrArg List.length o3
    rw [List.length_append] at hlen
    simp only [List.length_cons] at h hin hlen
    obtain ⟨run, r1, r2, r3, r4, r5⟩ := processObjectsLoop_spec bs inner hbs fuel out.1
      (total + out.2.items.length) (by omega) (by omega)
    have hcalls : (out.2.toBatch total).calls
        = (out.2.items.enumFrom total).map fun p => (p.1, some p.2) := by
      rw [← range_calls_eq_enumFrom]
      exact calls_of_tiles _ total _ 0 _ (fun t ht => (i1 t ht).1) i2
    refine ⟨{ run with
        batches := out.2.toBatch total :: run.batches
        trace := [ObjEvent.doBefore, ObjEvent.doInParallel] ++ out.2.trace
          ++ [ObjEvent.doAfter] ++ run.trace }, ?_, ?_, ?_, ?_, ?_⟩
    · unfold processObjectsLoop
      rw [o1]
      show Option.map _ (processObjectsLoop bs inner fuel out.1
        (total + out.2.items.length)) = _
      rw [r1]
      rfl
    · show (out.2.toBatch total :: run.batches).flatMap Batch.calls = _
      rw [List.flatMap_cons, r2, hcalls, ← List.map_append, ← List.enumFrom_append, o3]
    · show _ ++ run.trace = (out.2.toBatch total :: run.batches).flatMap Batch.objEvents ++ _
      rw [List.flatMap_cons, r3, i3]
      simp only [Batch.objEvents, ObjFill.toBatch, List.append_assoc]
    · show ((out.2.toBatch total :: run.batches).map fun b => b.items).flatten = _
      rw [List.map_cons, List.flatten_cons, r4]
      exact o3
    · intro b hb
      rcases List.mem_cons.1 hb with hb | hb
      · rw [hb]
        exact ⟨fun hnil => by
          have : out.2.items = [] := hnil
          rw [this] at hprog
          simp at hprog, i2⟩
      · exact r5 b hb

theorem hookItems_batches {V : Type} : ∀ (bs : List (Batch V)),
    (∀ b ∈ bs, Tiles 0 b.ranges b.items.length) →
    hookItems (bs.flatMap Batch.objEvents) = (bs.map fun b => b.items).flatten
  | [], _ => rfl
  | b :: bs, h => by
    have hb := h b (List.mem_cons_self _ _)
    rw [List.flatMap_cons, hookItems_append,
      hookItems_batches bs (fun c hc => h c (List.mem_cons_of_mem _ hc)),
      List.map_cons, List.flatten_cons]
    congr 1
    unfold Batch.objEvents
    rw [hookItems_append, hookItems_append, hookItems_tiles b.items b.tasks 0 _ hb]
    simp [hookItems]

/-- C13: for every finite source of `n` items and every `bucket_size ≥ 1`,
`processObjects` finishes; `doInOneThread` is called exactly once on each item, in source
order; the calls on the items of a bucket come immediately before the creation of that
bucket's task (the trace of a batch is `doBefore`, `doInParallel`, then bucket after
bucket the `doInOneThread` calls on its items followed by the creation of its task, then
`doAfter`); and the task function is called exactly `n` times, with the identifiers
`0, ..., n-1`, identifier `j` with the `j`-th item. -/
theorem processObjects_hooks_and_calls {V : Type} (bucket_size : Nat) (src : List V)
    (hbs : 1 ≤ bucket_size) :
    ∃ run, processObjects bucket_size src = some run ∧
      run.calls = src.enum.map (fun p => (p.1, some p.2)) ∧
      run.calls.length = src.length ∧
      run.calls.map Prod.fst = List.range src.length ∧
      hookItems run.trace = src ∧
      run.trace = run.batches.flatMap Batch.objEvents ++ [ObjEvent.doInTheEnd] ∧
      ∀ b ∈ run.batches, b.items ≠ [] ∧ Tiles 0 b.ranges b.items.length := by
  obtain ⟨run, r1, r2, r3, r4, r5⟩ := processObjectsLoop_spec bucket_size src.length hbs
    src.length src 0 (le_refl _) (le_refl _)
  have hcalls : run.calls = src.enum.map (fun p => (p.1, some p.2)) := by
    rw [List.enum_eq_enumFrom]
    exact r2
  refine ⟨run, r1, hcalls, ?_, ?_, ?_, r3, r5⟩
  · rw [hcalls]
    simp
  · rw [hcalls, List.map_map]
    have : (Prod.fst ∘ fun p : Nat × V => (p.1, some p.2)) = Prod.fst := rfl
    rw [this, List.enum_eq_enumFrom, List.enumFrom_map_fst, List.range_eq_range']
  · rw [r3, hookItems_append, hookItems_batches _ (fun b hb => (r5 b hb).2), r4]
    simp [hookItems]

/-- Witness of C13: five items in buckets of two. -/
theorem processObjects_hooks_and_calls_witness :
    1 ≤ 2 ∧
    ∃ run, processObjects 2 [10, 20, 30, 40, 50] = some run ∧
      run.calls = [(0, some 10), (1, some 20), (2, some 30), (3, some 40), (4, some 50)] ∧
      hookItems run.trace = [10, 20, 30, 40, 50] :=
  ⟨by decide,
    (processObjects_hooks_and_calls 2 [10, 20, 30, 40, 50] (by decide)).imp
      fun _ h => ⟨h.1, h.2.1, h.2.2.2.2.1⟩⟩

theorem pullBucket_zero {V : Type} (src : List V) (st : ObjFill V) :
    pullBucket 0 src st = (src, st) := by
  cases src with
  | nil => rfl
  | cons v rest =>
    unfold pullBucket
    rw [if_neg]
    simp

theorem cutBuckets_zero {V : Type} (total : Nat) : ∀ (fuel : Nat) (src : List V)
    (st : ObjFill V), src ≠ [] → st.items.length < buffer_size →
    cutBuckets 0 total fuel src st = none
  | fuel, src, st, hne, hroom => by
    have hc : (!src.isEmpty && decide (st.items.length < buffer_size)) = true := by
      simp only [Bool.and_eq_true, Bool.not_eq_true', decide_eq_true_eq]
      refine ⟨?_, hroom⟩
      cases src with
      | nil => exact absurd rfl hne
      | cons v rest => rfl
    unfold cutBuckets
    rw [if_pos hc]
    cases fuel with
    | zero => rfl
    | succ fuel =>
      simp only
      have h1 : (cutStep 0 total src st).1 = src := by
        unfold cutStep
        simp only [pullBucket_zero]
      have h2 : (cutStep 0 total src st).2.items = st.items := by
        unfold cutStep
        simp only [pullBucket_zero]
      exact cutBuckets_zero total fuel _ _ (by rw [h1]; exact hne) (by rw [h2]; exact hroom)

/-- C16 at `bucket_size = 0`: on a non-empty source the first iteration of the
bucket-cutting loop of `processObjects` pulls no item and creates the task of the empty
bucket `[0, 0)`, leaving the source as it was, and no number of iterations finishes the
loop. -/
theorem processObjects_bucket_size_zero {V : Type} (fuel : Nat) (v : V) (rest : List V) :
    processObjectsFuel fuel 0 (v :: rest) = none ∧
      (cutStep 0 0 (v :: rest) (ObjFill.init V)).1 = v :: rest ∧
      (cutStep 0 0 (v :: rest) (ObjFill.init V)).2.items = [] ∧
      (cutStep 0 0 (v :: rest) (ObjFill.init V)).2.tasks
        = [{ total := 0, left := 0, right := 0 }] := by
  refine ⟨?_, ?_, ?_, ?_⟩
  · unfold processObjectsFuel
    cases fuel with
    | zero => rfl
    | succ n =>
      unfold processObjectsLoop
      have hbuf : 0 < buffer_size := by decide
      rw [cutBuckets_zero 0 (n + 1) (v :: rest) (ObjFill.init V) (List.cons_ne_nil _ _) hbuf]
      rfl
  · unfold cutStep
    simp only [pullBucket_zero]
  · unfold cutStep
    simp only [pullBucket_zero]
    rfl
  · unfold cutStep
    simp only [pullBucket_zero]
    rfl

/-! ## `compress`: the loop in place and the loop as a scan -/

theorem cut_le (mx a : Nat) (hmx : 2 ≤ mx) (ha : 2 ≤ a) : cut mx a + 2 ≤ a := by
  unfold cut
  split <;> omega

theorem cut_even (mx a : Nat) : cut mx a % 2 = 0 := by
  unfold cut
  split <;> omega

theorem cut_bound (mx a : Nat) : a - cut mx a ≤ max mx a ∧ (mx < a → a - cut mx a ≤ mx + 1) ∧
    (a ≤ mx → cut mx a = 0) ∧ (mx + 1 < a → 0 < cut mx a) := by
  unfold cut
  split <;> omega

theorem endRun_ok (p : CompressParams) (cur at_len : Nat) (hds : p.dimer_step = 1)
    (hmn : p.min_dimer_to_compress ≤ p.max_dimer_size)
    (hcur : cut p.max_dimer_size at_len ≤ cur) :
    endRun p cur at_len
      = Except.ok (cur - cut p.max_dimer_size at_len, at_len - cut p.max_dimer_size at_len) := by
  unfold endRun
  by_cases h : at_len > p.min_dimer_to_compress
  · rw [if_pos h]
    have hd : (if at_len > p.max_dimer_size then (at_len - p.max_dimer_size) / 2 * 2 else 0)
        = cut p.max_dimer_size at_len := rfl
    simp only [hd, hds, Nat.div_one, Nat.mul_one, ne_eq, not_true_eq_false, if_false,
      Nat.sub_self, Nat.zero_div, Nat.zero_mul, Nat.sub_zero, Nat.not_lt_zero]
    rw [if_neg (by omega)]
  · rw [if_neg h]
    have h0 : cut p.max_dimer_size at_len = 0 := (cut_bound _ _).2.2.1 (by omega)
    rw [h0]
    rfl

theorem copyChar_ok {α : Type} (i cur : Nat) (seq : List α) (c : α) (hi : seq[i]? = some c)
    (hcur : cur < seq.length) : copyChar i cur seq = Except.ok (seq.set cur c, cur + 1) := by
  unfold copyChar
  rw [hi]
  simp only
  rw [if_pos hcur]

theorem reverse_take_getElem?_one {α : Type} (seq : List α) (cur : Nat) (h2 : 2 ≤ cur)
    (hN : cur ≤ seq.length) : (seq.take cur).reverse[1]? = seq[cur - 2]? := by
  rw [List.getElem?_reverse (by rw [List.length_take]; omega), List.length_take,
    Nat.min_eq_left hN, List.getElem?_take_of_lt (by omega)]
  rfl

theorem take_succ_set {α : Type} (seq : List α) (cur : Nat) (c : α) (h : cur < seq.length) :
    (seq.set cur c).take (cur + 1) = seq.take cur ++ [c] := by
  rw [List.take_succ, List.getElem?_set_self h]
  congr 1
  apply List.ext_getElem?
  intro n
  rw [List.getElem?_take, List.getElem?_take, List.getElem?_set]
  split
  · rename_i hn
    rw [if_neg (by omega)]
  · rfl

theorem reverse_take_sub {α : Type} (seq : List α) (cur d : Nat) (_hd : d ≤ cur)
    (hN : cur ≤ seq.length) :
    (seq.take (cur - d)).reverse = (seq.take cur).reverse.drop d := by
  rw [List.drop_reverse, List.take_take, List.length_take, Nat.min_eq_left hN,
    Nat.min_eq_left (Nat.sub_le _ _)]

theorem dimerScan_cons {α : Type} [DecidableEq α] (mx : Nat) (rout : List α) (at_len : Nat)
    (c : α) (rest : List α) :
    dimerScan mx rout at_len (c :: rest)
      = if rout[1]? = some c then dimerScan mx (c :: rout) (at_len + 1) rest
        else dimerScan mx (c :: rout.drop (cut mx at_len)) 2 rest := by
  rw [dimerScan]

/-- One iteration of the loop of `compress` on a character that is still to be read. -/
theorem compressStep_char {α : Type} [DecidableEq α] (p : CompressParams)
    (hds : p.dimer_step = 1) (hmn : p.min_dimer_to_compress ≤ p.max_dimer_size)
    (hmx : 2 ≤ p.max_dimer_size) (i : Nat) (st : CompressState α) (c : α)
    (hi : st.seq[i]? = some c) (h2 : 2 ≤ st.cur) (hcur : st.cur ≤ i)
    (ha2 : 2 ≤ st.at_len) (hat : st.at_len ≤ st.cur) :
    ∃ st', compressStep p i st = Except.ok st' ∧ st'.seq.length = st.seq.length ∧
      2 ≤ st'.cur ∧ st'.cur ≤ i + 1 ∧ 2 ≤ st'.at_len ∧ st'.at_len ≤ st'.cur ∧
      st'.seq.drop (i + 1) = st.seq.drop (i + 1) ∧
      ((st.seq.take st.cur).reverse[1]? = some c →
        (st'.seq.take st'.cur).reverse = c :: (st.seq.take st.cur).reverse ∧
        st'.at_len = st.at_len + 1) ∧
      (¬ (st.seq.take st.cur).reverse[1]? = some c →
        (st'.seq.take st'.cur).reverse
          = c :: (st.seq.take st.cur).reverse.drop (cut p.max_dimer_size st.at_len) ∧
        st'.at_len = 2) := by
  have hiN : i < st.seq.length := by
    by_contra hcon
    rw [List.getElem?_eq_none (by omega)] at hi
    cases hi
  have hcN : st.cur ≤ st.seq.length := by omega
  have hr1 := reverse_take_getElem?_one st.seq st.cur h2 hcN
  have hc2 : st.cur - 2 < st.seq.length := by omega
  have hcont : continuesRun i st = Except.ok (decide (c = st.seq[st.cur - 2])) := by
    unfold continuesRun
    rw [if_pos hiN, if_neg (by omega), hi, List.getElem?_eq_getElem hc2]
  by_cases heq : c = st.seq[st.cur - 2]
  · have hcond : (st.seq.take st.cur).reverse[1]? = some c := by
      rw [hr1, List.getElem?_eq_getElem hc2, heq]
    refine ⟨{ seq := st.seq.set st.cur c, cur := st.cur + 1, at_len := st.at_len + 1 },
      ?_, ?_, ?_, ?_, ?_, ?_, ?_, ?_, ?_⟩
    · unfold compressStep
      rw [hcont, decide_eq_true heq]
      simp only
      rw [copyChar_ok i st.cur st.seq c hi (by omega)]
    · exact List.length_set _ _ _
    · show 2 ≤ st.cur + 1
      omega
    · show st.cur + 1 ≤ i + 1
      omega
    · show 2 ≤ st.at_len + 1
      omega
    · show st.at_len + 1 ≤ st.cur + 1
      omega
    · exact List.drop_set_of_lt _ _ (by omega)
    · intro _
      refine ⟨?_, rfl⟩
      show ((st.seq.set st.cur c).take (st.cur + 1)).reverse = _
      rw [take_succ_set _ _ _ (by omega), List.reverse_append]
      rfl
    · intro hn
      exact absurd hcond hn
  · have hcond : ¬ (st.seq.take st.cur).reverse[1]? = some c := by
      rw [hr1, List.getElem?_eq_getElem hc2]
      intro h
      exact heq (Option.some.inj h).symm
    have hcut := cut_le p.max_dimer_size st.at_len hmx ha2
    refine ⟨{ seq := st.seq.set (st.cur - cut p.max_dimer_size st.at_len) c,
              cur := st.cur - cut p.max_dimer_size st.at_len + 1, at_len := 2 },
      ?_, ?_, ?_, ?_, ?_, ?_, ?_, ?_, ?_⟩
    · unfold compressStep
      rw [hcont, decide_eq_false heq]
      simp only
      rw [endRun_ok p st.cur st.at_len hds hmn (by omega)]
      simp only
      rw [if_pos hiN, copyChar_ok i _ st.seq c hi (by omega)]
    · exact List.length_set _ _ _
    · show 2 ≤ st.cur - cut p.max_dimer_size st.at_len + 1
      omega
    · show st.cur - cut p.max_dimer_size st.at_len + 1 ≤ i + 1
      omega
    · exact le_refl _
    · show 2 ≤ st.cur - cut p.max_dimer_size st.at_len + 1
      omega
    · exact List.drop_set_of_lt _ _ (by omega)
    · intro hy
      exact absurd hy hcond
    · intro _
      refine ⟨?_, rfl⟩
      show ((st.seq.set (st.cur - cut p.max_dimer_size st.at_len) c).take
        (st.cur - cut p.max_dimer_size st.at_len + 1)).reverse = _
      rw [take_succ_set _ _ _ (by omega), List.reverse_append,
        reverse_take_sub st.seq st.cur _ (by omega) hcN]
      rfl

/-- The last iteration of the loop of `compress`, for `i = seq.size()`. -/
theorem compressStep_end {α : Type} [DecidableEq α] (p : CompressParams)
    (hds : p.dimer_step = 1) (hmn : p.min_dimer_to_compress ≤ p.max_dimer_size)
    (hmx : 2 ≤ p.max_dimer_size) (st : CompressState α)
    (hcur : st.cur ≤ st.seq.length) (ha2 : 2 ≤ st.at_len) (hat : st.at_len ≤ st.cur) :
    ∃ st', compressStep p st.seq.length st = Except.ok st' ∧
      st'.seq.length = st.seq.length ∧ st'.cur ≤ st'.seq.length ∧
      (st'.seq.take st'.cur).reverse
        = (st.seq.take st.cur).reverse.drop (cut p.max_dimer_size st.at_len) := by
  have hcut := cut_le p.max_dimer_size st.at_len hmx ha2
  refine ⟨{ seq := st.seq, cur := st.cur - cut p.max_dimer_size st.at_len, at_len := 2 },
    ?_, rfl, ?_, ?_⟩
  · have hcont : continuesRun st.seq.length st = Except.ok false := by
      unfold continuesRun
      rw [if_neg (Nat.lt_irrefl _)]
    unfold compressStep
    rw [hcont]
    simp only
    rw [endRun_ok p st.cur st.at_len hds hmn (by omega)]
    simp only
    rw [if_neg (Nat.lt_irrefl _)]
  · show st.cur - cut p.max_dimer_size st.at_len ≤ st.seq.length
    omega
  · exact reverse_take_sub st.seq st.cur _ (by omega) hcur

/-- The loop of `compress` computes `dimerScan` on the output written so far and the
input not yet read, without a fault. -/
theorem compressLoop_scan {α : Type} [DecidableEq α] (p : CompressParams)
    (hds : p.dimer_step = 1) (hmn : p.min_dimer_to_compress ≤ p.max_dimer_size)
    (hmx : 2 ≤ p.max_dimer_size) :
    ∀ (rest : List α) (i : Nat) (st : CompressState α), st.seq.drop i = rest →
      i ≤ st.seq.length → 2 ≤ st.cur → st.cur ≤ i → 2 ≤ st.at_len → st.at_len ≤ st.cur →
      ∃ st', compressLoop p (rest.length + 1) i st = Except.ok st' ∧
        st'.cur ≤ st'.seq.length ∧
        (st'.seq.take st'.cur).reverse
          = dimerScan p.max_dimer_size (st.seq.take st.cur).reverse st.at_len rest
  | [], i, st, hrest, hi, h2, hcur, ha2, hat => by
    have hiN : i = st.seq.length := by
      have := congrArg List.length hrest
      rw [List.length_drop, List.length_nil] at this
      omega
    subst hiN
    obtain ⟨st', s1, _, s3, s4⟩ := compressStep_end p hds hmn hmx st hcur ha2 hat
    refine ⟨st', ?_, s3, ?_⟩
    · show compressLoop p 1 st.seq.length st = _
      unfold compressLoop
      rw [s1]
      rfl
    · rw [s4]
      rfl
  | c :: rest, i, st, hrest, hi, h2, hcur, ha2, hat => by
    have hiN : i < st.seq.length := by
      have := congrArg List.length hrest
      rw [List.length_drop, List.length_cons] at this
      omega
    have hci : st.seq[i]? = some c := by
      have := List.head?_drop st.seq i
      rw [hrest] at this
      exact this.symm
    have hrest' : st.seq.drop (i + 1) = rest := by
      have := List.drop_eq_getElem_cons hiN
      rw [hrest] at this
      exact (List.cons.inj this).2.symm
    obtain ⟨st1, s1, s2, s3, s4, s5, s6, s7, s8, s9⟩ :=
      compressStep_char p hds hmn hmx i st c hci h2 hcur ha2 hat
    obtain ⟨st', t1, t2, t3⟩ := compressLoop_scan p hds hmn hmx rest (i + 1) st1
      (by rw [s7]; exact hrest') (by rw [s2]; omega) s3 s4 s5 s6
    refine ⟨st', ?_, t2, ?_⟩
    · show compressLoop p (rest.length + 1 + 1) i st = _
      unfold compressLoop
      rw [s1]
      exact t1
    · rw [t3, dimerScan_cons]
      by_cases hcond : (st.seq.take st.cur).reverse[1]? = some c
      · obtain ⟨e1, e2⟩ := s8 hcond
        rw [if_pos hcond, e1, e2]
      · obtain ⟨e1, e2⟩ := s9 hcond
        rw [if_neg hcond, e1, e2]

/-! ## `compress`: the dimer runs of the output -/

theorem periodic_shift {α : Type} (l : List α) (n : Nat) (h : PeriodicOn l 0 n) :
    ∀ (k t : Nat), t + 2 * k < n → l[t]? = l[t + 2 * k]?
  | 0, _, _ => rfl
  | k + 1, t, ht => by
    have h1 := periodic_shift l n h k t (by omega)
    have h2 := h (t + 2 * k) (Nat.zero_le _) (by omega)
    rw [h1, h2]
    congr 1

theorem periodic_shift_even {α : Type} (l : List α) (n d t : Nat) (h : PeriodicOn l 0 n)
    (hd : d % 2 = 0) (ht : t + d < n) : l[t]? = l[d + t]? := by
  have := periodic_shift l n h (d / 2) t (by omega)
  rw [this]
  congr 1
  omega

theorem periodicOn_cons {α : Type} (c : α) (l : List α) (a b : Nat)
    (h : PeriodicOn (c :: l) (a + 1) (b + 1)) : PeriodicOn l a b := by
  intro t h1 h2
  have := h (t + 1) (by omega) (by omega)
  rw [List.getElem?_cons_succ, show t + 1 + 2 = (t + 2) + 1 by omega,
    List.getElem?_cons_succ] at this
  exact this

theorem periodicOn_drop {α : Type} (l : List α) (d a b : Nat)
    (h : PeriodicOn (l.drop d) a b) : PeriodicOn l (a + d) (b + d) := by
  intro t h1 h2
  have := h (t - d) (by omega) (by omega)
  rw [List.getElem?_drop, List.getElem?_drop] at this
  rw [show d + (t - d) = t by omega, show d + (t - d + 2) = t + 2 by omega] at this
  exact this

/-- Under the invariant, a run of length at most `max_dimer_size + 1` bounds every
period-2 stretch of the output. -/
theorem scanInv_runsAtMost {α : Type} (mx : Nat) (rout : List α) (at_len : Nat)
    (h : ScanInv mx rout at_len) (hle : at_len ≤ mx + 1) : RunsAtMost (mx + 1) rout := by
  obtain ⟨h1, h2, _, h4, h5⟩ := h
  intro a b hb hp
  by_cases ha : at_len - 1 ≤ a
  · exact h5 a b ha hb hp
  · by_cases hb' : b ≤ at_len
    · omega
    · exfalso
      have := hp (at_len - 2) (by omega) (by omega)
      rw [show at_len - 2 + 2 = at_len by omega] at this
      exact h4 (by omega) this

theorem scanInv_trim {α : Type} (mx : Nat) (hmx : 2 ≤ mx) (rout : List α) (at_len : Nat)
    (h : ScanInv mx rout at_len) :
    ScanInv mx (rout.drop (cut mx at_len)) (at_len - cut mx at_len) ∧
      at_len - cut mx at_len ≤ mx + 1 ∧
      (rout.drop (cut mx at_len))[0]? = rout[0]? ∧
      (rout.drop (cut mx at_len))[1]? = rout[1]? := by
  obtain ⟨h1, h2, h3, h4, h5⟩ := h
  have hcut := cut_le mx at_len hmx h1
  have heven := cut_even mx at_len
  have hbound := cut_bound mx at_len
  refine ⟨⟨by omega, by rw [List.length_drop]; omega, ?_, ?_, ?_⟩, ?_, ?_, ?_⟩
  · intro t _ ht
    rw [List.getElem?_drop, List.getElem?_drop]
    exact h3 (cut mx at_len + t) (Nat.zero_le _) (by omega)
  · intro hlt
    rw [List.length_drop] at hlt
    rw [List.getElem?_drop, List.getElem?_drop,
      show cut mx at_len + (at_len - cut mx at_len - 2) = at_len - 2 by omega,
      show cut mx at_len + (at_len - cut mx at_len) = at_len by omega]
    exact h4 (by omega)
  · intro a b ha hb hp
    rw [List.length_drop] at hb
    have := h5 (a + cut mx at_len) (b + cut mx at_len) (by omega) (by omega)
      (periodicOn_drop rout _ a b hp)
    omega
  · by_cases hlt : mx < at_len
    · exact hbound.2.1 hlt
    · have := hbound.2.2.1 (by omega)
      omega
  · rw [List.getElem?_drop]
    exact (periodic_shift_even rout at_len _ 0 h3 heven (by omega)).symm
  · rw [List.getElem?_drop]
    exact (periodic_shift_even rout at_len _ 1 h3 heven (by omega)).symm

theorem scanInv_extend {α : Type} (mx : Nat) (rout : List α) (at_len : Nat) (c : α)
    (h : ScanInv mx rout at_len) (hc : rout[1]? = some c) :
    ScanInv mx (c :: rout) (at_len + 1) := by
  obtain ⟨h1, h2, h3, h4, h5⟩ := h
  refine ⟨by omega, by rw [List.length_cons]; omega, ?_, ?_, ?_⟩
  · intro t _ ht
    cases t with
    | zero =>
      show (c :: rout)[0]? = (c :: rout)[1 + 1]?
      rw [List.getElem?_cons_succ, hc, List.getElem?_cons_zero]
    | succ t =>
      rw [List.getElem?_cons_succ, show t + 1 + 2 = (t + 2) + 1 by omega,
        List.getElem?_cons_succ]
      exact h3 t (Nat.zero_le _) (by omega)
  · intro hlt
    rw [List.length_cons] at hlt
    rw [show at_len + 1 - 2 = (at_len - 2) + 1 by omega, List.getElem?_cons_succ,
      List.getElem?_cons_succ]
    exact h4 (by omega)
  · intro a b ha hb hp
    rw [List.length_cons] at hb
    have hp' : PeriodicOn (c :: rout) ((a - 1) + 1) ((b - 1) + 1) := by
      rw [show a - 1 + 1 = a by omega]
      intro t t1 t2
      exact hp t t1 (by omega)
    have := h5 (a - 1) (b - 1) (by omega) (by omega) (periodicOn_cons c rout _ _ hp')
    omega

theorem scanInv_break {α : Type} (mx : Nat) (hmx : 2 ≤ mx) (rout : List α) (at_len : Nat)
    (c : α) (h : ScanInv mx rout at_len) (hc : ¬ rout[1]? = some c) :
    ScanInv mx (c :: rout.drop (cut mx at_len)) 2 := by
  obtain ⟨t1, t2, t3, t4⟩ := scanInv_trim mx hmx rout at_len h
  have hall := scanInv_runsAtMost mx _ _ t1 t2
  obtain ⟨u1, u2, _, _, _⟩ := t1
  refine ⟨le_refl _, by rw [List.length_cons]; omega, ?_, ?_, ?_⟩
  · intro t _ ht
    omega
  · intro _
    show (c :: rout.drop (cut mx at_len))[0]? ≠ (c :: rout.drop (cut mx at_len))[1 + 1]?
    rw [List.getElem?_cons_succ, t4, List.getElem?_cons_zero]
    intro heq
    exact hc heq.symm
  · intro a b ha hb hp
    rw [List.length_cons] at hb
    have hp' : PeriodicOn (c :: rout.drop (cut mx at_len)) ((a - 1) + 1) ((b - 1) + 1) := by
      rw [show a - 1 + 1 = a by omega]
      intro t t1 t2
      exact hp t t1 (by omega)
    have := hall (a - 1) (b - 1) (by omega) (periodicOn_cons c _ _ _ hp')
    omega

/-- The output of `dimerScan` has no period-2 stretch longer than `max_dimer_size + 1`,
has no two equal neighbours when the input has none, and is a subsequence of the output
written before followed by the input. -/
theorem dimerScan_props {α : Type} [DecidableEq α] (mx : Nat) (hmx : 2 ≤ mx) :
    ∀ (rest rout : List α) (at_len : Nat) (q : α), ScanInv mx rout at_len →
      rout.head? = some q → List.Chain (· ≠ ·) q rest → List.Chain' (· ≠ ·) rout →
      RunsAtMost (mx + 1) (dimerScan mx rout at_len rest) ∧
      List.Chain' (· ≠ ·) (dimerScan mx rout at_len rest) ∧
      (dimerScan mx rout at_len rest).reverse.Sublist (rout.reverse ++ rest)
  | [], rout, at_len, q, hinv, _, _, hch => by
    obtain ⟨t1, t2, _, _⟩ := scanInv_trim mx hmx rout at_len hinv
    refine ⟨scanInv_runsAtMost mx _ _ t1 t2, List.Chain'.drop hch _, ?_⟩
    rw [List.append_nil]
    exact (List.drop_sublist _ _).reverse
  | c :: rest, rout, at_len, q, hinv, hq, hchain, hch => by
    rw [List.chain_cons] at hchain
    obtain ⟨hqc, hrest⟩ := hchain
    rw [dimerScan_cons]
    split
    · rename_i hc
      have hch' : List.Chain' (· ≠ ·) (c :: rout) := by
        rw [List.chain'_cons']
        refine ⟨?_, hch⟩
        intro y hy
        rw [hq] at hy
        cases hy
        exact fun h => hqc h.symm
      obtain ⟨r1, r2, r3⟩ := dimerScan_props mx hmx rest (c :: rout) (at_len + 1) c
        (scanInv_extend mx rout at_len c hinv hc) rfl hrest hch'
      refine ⟨r1, r2, ?_⟩
      rw [List.reverse_cons, List.append_assoc] at r3
      exact r3
    · rename_i hc
      obtain ⟨_, _, t3, _⟩ := scanInv_trim mx hmx rout at_len hinv
      have hhead : (rout.drop (cut mx at_len)).head? = some q := by
        rw [List.head?_eq_getElem?, t3, ← List.head?_eq_getElem?, hq]
      have hch' : List.Chain' (· ≠ ·) (c :: rout.drop (cut mx at_len)) := by
        rw [List.chain'_cons']
        refine ⟨?_, List.Chain'.drop hch _⟩
        intro y hy
        rw [hhead] at hy
        cases hy
        exact fun h => hqc h.symm
      obtain ⟨r1, r2, r3⟩ := dimerScan_props mx hmx rest (c :: rout.drop (cut mx at_len)) 2 c
        (scanInv_break mx hmx rout at_len c hinv hc) rfl hrest hch'
      refine ⟨r1, r2, ?_⟩
      rw [List.reverse_cons, List.append_assoc] at r3
      exact r3.trans ((List.drop_sublist _ _).reverse.append_right _)

theorem uniqueAux_chain_ne {T : Type} [DecidableEq T] : ∀ (l : List T) (a : T),
    List.Chain (· ≠ ·) a (uniqueAux a l)
  | [], _ => List.Chain.nil
  | b :: l, a => by
    unfold uniqueAux
    split
    · exact uniqueAux_chain_ne l a
    · rename_i hab
      exact List.Chain.cons hab (uniqueAux_chain_ne l b)

theorem unique_chain_ne {T : Type} [DecidableEq T] (l : List T) :
    List.Chain' (· ≠ ·) (unique l) := by
  cases l with
  | nil => exact List.chain'_nil
  | cons a l => exact uniqueAux_chain_ne l a

theorem uniqueAux_sublist {T : Type} [DecidableEq T] : ∀ (l : List T) (a : T),
    (uniqueAux a l).Sublist l
  | [], _ => List.Sublist.slnil
  | b :: l, a => by
    unfold uniqueAux
    split
    · exact (uniqueAux_sublist l a).cons b
    · exact (uniqueAux_sublist l b).cons₂ b

theorem unique_sublist {T : Type} [DecidableEq T] (l : List T) : (unique l).Sublist l := by
  cases l with
  | nil => exact List.Sublist.slnil
  | cons a l => exact (uniqueAux_sublist l a).cons₂ a

theorem runsAtMost_reverse {α : Type} (n : Nat) (l : List α) (h : RunsAtMost n l) :
    RunsAtMost n l.reverse := by
  intro a b hb hp
  rw [List.length_reverse] at hb
  have := h (l.length - b) (l.length - a) (Nat.sub_le _ _) (by
    intro t t1 t2
    have hp' := hp (l.length - 3 - t) (by omega) (by omega)
    rw [List.getElem?_reverse (by omega), List.getElem?_reverse (by omega)] at hp'
    rw [show l.length - 1 - (l.length - 3 - t) = t + 2 by omega,
      show l.length - 1 - (l.length - 3 - t + 2) = t by omega] at hp'
    exact hp'.symm)
  omega

theorem scanInv_init {α : Type} (mx : Nat) (a b : α) : ScanInv mx [b, a] 2 := by
  refine ⟨le_refl _, le_refl _, ?_, ?_, ?_⟩
  · intro t _ ht
    omega
  · intro h
    simp at h
  · intro a' b' ha hb _
    simp only [List.length_cons, List.length_nil] at hb
    omega

/-- The two ways in which `compress` with homopolymer compression switched on finishes:
the early return on a short string, and the loop, which computes `dimerScan`. -/
theorem compress_on {α : Type} [DecidableEq α] (p : CompressParams) (seq : List α)
    (hc : p.homopolymer_compressing = true) (h4 : 4 ≤ p.min_dimer_to_compress)
    (hmm : p.min_dimer_to_compress ≤ p.max_dimer_size) (hds : p.dimer_step = 1) :
    (p.min_dimer_to_compress ≥ (unique seq).length → compress p seq = Except.ok (unique seq)) ∧
    (∀ a b rest, unique seq = a :: b :: rest →
      p.min_dimer_to_compress < (unique seq).length →
      compress p seq = Except.ok (dimerScan p.max_dimer_size [b, a] 2 rest).reverse) := by
  have hpre : ∀ X : Except CompressFault (List α),
      (compress p seq = if p.min_dimer_to_compress ≥ (unique seq).length then
          Except.ok (unique seq)
        else
          match compressLoop p ((unique seq).length + 1 - 2) 2
              { seq := unique seq, cur := 2, at_len := 2 } with
          | Except.error f => Except.error f
          | Except.ok st =>
            if st.cur ≤ st.seq.length then Except.ok (st.seq.take st.cur)
            else Except.error CompressFault.outOfRange) := by
    intro _
    unfold compress
    rw [hc]
    simp only [Bool.not_true, Bool.false_eq_true, if_false]
    rw [if_neg (not_not.2 hmm), if_neg (not_not.2 h4), if_neg (not_not.2 hds)]
  have hpre' := hpre (Except.ok [])
  constructor
  · intro hshort
    rw [hpre', if_pos hshort]
  · intro a b rest hu hlong
    rw [hpre', if_neg (by omega)]
    obtain ⟨st', s1, s2, s3⟩ := compressLoop_scan p hds hmm (by omega) rest 2
      { seq := unique seq, cur := 2, at_len := 2 } (by rw [hu]; rfl)
      (by rw [hu]; simp) (le_refl _) (le_refl _) (le_refl _) (le_refl _)
    have hlen : (unique seq).length + 1 - 2 = rest.length + 1 := by
      rw [hu]
      simp
    rw [hlen, s1]
    simp only
    rw [if_pos s2]
    have htake : (List.take 2 (unique seq)).reverse = [b, a] := by
      rw [hu]
      rfl
    have s3' : (st'.seq.take st'.cur).reverse = dimerScan p.max_dimer_size [b, a] 2 rest := by
      rw [s3]
      show dimerScan p.max_dimer_size (List.take 2 (unique seq)).reverse 2 rest = _
      rw [htake]
    rw [← s3', List.reverse_reverse]

/-- C17: when `homopolymer_compressing` is true, `4 ≤ min_dimer_to_compress ≤
max_dimer_size` and `dimer_step = 1`, `compress` commits no fault on any input (no
`VERIFY` fails, no index is outside `seq`, no counter is decreased below zero) and
leaves a string with no two equal adjacent characters that is a subsequence of the
input; when `homopolymer_compressing` is false it leaves `seq` unchanged, whatever the
other parameters. -/
theorem compress_no_equal_neighbours {α : Type} [DecidableEq α] (p : CompressParams)
    (seq : List α) (h4 : 4 ≤ p.min_dimer_to_compress)
    (hmm : p.min_dimer_to_compress ≤ p.max_dimer_size) (hds : p.dimer_step = 1) :
    (p.homopolymer_compressing = true →
      ∃ res, compress p seq = Except.ok res ∧ List.Chain' (· ≠ ·) res ∧ res.Sublist seq) ∧
    (∀ p' : CompressParams, p'.homopolymer_compressing = false →
      compress p' seq = Except.ok seq) := by
  constructor
  · intro hc
    obtain ⟨hshort, hlong⟩ := compress_on p seq hc h4 hmm hds
    by_cases hlen : p.min_dimer_to_compress ≥ (unique seq).length
    · exact ⟨unique seq, hshort hlen, unique_chain_ne seq, unique_sublist seq⟩
    · have hch := unique_chain_ne seq
      have hsub := unique_sublist seq
      cases hu : unique seq with
      | nil =>
        rw [hu] at hlen
        simp at hlen
      | cons a l =>
        cases l with
        | nil =>
          rw [hu] at hlen
          simp only [List.length_cons, List.length_nil] at hlen
          omega
        | cons b rest =>
          rw [hu] at hch hsub
          have hab : a ≠ b := (List.chain'_cons.1 hch).1
          have hrest : List.Chain (· ≠ ·) b rest := (List.chain'_cons.1 hch).2
          obtain ⟨_, r2, r3⟩ := dimerScan_props p.max_dimer_size (by omega) rest [b, a] 2 b
            (scanInv_init _ a b) rfl hrest
            (List.chain'_cons.2 ⟨fun h => hab h.symm, List.chain'_singleton a⟩)
          refine ⟨_, hlong a b rest hu (by omega), ?_, ?_⟩
          · rw [List.chain'_reverse]
            exact r2.imp fun _ _ h h' => h h'.symm
          · exact r3.trans hsub
  · intro p' hc'
    unfold compress
    rw [hc']
    rfl

/-- Witness of C17: `AACACACACACGG` with `min_dimer_to_compress = max_dimer_size = 4`. -/
theorem compress_no_equal_neighbours_witness :
    ((4 : Nat) ≤ 4 ∧ (4 : Nat) ≤ 4 ∧ (1 : Nat) = 1) ∧
    ∃ res, compress ⟨true, 4, 4, 1⟩
        ['A', 'A', 'C', 'A', 'C', 'A', 'C', 'A', 'C', 'A', 'C', 'G', 'G'] = Except.ok res ∧
      List.Chain' (· ≠ ·) res ∧
      res.Sublist ['A', 'A', 'C', 'A', 'C', 'A', 'C', 'A', 'C', 'A', 'C', 'G', 'G'] :=
  ⟨⟨le_refl _, le_refl _, rfl⟩,
    (compress_no_equal_neighbours ⟨true, 4, 4, 1⟩
      ['A', 'A', 'C', 'A', 'C', 'A', 'C', 'A', 'C', 'A', 'C', 'G', 'G']
      (le_refl _) (le_refl _) rfl).1 rfl⟩

/-! ## `compress`: the output run by run -/

theorem drop_of_getElem? {α : Type} (l : List α) (x : α) (n : Nat) (h : l[n]? = some x) :
    l.drop n = x :: l.drop (n + 1) := by
  have hn : n < l.length := by
    by_contra hc
    rw [List.getElem?_eq_none (by omega)] at h
    cases h
  rw [List.drop_eq_getElem_cons hn]
  rw [List.getElem?_eq_getElem hn] at h
  rw [Option.some.inj h]

theorem runsScan_nil {α : Type} [DecidableEq α] (rrun : List α) :
    runsScan rrun [] = [rrun.reverse] := by
  rw [runsScan]

theorem runsScan_cons {α : Type} [DecidableEq α] (rrun : List α) (c : α) (rest : List α) :
    runsScan rrun (c :: rest)
      = if rrun[1]? = some c then runsScan (c :: rrun) rest
        else rrun.reverse :: runsScan (c :: rrun.take 1) rest := by
  rw [runsScan]

theorem runsScan_first {α : Type} [DecidableEq α] : ∀ (rest rrun : List α),
    ∃ r rs, runsScan rrun rest = r :: rs ∧ rrun.reverse <+: r
  | [], rrun => ⟨rrun.reverse, [], runsScan_nil rrun, List.prefix_refl _⟩
  | c :: rest, rrun => by
    rw [runsScan_cons]
    split
    · obtain ⟨r, rs, h1, h2⟩ := runsScan_first rest (c :: rrun)
      refine ⟨r, rs, h1, ?_⟩
      rw [List.reverse_cons] at h2
      exact (List.prefix_append _ _).trans h2
    · exact ⟨_, _, rfl, List.prefix_refl _⟩

theorem glue_cons {α : Type} (r : List α) (rs : List (List α)) (h : rs ≠ []) :
    glue (r :: rs) = r.dropLast ++ glue rs := by
  cases rs with
  | nil => exact absurd rfl h
  | cons r' rs => rfl

theorem shorten_reverse {α : Type} (mx : Nat) (rrun : List α) :
    shorten mx rrun.reverse = (rrun.drop (cut mx rrun.length)).reverse := by
  unfold shorten
  rw [List.length_reverse, List.reverse_drop]

theorem take_one_of_getElem? {α : Type} (l : List α) (x : α) (h : l[0]? = some x) :
    l.take 1 = [x] := by
  cases l with
  | nil => cases h
  | cons y l =>
    simp only [List.getElem?_cons_zero, Option.some.injEq] at h
    rw [h]
    rfl

/-- The output of `dimerScan` is the output written before the current run followed by
the runs still to come, each shortened, glued at their shared characters. -/
theorem dimerScan_runs {α : Type} [DecidableEq α] (mx : Nat) (hmx : 2 ≤ mx) :
    ∀ (rest rrun rdone : List α), 2 ≤ rrun.length → PeriodicOn rrun 0 rrun.length →
      (dimerScan mx (rrun ++ rdone) rrun.length rest).reverse
        = rdone.reverse ++ glue ((runsScan rrun rest).map (shorten mx))
  | [], rrun, rdone, h2, _ => by
    have hcut := cut_le mx rrun.length hmx h2
    rw [runsScan_nil, dimerScan, List.drop_append_of_le_length (by omega), List.reverse_append,
      ← shorten_reverse]
    rfl
  | c :: rest, rrun, rdone, h2, hp => by
    have hcut := cut_le mx rrun.length hmx h2
    have h1 : (rrun ++ rdone)[1]? = rrun[1]? := List.getElem?_append_left (by omega)
    rw [dimerScan_cons, runsScan_cons, h1]
    split
    · have hp' : PeriodicOn (c :: rrun) 0 (c :: rrun).length := by
        rename_i hc
        intro t _ ht
        rw [List.length_cons] at ht
        cases t with
        | zero =>
          show (c :: rrun)[0]? = (c :: rrun)[1 + 1]?
          rw [List.getElem?_cons_succ, hc, List.getElem?_cons_zero]
        | succ t =>
          rw [List.getElem?_cons_succ, show t + 1 + 2 = (t + 2) + 1 by omega,
            List.getElem?_cons_succ]
          exact hp t (Nat.zero_le _) (by omega)
      have ih := dimerScan_runs mx hmx rest (c :: rrun) rdone
        (by rw [List.length_cons]; omega) hp'
      rw [List.length_cons, List.cons_append] at ih
      exact ih
    · obtain ⟨x, hx⟩ : ∃ x, rrun[0]? = some x :=
        ⟨rrun[0], List.getElem?_eq_getElem (by omega)⟩
      have hxd : rrun[cut mx rrun.length]? = some x := by
        have := periodic_shift_even rrun rrun.length (cut mx rrun.length) 0 hp
          (cut_even mx rrun.length) (by omega)
        rw [Nat.add_zero] at this
        rw [← this, hx]
      have hdrop := drop_of_getElem? rrun x _ hxd
      have htake := take_one_of_getElem? rrun x hx
      have hp' : PeriodicOn (c :: rrun.take 1) 0 (c :: rrun.take 1).length := by
        intro t _ ht
        rw [htake] at ht
        simp only [List.length_cons, List.length_nil] at ht
        omega
      have ih := dimerScan_runs mx hmx rest (c :: rrun.take 1)
        (rrun.drop (cut mx rrun.length + 1) ++ rdone) (by rw [htake]; simp) hp'
      obtain ⟨r, rs, hrs, _⟩ := runsScan_first rest (c :: rrun.take 1)
      have hne : (runsScan (c :: rrun.take 1) rest).map (shorten mx) ≠ [] := by
        rw [hrs]
        simp
      rw [List.map_cons, glue_cons _ _ hne, shorten_reverse, hdrop, List.reverse_cons,
        List.dropLast_concat, ← List.append_assoc, ← List.reverse_append, ← ih]
      rw [List.drop_append_of_le_length (by omega), hdrop, htake]
      rfl

theorem runsScan_glue {α : Type} [DecidableEq α] : ∀ (rest rrun : List α), rrun ≠ [] →
    glue (runsScan rrun rest) = rrun.reverse ++ rest
  | [], rrun, _ => by
    rw [runsScan_nil, List.append_nil]
    rfl
  | c :: rest, rrun, hne => by
    rw [runsScan_cons]
    split
    · rw [runsScan_glue rest (c :: rrun) (List.cons_ne_nil _ _), List.reverse_cons,
        List.append_assoc]
      rfl
    · obtain ⟨r, rs, hrs, _⟩ := runsScan_first rest (c :: rrun.take 1)
      have hne' : runsScan (c :: rrun.take 1) rest ≠ [] := by
        rw [hrs]
        simp
      rw [glue_cons _ _ hne', runsScan_glue rest (c :: rrun.take 1) (List.cons_ne_nil _ _)]
      cases rrun with
      | nil => exact absurd rfl hne
      | cons x l =>
        simp only [List.take_succ_cons, List.take_zero, List.reverse_cons, List.reverse_nil,
          List.nil_append, List.dropLast_concat, List.append_assoc, List.singleton_append]
        rfl

theorem periodicOn_reverse {α : Type} (l : List α) (hp : PeriodicOn l 0 l.length) :
    PeriodicOn l.reverse 0 l.reverse.length := by
  intro t _ ht
  rw [List.length_reverse] at ht
  rw [List.getElem?_reverse (by omega), List.getElem?_reverse (by omega)]
  have := hp (l.length - 1 - (t + 2)) (Nat.zero_le _) (by omega)
  rw [this]
  congr 1
  omega

theorem runsScan_mem {α : Type} [DecidableEq α] : ∀ (rest rrun : List α), 2 ≤ rrun.length →
    PeriodicOn rrun 0 rrun.length →
    ∀ r ∈ runsScan rrun rest, 2 ≤ r.length ∧ r.length ≤ rrun.length + rest.length ∧
      PeriodicOn r 0 r.length
  | [], rrun, h2, hp => by
    intro r hr
    rw [runsScan_nil, List.mem_singleton] at hr
    subst hr
    exact ⟨by rw [List.length_reverse]; exact h2,
      by rw [List.length_reverse]; exact Nat.le_add_right _ _, periodicOn_reverse rrun hp⟩
  | c :: rest, rrun, h2, hp => by
    intro r hr
    rw [runsScan_cons] at hr
    split at hr
    · rename_i hc
      have hp' : PeriodicOn (c :: rrun) 0 (c :: rrun).length := by
        intro t _ ht
        rw [List.length_cons] at ht
        cases t with
        | zero =>
          show (c :: rrun)[0]? = (c :: rrun)[1 + 1]?
          rw [List.getElem?_cons_succ, hc, List.getElem?_cons_zero]
        | succ t =>
          rw [List.getElem?_cons_succ, show t + 1 + 2 = (t + 2) + 1 by omega,
            List.getElem?_cons_succ]
          exact hp t (Nat.zero_le _) (by omega)
      have := runsScan_mem rest (c :: rrun) (by rw [List.length_cons]; omega) hp' r hr
      simp only [List.length_cons] at this ⊢
      exact ⟨this.1, by omega, this.2.2⟩
    · rcases List.mem_cons.1 hr with hr | hr
      · subst hr
        exact ⟨by rw [List.length_reverse]; exact h2,
          by rw [List.length_reverse]; exact Nat.le_add_right _ _, periodicOn_reverse rrun hp⟩
      · have hlen : (c :: rrun.take 1).length = 2 := by
          rw [List.length_cons, List.length_take]
          omega
        have hp' : PeriodicOn (c :: rrun.take 1) 0 (c :: rrun.take 1).length := by
          intro t _ ht
          omega
        have := runsScan_mem rest (c :: rrun.take 1) (by omega) hp' r hr
        rw [hlen] at this
        rw [List.length_cons]
        exact ⟨this.1, by omega, this.2.2⟩

theorem runsScan_linked {α : Type} [DecidableEq α] : ∀ (rest rrun : List α),
    2 ≤ rrun.length → List.Chain' Linked (runsScan rrun rest)
  | [], rrun, _ => by
    rw [runsScan_nil]
    exact List.chain'_singleton _
  | c :: rest, rrun, h2 => by
    rw [runsScan_cons]
    split
    · exact runsScan_linked rest (c :: rrun) (by rw [List.length_cons]; omega)
    · rename_i hc
      have hlen : (c :: rrun.take 1).length = 2 := by
        rw [List.length_cons, List.length_take]
        omega
      have ih := runsScan_linked rest (c :: rrun.take 1) (by omega)
      obtain ⟨r, rs, hrs, hpre⟩ := runsScan_first rest (c :: rrun.take 1)
      rw [hrs] at ih ⊢
      rw [List.chain'_cons]
      refine ⟨?_, ih⟩
      obtain ⟨x, hx⟩ : ∃ x, rrun[0]? = some x :=
        ⟨rrun[0], List.getElem?_eq_getElem (by omega)⟩
      rw [take_one_of_getElem? rrun x hx] at hpre
      obtain ⟨t, ht⟩ := hpre
      have hr : r = x :: c :: t := by
        rw [← ht]
        rfl
      constructor
      · rw [hr]
        show some x = _
        rw [List.getLast?_reverse, List.head?_eq_getElem?, hx]
      · rw [hr, List.getElem?_cons_succ, List.getElem?_cons_zero, List.length_reverse,
          List.getElem?_reverse (by omega),
          show rrun.length - 1 - (rrun.length - 2) = 1 by omega]
        exact fun h => hc h.symm

theorem cut_zero (mx a : Nat) (h : a ≤ mx + 1) : cut mx a = 0 := by
  unfold cut
  split <;> omega

/-- What shortening does to a period-2 run: at most `max_dimer_size + 1` characters are
left, a run that is not longer than that is left as it is, and the first and the last
character stay. -/
theorem shorten_spec {α : Type} (mx : Nat) (hmx : 2 ≤ mx) (r : List α) (h1 : 1 ≤ r.length)
    (hp : PeriodicOn r 0 r.length) :
    (shorten mx r).length = r.length - cut mx r.length ∧
      (shorten mx r).length ≤ mx + 1 ∧
      (r.length ≤ mx + 1 → shorten mx r = r) ∧
      (shorten mx r).head? = r.head? ∧
      (shorten mx r).getLast? = r.getLast? := by
  have hb := cut_bound mx r.length
  have hz := cut_zero mx r.length
  have hcut : cut mx r.length + 1 ≤ r.length := by
    by_cases h : r.length ≤ mx + 1
    · rw [hz h]
      omega
    · have := cut_le mx r.length hmx (by omega)
      omega
  have hlen : (shorten mx r).length = r.length - cut mx r.length := by
    unfold shorten
    rw [List.length_take]
    omega
  refine ⟨hlen, ?_, ?_, ?_, ?_⟩
  · rw [hlen]
    by_cases h : mx < r.length
    · exact hb.2.1 h
    · omega
  · intro h
    unfold shorten
    rw [hz h, Nat.sub_zero, List.take_length]
  · unfold shorten
    rw [List.head?_take, if_neg (by omega)]
  · rw [List.getLast?_eq_getElem?, List.getLast?_eq_getElem?, hlen]
    unfold shorten
    rw [List.getElem?_take_of_lt (by omega)]
    have := periodic_shift_even r r.length (cut mx r.length)
      (r.length - cut mx r.length - 1) hp (cut_even mx r.length) (by omega)
    rw [this]
    congr 1
    omega

/-- The bound on the period-2 stretches of the output of `dimerScan` alone. -/
theorem scan_runsAtMost {α : Type} [DecidableEq α] (mx : Nat) (hmx : 2 ≤ mx) :
    ∀ (rest rout : List α) (at_len : Nat), ScanInv mx rout at_len →
      RunsAtMost (mx + 1) (dimerScan mx rout at_len rest)
  | [], rout, at_len, hinv => by
    obtain ⟨t1, t2, _, _⟩ := scanInv_trim mx hmx rout at_len hinv
    exact scanInv_runsAtMost mx _ _ t1 t2
  | c :: rest, rout, at_len, hinv => by
    rw [dimerScan_cons]
    split
    · rename_i hc
      exact scan_runsAtMost mx hmx rest (c :: rout) (at_len + 1)
        (scanInv_extend mx rout at_len c hinv hc)
    · rename_i hc
      exact scan_runsAtMost mx hmx rest (c :: rout.drop (cut mx at_len)) 2
        (scanInv_break mx hmx rout at_len c hinv hc)

/-- The maximal period-2 runs of a string: glued at their shared characters they give the
string back, neighbouring runs are linked, and every run is a non-empty period-2 stretch
no longer than the string. -/
theorem dimerRuns_spec {α : Type} [DecidableEq α] (u : List α) :
    glue (dimerRuns u) = u ∧ List.Chain' Linked (dimerRuns u) ∧
      ∀ r ∈ dimerRuns u, 1 ≤ r.length ∧ r.length ≤ u.length ∧ PeriodicOn r 0 r.length := by
  cases u with
  | nil => exact ⟨rfl, List.chain'_nil, by simp [dimerRuns]⟩
  | cons a l =>
    cases l with
    | nil =>
      refine ⟨rfl, List.chain'_singleton _, ?_⟩
      intro r hr
      simp only [dimerRuns, List.mem_singleton] at hr
      subst hr
      refine ⟨le_refl _, le_refl _, ?_⟩
      intro t _ ht
      simp only [List.length_cons, List.length_nil] at ht
      omega
    | cons b rest =>
      have hp : PeriodicOn [b, a] 0 [b, a].length := by
        intro t _ ht
        simp only [List.length_cons, List.length_nil] at ht
        omega
      refine ⟨runsScan_glue rest [b, a] (List.cons_ne_nil _ _),
        runsScan_linked rest [b, a] (le_refl _), ?_⟩
      intro r hr
      have := runsScan_mem rest [b, a] (le_refl _) hp r hr
      simp only [List.length_cons, List.length_nil] at this ⊢
      exact ⟨by omega, by omega, this.2.2⟩

theorem uniqueAux_of_chain_ne {T : Type} [DecidableEq T] : ∀ (l : List T) (a : T),
    List.Chain (· ≠ ·) a l → uniqueAux a l = l
  | [], _, _ => rfl
  | b :: l, a, h => by
    rw [List.chain_cons] at h
    unfold uniqueAux
    rw [if_neg h.1, uniqueAux_of_chain_ne l b h.2]

theorem unique_of_chain_ne {T : Type} [DecidableEq T] (l : List T)
    (h : List.Chain' (· ≠ ·) l) : unique l = l := by
  cases l with
  | nil => rfl
  | cons a l =>
    show a :: uniqueAux a l = a :: l
    rw [uniqueAux_of_chain_ne l a h]

/-- Counterexample to C18: the input `AAAAAA` is one period-2 run of length 6, longer
than `max_dimer_size + 1 = 5`.  `compress` leaves `A`: the run loses 5 characters, an odd
number, and no even number of characters removed from its end gives the result. -/
theorem compress_input_run_odd_cut :
    PeriodicOn ['A', 'A', 'A', 'A', 'A', 'A'] 0 6 ∧
    (⟨true, 4, 4, 1⟩ : CompressParams).max_dimer_size + 1
      < ['A', 'A', 'A', 'A', 'A', 'A'].length ∧
    compress ⟨true, 4, 4, 1⟩ ['A', 'A', 'A', 'A', 'A', 'A'] = Except.ok ['A'] ∧
    (['A', 'A', 'A', 'A', 'A', 'A'].length - ['A'].length) % 2 = 1 ∧
    ¬ ∃ d, d % 2 = 0 ∧ ['A'] = List.take (6 - d) ['A', 'A', 'A', 'A', 'A', 'A'] := by
  refine ⟨?_, by decide, rfl, by decide, ?_⟩
  · intro t _ ht
    have h4 : t < 4 := by omega
    interval_cases t <;> rfl
  · rintro ⟨d, hd, h⟩
    have hl := congrArg List.length h
    simp only [List.length_take, List.length_cons, List.length_nil] at hl
    omega

/-- C18 (amended): when `homopolymer_compressing` is true, `4 ≤ min_dimer_to_compress ≤
max_dimer_size` and `dimer_step = 1`, `compress` returns a string in which no period-2
stretch (hence no maximal period-2 run) is longer than `max_dimer_size + 1`.  The string
is obtained run by run from the maximal period-2 runs of the input as it is after the
first step of `compress`, the removal of repeated neighbours (the input itself when it
has no two equal adjacent characters): every run `r` is replaced by `r` without its last
`cut` characters, where `cut` is even, is 0 for a run of length at most
`max_dimer_size + 1` and positive for a longer one; the shortened run has at most
`max_dimer_size + 1` characters and the first and the last character of `r`. -/
theorem compress_dimer_runs {α : Type} [DecidableEq α] (p : CompressParams) (seq : List α)
    (hc : p.homopolymer_compressing = true) (h4 : 4 ≤ p.min_dimer_to_compress)
    (hmm : p.min_dimer_to_compress ≤ p.max_dimer_size) (hds : p.dimer_step = 1) :
    ∃ res, compress p seq = Except.ok res ∧
      RunsAtMost (p.max_dimer_size + 1) res ∧
      res = glue ((dimerRuns (unique seq)).map (shorten p.max_dimer_size)) ∧
      glue (dimerRuns (unique seq)) = unique seq ∧
      (List.Chain' (· ≠ ·) seq → unique seq = seq) ∧
      List.Chain' Linked (dimerRuns (unique seq)) ∧
      ∀ r ∈ dimerRuns (unique seq),
        PeriodicOn r 0 r.length ∧
        shorten p.max_dimer_size r = r.take (r.length - cut p.max_dimer_size r.length) ∧
        cut p.max_dimer_size r.length % 2 = 0 ∧
        (r.length ≤ p.max_dimer_size + 1 → cut p.max_dimer_size r.length = 0) ∧
        (p.max_dimer_size + 1 < r.length → 0 < cut p.max_dimer_size r.length) ∧
        (shorten p.max_dimer_size r).length = r.length - cut p.max_dimer_size r.length ∧
        (shorten p.max_dimer_size r).length ≤ p.max_dimer_size + 1 ∧
        (shorten p.max_dimer_size r).head? = r.head? ∧
        (shorten p.max_dimer_size r).getLast? = r.getLast? := by
  have hmx : 2 ≤ p.max_dimer_size := by omega
  have huniq : List.Chain' (· ≠ ·) seq → unique seq = seq := unique_of_chain_ne seq
  obtain ⟨hshort, hlong⟩ := compress_on p seq hc h4 hmm hds
  obtain ⟨g1, g2, g3⟩ := dimerRuns_spec (unique seq)
  have hruns : ∀ r ∈ dimerRuns (unique seq),
      PeriodicOn r 0 r.length ∧
      shorten p.max_dimer_size r = r.take (r.length - cut p.max_dimer_size r.length) ∧
      cut p.max_dimer_size r.length % 2 = 0 ∧
      (r.length ≤ p.max_dimer_size + 1 → cut p.max_dimer_size r.length = 0) ∧
      (p.max_dimer_size + 1 < r.length → 0 < cut p.max_dimer_size r.length) ∧
      (shorten p.max_dimer_size r).length = r.length - cut p.max_dimer_size r.length ∧
      (shorten p.max_dimer_size r).length ≤ p.max_dimer_size + 1 ∧
      (shorten p.max_dimer_size r).head? = r.head? ∧
      (shorten p.max_dimer_size r).getLast? = r.getLast? := by
    intro r hr
    obtain ⟨a1, _, a3⟩ := g3 r hr
    obtain ⟨s1, s2, _, s4, s5⟩ := shorten_spec p.max_dimer_size hmx r a1 a3
    exact ⟨a3, rfl, cut_even _ _, cut_zero _ _, (cut_bound _ _).2.2.2, s1, s2, s4, s5⟩
  by_cases hlen : p.min_dimer_to_compress ≥ (unique seq).length
  · refine ⟨unique seq, hshort hlen, ?_, ?_, g1, huniq, g2, hruns⟩
    · intro a b hb _
      omega
    · have hid : (dimerRuns (unique seq)).map (shorten p.max_dimer_size)
          = dimerRuns (unique seq) := by
        rw [List.map_congr_left (g := id), List.map_id]
        intro r hr
        obtain ⟨a1, a2, a3⟩ := g3 r hr
        exact (shorten_spec p.max_dimer_size hmx r a1 a3).2.2.1 (by omega)
      rw [hid, g1]
  · cases hu : unique seq with
    | nil =>
      rw [hu] at hlen
      simp at hlen
    | cons a l =>
      cases l with
      | nil =>
        rw [hu] at hlen
        simp only [List.length_cons, List.length_nil] at hlen
        omega
      | cons b rest =>
        rw [hu] at g1 g2 hruns huniq
        have hp : PeriodicOn [b, a] 0 [b, a].length := by
          intro t _ ht
          simp only [List.length_cons, List.length_nil] at ht
          omega
        have hscan := dimerScan_runs p.max_dimer_size hmx rest [b, a] [] (le_refl _) hp
        rw [List.append_nil, List.reverse_nil, List.nil_append] at hscan
        refine ⟨_, hlong a b rest hu (by omega), ?_, hscan, g1, huniq, g2, hruns⟩
        have hprops : RunsAtMost (p.max_dimer_size + 1)
            (dimerScan p.max_dimer_size [b, a] 2 rest) := by
          -- the bound on the runs does not need the input to be free of equal neighbours
          have hinv := scanInv_init p.max_dimer_size a b
          exact scan_runsAtMost p.max_dimer_size hmx rest [b, a] 2 hinv
        exact runsAtMost_reverse _ _ hprops

/-- Witness of C18: `ACACACACACG` with `min_dimer_to_compress = max_dimer_size = 4`; the
run `ACACACACAC` of length 10 loses 6 characters. -/
theorem compress_dimer_runs_witness :
    ((4 : Nat) ≤ 4 ∧ (4 : Nat) ≤ 4 ∧ (1 : Nat) = 1) ∧
    ∃ res, compress ⟨true, 4, 4, 1⟩
        ['A', 'C', 'A', 'C', 'A', 'C', 'A', 'C', 'A', 'C', 'G'] = Except.ok res ∧
      RunsAtMost 5 res ∧ res = ['A', 'C', 'A', 'C', 'G'] :=
  ⟨⟨le_refl _, le_refl _, rfl⟩,
    (compress_dimer_runs ⟨true, 4, 4, 1⟩
      ['A', 'C', 'A', 'C', 'A', 'C', 'A', 'C', 'A', 'C', 'G'] rfl
      (le_refl _) (le_refl _) rfl).imp fun _ h => ⟨h.1, h.2.1, h.2.2.1.trans (by decide)⟩⟩

end LJA
